import Mathlib

/-!
# TD.extensions: the extension registry of `src/index.js`

A shallow embedding of the module `TD.extensions` (file `src/index.js`) and the
properties of it that the specification states.

Modelling conventions.

* A JavaScript value that is "a string or `undefined`" is an `Option String`
  (`none` is `undefined`).  Every name parameter of the module has this type,
  because `add` passes `extension.name` on, and a descriptor may lack a name.
* The mutable module state (`_list`, `_init`), the persisted array and the
  sequence of lifecycle callbacks invoked so far form the record `State`;
  every function takes the state and returns the new one.
* A JavaScript exception is the `error` case of `Except JsError`.
* The recursive functions (`visit`, and `disable` through `checkDependencies`)
  take a fuel argument on which they recurse structurally.  The entry points
  supply a fuel that is proved sufficient (`resolveDependencyGraph_ne_fuel`,
  `disable_ne_fuel`).
* The lifecycle callbacks `create` and `destroy` are taken to return normally
  and not to call back into the module.
* The writes of the persisted array are counted on `disableCount`, a copy of
  `disable` on the record `Stored`, which carries the state, the presence of
  the key in `window.localStorage` and a counter of the calls of `setItem`.
  There `getAllEnabled` writes `[]` back when the key is absent.  The copy is
  proved to have the outcome of `disable` (`erased_disableCount`).
-/

namespace TDE

/-! ## Data model -/

/-- An extension descriptor.  `name`, `dependencies` and `conflicts` may be
`undefined` (`none`).  The two lifecycle callbacks are opaque side effects: each
is represented by a token that is recorded in `State.log` when it is invoked. -/
structure Extension where
  name : Option String
  dependencies : Option (List String)
  conflicts : Option (List String)
  create : Nat
  destroy : Nat
deriving DecidableEq, Repr

/-- What a call can raise. -/
inductive JsError where
  /-- The value of `throw new Error(message)`. -/
  | error (message : String)
  /-- A `TypeError` raised by the engine: a property read on `undefined`, or
  `Object.create(undefined)`. -/
  | typeError
  /-- Never raised by the program: the result of a recursive model function
  whose fuel is exhausted. -/
  | fuel
deriving DecidableEq, Repr

/-- An invocation of a lifecycle callback, identified by the callback's token. -/
inductive Event where
  | create (callback : Nat)
  | destroy (callback : Nat)
deriving DecidableEq, Repr

/-- The state the module works on.

* `list` is `TD.extensions._list`;
* `init` is `TD.extensions._init`;
* `enabled` is the array that `getAllEnabled()` returns, that is the JSON array
  stored under `'TD.extensions.enabled'` in `window.localStorage`, an absent key
  being read as `[]` (`getAllEnabled` writes `[]` back in that case, so the two
  cannot be told apart through the module);
* `log` is the sequence of lifecycle callbacks invoked so far. -/
structure State where
  list : List Extension
  init : List (Option String)
  enabled : List String
  log : List Event
deriving DecidableEq, Repr

/-- The two local variables `sorted` and `visited` of `resolveDependencyGraph`.
`visited` lists the keys that were assigned `true` on the object `visited`. -/
structure Walk where
  sorted : List String
  visited : List String
deriving DecidableEq, Repr

deriving instance DecidableEq for Except

/-! ## Helpers for the JavaScript built-ins -/

/-- The property names of `Object.prototype` (ECMAScript, with Annex B).  The
local `visited` of `resolveDependencyGraph` is created by the literal `{}`, so it
inherits these properties, and each of them holds a truthy value. -/
def objectPrototypeKeys : List String :=
  ["constructor", "__defineGetter__", "__defineSetter__", "hasOwnProperty",
   "__lookupGetter__", "__lookupSetter__", "isPrototypeOf", "propertyIsEnumerable",
   "toString", "valueOf", "__proto__", "toLocaleString"]

/-- Truthiness of `visited[key]`: the key was assigned `true`, or the key names
a property inherited from `Object.prototype`.  (The assignment
`visited['__proto__'] = true` is ignored by the engine; the key reads truthy
either way.) -/
def visitedTruthy (visited : List String) (key : String) : Bool :=
  decide (key ∈ visited) || decide (key ∈ objectPrototypeKeys)

/-- The message of the error thrown on a circular dependency. -/
def cycleMessage (dependency name : String) (ancestors : List String) : String :=
  "Circular dependency \"" ++ dependency ++ "\" is required by \"" ++ name ++ "\": " ++
    " -> ".intercalate ancestors

/-- The loop `xs.forEach(f)` for a callback `f` that updates a state and may throw. -/
def forEach {α σ ε : Type} (f : α → σ → Except ε σ) : List α → σ → Except ε σ
  | [], s => .ok s
  | x :: xs, s =>
    match f x s with
    | .ok s1 => forEach f xs s1
    | .error e => .error e

/-- The call `array.splice(start, 1)`, for its effect on the array. -/
def splice1 {α : Type} (array : List α) (start : Int) : List α :=
  let first : Int := if start < 0 then max ((array.length : Int) + start) 0 else start
  array.eraseIdx first.toNat

/-- The call `_list.indexOf(extension)`: the first index holding the descriptor,
and `-1` when there is none (in particular when `extension` is `undefined`). -/
def indexOfExtension (list : List Extension) (extension : Option Extension) : Int :=
  match extension with
  | none => -1
  | some e => if e ∈ list then (list.indexOf e : Int) else -1

/-! ## The module -/

/-- `getExtension`: the first registered descriptor with the given name. -/
def getExtension (list : List Extension) (extensionName : Option String) : Option Extension :=
  (list.filter (fun extension => extension.name == extensionName)).head?

/-- `getAll`: the names of all registered descriptors. -/
def getAll (s : State) : List (Option String) :=
  s.list.map (fun extension => extension.name)

/-- `getAllEnabled`: the persisted array. -/
def getAllEnabled (s : State) : List String :=
  s.enabled

/-- `getAllInitialized`. -/
def getAllInitialized (s : State) : List (Option String) :=
  s.init

/-- `isEnabled`: `undefined` is never an element of the persisted array. -/
def isEnabled (s : State) (extensionName : Option String) : Bool :=
  match extensionName with
  | some n => decide (n ∈ getAllEnabled s)
  | none => false

/-- `isInitialized`. -/
def isInitialized (s : State) (extensionName : Option String) : Bool :=
  decide (extensionName ∈ getAllInitialized s)

/-- The inner `extension.dependencies.forEach(function (dependency) ...)` of
`visit`; `recurse` is the recursive call `visit`, `ancestors` the path after the
push of `name`. -/
def visitDependencies (recurse : Option Extension → List String → Walk → Except JsError Walk)
    (list : List Extension) (name : String) (ancestors : List String) :
    List String → Walk → Except JsError Walk
  | [], w => .ok w
  | dependency :: rest, w =>
    if dependency ∈ ancestors then
      .error (.error (cycleMessage dependency name ancestors))
    else if visitedTruthy w.visited dependency then
      visitDependencies recurse list name ancestors rest w
    else
      match recurse (getExtension list (some dependency)) ancestors w with
      | .ok w1 => visitDependencies recurse list name ancestors rest w1
      | .error e => .error e

/-- The function `visit` of `resolveDependencyGraph`; `ancestors` is the array
the call receives (already replaced by `[]` when it is not an array). -/
def visit (list : List Extension) :
    Nat → Option Extension → List String → Walk → Except JsError Walk
  | 0, _, _, _ => .error .fuel
  | fuel + 1, extension, ancestors, w =>
    match extension with
    | none => .error .typeError
    | some extension =>
      match extension.name with
      | none => .ok w
      | some name =>
        let ancestors := ancestors ++ [name]
        let w := { w with visited := name :: w.visited }
        match (match extension.dependencies with
               | some dependencies =>
                 visitDependencies (visit list fuel) list name ancestors dependencies w
               | none => .ok w : Except JsError Walk) with
        | .error e => .error e
        | .ok w =>
          .ok (if name ∈ w.sorted then w else { w with sorted := w.sorted ++ [name] })

/-- `resolveDependencyGraph`: `_list.forEach(visit)`, then `return sorted`.  The
top-level calls receive the element index as `ancestors`, which `visit` replaces
by `[]`.  The function reads `_list` and writes only its two locals. -/
def resolveDependencyGraph (list : List Extension) : Except JsError (List String) :=
  match forEach (fun extension w => visit list (list.length + 1) (some extension) [] w)
      list ⟨[], []⟩ with
  | .ok w => .ok w.sorted
  | .error e => .error e

/-- The result of a call that works on the module state: the value and state it
returns, or the exception it raises together with the state at that moment. -/
abbrev Outcome (α : Type) : Type := Except (JsError × State) α

/-- `reorderExtensions`.  Every name of the resolved order is registered
(`resolve_ok`), so no entry of the new `_list` is
`undefined`. -/
def reorderExtensions (s : State) : Outcome State :=
  match resolveDependencyGraph s.list with
  | .error e => .error (e, s)
  | .ok extensionOrder =>
    .ok { s with list := extensionOrder.filterMap (fun n => getExtension s.list (some n)) }

/-- `reorderEnabledExtensions`. -/
def reorderEnabledExtensions (s : State) (enabledExtensions : List (Option String)) :
    Outcome (List String) :=
  match resolveDependencyGraph s.list with
  | .error e => .error (e, s)
  | .ok extensionOrder =>
    .ok (extensionOrder.filter (fun extension => decide (some extension ∈ enabledExtensions)))

/-- `initializeExtension`.  `Object.create(extension)` invokes no callback; it
raises a `TypeError` when `extension` is `undefined`. -/
def initializeExtension (s : State) (extensionName : Option String) : Outcome State :=
  let extension := getExtension s.list extensionName
  if !isInitialized s extensionName then
    match extension with
    | none => .error (.typeError, s)
    | some _ => .ok { s with init := s.init ++ [extensionName] }
  else
    .ok s

/-- `destroyExtension`. -/
def destroyExtension (s : State) (extensionName : Option String) : Outcome State :=
  let extension := getExtension s.list extensionName
  if isInitialized s extensionName then
    match extension with
    | none => .error (.typeError, s)
    | some e =>
      .ok { s with log := s.log ++ [Event.destroy e.destroy], init := s.init.erase extensionName }
  else
    .ok s

/-- `checkDependencies`, with the function it calls as `disable` a parameter. -/
def checkDependenciesWith (disable : State → Option String → Outcome State)
    (s : State) (extensionName : Option String) : Outcome (Bool × State) :=
  match getExtension s.list extensionName with
  | none => .error (.typeError, s)
  | some extension =>
    match extension.dependencies with
    | none => .ok (true, s)
    | some dependencies =>
      let extensionDependencyStatus :=
        dependencies.all (fun dependency => isEnabled s (some dependency))
      if extensionDependencyStatus = false ∧ isEnabled s extensionName = true then
        match disable s extensionName with
        | .ok s1 => .ok (false, s1)
        | .error e => .error e
      else
        .ok (extensionDependencyStatus, s)

/-- `disable`, by recursion on a fuel. -/
def disableFuel : Nat → State → Option String → Outcome State
  | 0, s, _ => .error (.fuel, s)
  | fuel + 1, s, extensionName =>
    let enabledExtensions := (getAllEnabled s).map some
    match (if isEnabled s extensionName then
        let enabledExtensions := enabledExtensions.erase extensionName
        match reorderEnabledExtensions s enabledExtensions with
        | .error e => .error e
        | .ok enabledExtensions =>
          forEach
            (fun enabledExtension s1 =>
              match checkDependenciesWith (disableFuel fuel) s1 (some enabledExtension) with
              | .ok r => .ok r.2
              | .error e => .error e)
            enabledExtensions { s with enabled := enabledExtensions }
      else .ok s : Outcome State) with
    | .error e => .error e
    | .ok s1 =>
      if isInitialized s1 extensionName then destroyExtension s1 extensionName else .ok s1

/-- `disable`. -/
def disable (s : State) (extensionName : Option String) : Outcome State :=
  disableFuel (s.enabled.length + 1) s extensionName

/-- `checkDependencies`. -/
def checkDependencies (s : State) (extensionName : Option String) : Outcome (Bool × State) :=
  checkDependenciesWith (disableFuel (s.enabled.length + 1)) s extensionName

/-- `checkConflicts`. -/
def checkConflicts (s : State) (extensionName : Option String) : Outcome Bool :=
  match getExtension s.list extensionName with
  | none => .error (.typeError, s)
  | some extension =>
    match extension.conflicts with
    | none => .ok true
    | some conflicts => .ok (!conflicts.any (fun conflict => isEnabled s (some conflict)))

/-- The guarded block of `enable`: the three gates, then the push, the reorder
and the write of the persisted array.  `name` is `extension.name`. -/
def enableGate (s : State) (extensionName name : Option String) : Outcome State :=
  let enabledExtensions := (getAllEnabled s).map some
  if isEnabled s name then .ok s
  else
    match checkDependencies s name with
    | .error e => .error e
    | .ok (false, s1) => .ok s1
    | .ok (true, s1) =>
      match checkConflicts s1 name with
      | .error e => .error e
      | .ok false => .ok s1
      | .ok true =>
        match reorderEnabledExtensions s1 (enabledExtensions ++ [extensionName]) with
        | .error e => .error e
        | .ok enabledExtensions => .ok { s1 with enabled := enabledExtensions }

/-- `enable`. -/
def enable (s : State) (extensionName : Option String) (init : Bool) : Outcome State :=
  match getExtension s.list extensionName with
  | none => .error (.typeError, s)
  | some extension =>
    match enableGate s extensionName extension.name with
    | .error e => .error e
    | .ok s1 => if init then initializeExtension s1 extension.name else .ok s1

/-- `init`. -/
def init (s : State) : Outcome State :=
  forEach (fun extension s1 => initializeExtension s1 (some extension)) (getAllEnabled s) s

/-- `add`.  An exception of `reorderExtensions` is caught and dropped; `_list`
is assigned only when the resolution returns. -/
def add (s : State) (extension : Extension) (enableAfter initAfter : Bool) : Outcome State :=
  if getExtension s.list extension.name = none then
    let s1 := { s with list := s.list ++ [extension] }
    let s2 := match reorderExtensions s1 with
      | .ok s2 => s2
      | .error _ => s1
    if enableAfter then enable s2 extension.name initAfter else .ok s2
  else
    .ok s

/-- `remove`. -/
def remove (s : State) (extensionName : Option String) : Outcome State :=
  let extension := getExtension s.list extensionName
  let extensionIndex := indexOfExtension s.list extension
  match disable s extensionName with
  | .error e => .error e
  | .ok s1 => reorderExtensions { s1 with list := splice1 s1.list extensionIndex }

/-! ## Relations on the registry -/

/-- A descriptor with the name `n` is registered. -/
def Registered (list : List Extension) (n : String) : Prop :=
  ∃ e ∈ list, e.name = some n

instance (l : List Extension) (n : String) : Decidable (Registered l n) :=
  inferInstanceAs (Decidable (∃ e ∈ l, e.name = some n))

/-- The extension named `x` declares the dependency `y`. -/
def Dep (list : List Extension) (x y : String) : Prop :=
  ∃ e ∈ list, e.name = some x ∧ ∃ ds, e.dependencies = some ds ∧ y ∈ ds

/-- No two registered descriptors share a name. -/
def UniqueNames (l : List Extension) : Prop :=
  (l.map (fun e => e.name)).Nodup

instance (l : List Extension) : Decidable (UniqueNames l) :=
  inferInstanceAs (Decidable (List.Nodup _))

/-- The dependency relation has no cycle. -/
def Acyclic (l : List Extension) : Prop :=
  ∀ x, ¬ Relation.TransGen (Dep l) x x

/-- The declared dependencies of the extension that `getExtension` finds for the
name `n` (none when there is no such extension or no `dependencies` field). -/
def dependenciesOf (l : List Extension) (n : String) : List String :=
  match getExtension l (some n) with
  | some e => e.dependencies.getD []
  | none => []

/-- The declared conflicts of the extension that `getExtension` finds for the
name `n`. -/
def conflictsOf (l : List Extension) (n : String) : List String :=
  match getExtension l (some n) with
  | some e => e.conflicts.getD []
  | none => []

/-- The extension that `getExtension` finds for the name `n` declares the
dependency `d`. -/
def Declares (l : List Extension) (n d : String) : Prop :=
  d ∈ dependenciesOf l n

instance (l : List Extension) (n d : String) : Decidable (Declares l n d) :=
  inferInstanceAs (Decidable (d ∈ dependenciesOf l n))

/-- Every enabled name has its declared dependencies enabled. -/
def DepClosed (l : List Extension) (E : List String) : Prop :=
  ∀ m ∈ E, ∀ d, Declares l m d → d ∈ E

instance (l : List Extension) (E : List String) : Decidable (DepClosed l E) :=
  inferInstanceAs (Decidable (∀ m ∈ E, ∀ d ∈ dependenciesOf l m, d ∈ E))

/-- The three gates of `enable`, for a registered name. -/
def Enablable (s : State) (X : String) : Prop :=
  X ∉ s.enabled ∧ (∀ d ∈ dependenciesOf s.list X, d ∈ s.enabled) ∧
    ∀ c ∈ conflictsOf s.list X, c ∉ s.enabled

instance (s : State) (X : String) : Decidable (Enablable s X) :=
  inferInstanceAs (Decidable (_ ∧ _ ∧ _))

/-! ## Invariants of the dependency walk -/

/-- What a call of `visit` that returns has done to the two locals. -/
structure WalkStep (l : List Extension) (w w1 : Walk) : Prop where
  sorted_prefix : w.sorted <+: w1.sorted
  visited_subset : w.visited ⊆ w1.visited
  nodup : w.sorted.Nodup → w1.sorted.Nodup
  sorted_registered : (∀ n ∈ w.sorted, Registered l n) → ∀ n ∈ w1.sorted, Registered l n
  visited_registered : (∀ n ∈ w.visited, Registered l n) → ∀ n ∈ w1.visited, Registered l n

/-- The postcondition of a call of `visit` on a descriptor: the descriptor is
defined, and when it has a name, the name is sorted and visited and every
declared dependency reads as visited. -/
def Visited (w1 : Walk) (ext : Option Extension) : Prop :=
  ∃ e, ext = some e ∧ ∀ n, e.name = some n →
    n ∈ w1.sorted ∧ n ∈ w1.visited ∧
      ∀ ds, e.dependencies = some ds → ∀ d ∈ ds, visitedTruthy w1.visited d = true

/-- The number of registered names that were not assigned on `visited`. -/
def unvisitedCount (l : List Extension) (visited : List String) : Nat :=
  ((l.filterMap (fun e => e.name)).toFinset \ visited.toFinset).card

/-- In `sorted`, every declared dependency of a sorted name stands before it. -/
def DepsFirst (l : List Extension) (sorted : List String) : Prop :=
  ∀ n ∈ sorted, ∀ d, Dep l n d → d ∈ sorted ∧ sorted.indexOf d < sorted.indexOf n

/-- The invariant of the walk behind the topological order: a visited name is
sorted or is on the path `anc` of the calls in progress, and the sorted names
have their dependencies first. -/
def Sound (l : List Extension) (anc : List String) (w : Walk) : Prop :=
  (∀ v ∈ w.visited, v ∈ w.sorted ∨ v ∈ anc) ∧ DepsFirst l w.sorted

/-! ## Auxiliary functions and invariants of `disable`, `enable` and `add` -/

/-- The end of `disable`: the destruction of the extension when it is
initialized. -/
def disableEnd (s1 : State) (n : Option String) : Outcome State :=
  if isInitialized s1 n then destroyExtension s1 n else .ok s1

/-- The callback of the loop of `disable` over the remaining enabled names. -/
def recheck (fuel : Nat) (enabledExtension : String) (s1 : State) : Outcome State :=
  match checkDependenciesWith (disableFuel fuel) s1 (some enabledExtension) with
  | .ok r => .ok r.2
  | .error e => .error e

/-- Why a name leaves the enabled list `E` when `x` is disabled: it is `x`, it
is not registered, or one of its declared dependencies is not in `E` or leaves
`E` itself. -/
inductive Blame (l : List Extension) (E : List String) (x : String) : String → Prop
  | root : Blame l E x x
  | unregistered {m : String} : ¬ Registered l m → Blame l E x m
  | missing {m d : String} : Declares l m d → d ∉ E → Blame l E x m
  | step {m d : String} : Declares l m d → Blame l E x d → Blame l E x m

/-- What a call `disable(n)` that returns has done. -/
structure DisablePost (order : List String) (s : State) (n : Option String) (s1 : State) :
    Prop where
  list_eq : s1.list = s.list
  enabled_eq : isEnabled s n = false → s1.enabled = s.enabled
  enabled_sublist : isEnabled s n = true → List.Sublist s1.enabled order
  enabled_subset : s1.enabled ⊆ s.enabled
  enabled_length : isEnabled s n = true → s1.enabled.length < s.enabled.length
  not_enabled : ∀ x, n = some x → s.enabled.count x ≤ 1 → x ∉ s1.enabled
  closed : isEnabled s n = true → DepClosed s.list s1.enabled
  blame : ∀ x, n = some x → ∀ m ∈ s.enabled, m ∉ s1.enabled → Blame s.list s.enabled x m
  init_sublist : List.Sublist s1.init s.init
  not_init : s.init.count n ≤ 1 → n ∉ s1.init
  log_prefix : s.log <+: s1.log

/-- The invariant of the loop of `disable(x)` over the remaining enabled names. -/
structure CascadeInv (order : List String) (s : State) (x : String) (E2 : List String)
    (a : State) : Prop where
  list_eq : a.list = s.list
  enabled_sublist : List.Sublist a.enabled order
  enabled_subset : a.enabled ⊆ E2
  enabled_length : a.enabled.length ≤ E2.length
  init_sublist : List.Sublist a.init s.init
  log_prefix : s.log <+: a.log
  blame : ∀ m ∈ s.enabled, m ∉ a.enabled → Blame s.list s.enabled x m

/-- The value that `checkDependencies` computes for the descriptor `e`. -/
def dependencyStatus (s : State) (e : Extension) : Bool :=
  match e.dependencies with
  | none => true
  | some ds => ds.all (fun d => isEnabled s (some d))

/-- The value that `checkConflicts` computes for the descriptor `e`. -/
def conflictStatus (s : State) (e : Extension) : Bool :=
  match e.conflicts with
  | none => true
  | some cs => !cs.any (fun c => isEnabled s (some c))

/-- The state in which a call ends, whether it returns or raises. -/
def endState : Outcome State → State
  | .ok s => s
  | .error (_, s) => s

/-- The state after the first three statements of `add` on a descriptor whose
name is not registered: the push and the reorder. -/
def pushed (s : State) (d : Extension) : State :=
  match reorderExtensions { s with list := s.list ++ [d] } with
  | .ok s2 => s2
  | .error _ => { s with list := s.list ++ [d] }

/-! ## Example registries and states -/

/-- A descriptor with a name and dependencies only. -/
def mkExtension (name : String) (dependencies : Option (List String)) : Extension :=
  { name := some name, dependencies := dependencies, conflicts := none, create := 0, destroy := 0 }

/-- A registry in which `X` depends on an extension named `constructor`. -/
def prototypeRegistry : List Extension :=
  [mkExtension "X" (some ["constructor"]), mkExtension "constructor" none]

/-- A registry with a cycle between two extensions named after properties of
`Object.prototype`. -/
def prototypeCycle : List Extension :=
  [mkExtension "constructor" (some ["toString"]), mkExtension "toString" (some ["constructor"])]

/-- The registry `[A (dependencies [B]), B]`. -/
def chainRegistry : List Extension :=
  [mkExtension "A" (some ["B"]), mkExtension "B" none]

/-- The registry `[A (dependencies [B])]`: `B` is not registered. -/
def danglingRegistry : List Extension :=
  [mkExtension "A" (some ["B"])]

/-- A state in which `A` depends on `B` and both are enabled. -/
def cascadeState : State :=
  { list := [mkExtension "B" none, mkExtension "A" (some ["B"]), mkExtension "C" none],
    init := [], enabled := ["B", "A", "C"], log := [] }

/-- The descriptor `A`, which declares a conflict with `B`. -/
def conflictingA : Extension :=
  { name := some "A", dependencies := none, conflicts := some ["B"], create := 0, destroy := 0 }

/-- A state in which `A` declares a conflict with `B` and both are enabled. -/
def conflictState : State :=
  { list := [conflictingA, mkExtension "B" none],
    init := [], enabled := ["A", "B"], log := [] }

/-- A state in which `B` depends on `A`, and only `A` is enabled. -/
def enableState : State :=
  { list := [mkExtension "A" none, mkExtension "B" (some ["A"])],
    init := [], enabled := ["A"], log := [] }

/-- A state with the single registered extension `A`. -/
def singleState : State :=
  { list := [mkExtension "A" none], init := [], enabled := [], log := [] }

/-- A state in which `B` depends on `A`; nothing is enabled. -/
def dependentState : State :=
  { list := [mkExtension "A" none, mkExtension "B" (some ["A"])],
    init := [], enabled := [], log := [] }

/-- A state in which `A` is registered, enabled and initialized, next to `B`. -/
def removeState : State :=
  { list := [mkExtension "B" none, mkExtension "A" none],
    init := [some "A"], enabled := ["A"], log := [] }

/-! ## Further example states -/

/-- A state in which `A` is registered and initialized, and not enabled. -/
def initializedState : State :=
  { list := [mkExtension "A" none], init := [some "B", some "A"], enabled := [], log := [] }

/-- A state in which `A` and `B` are registered and enabled, and `B` is
initialized. -/
def initState : State :=
  { list := [mkExtension "A" none, mkExtension "B" (some ["A"])],
    init := [some "B"], enabled := ["A", "B"], log := [] }


/-- A state whose registry does not resolve: `C` depends on the unregistered
`B`; `A` is registered next to it. -/
def unresolvedState : State :=
  { list := [mkExtension "A" none, mkExtension "C" (some ["B"])],
    init := [], enabled := [], log := [] }

/-- A state in which the enabled `X` declares the dependency `Z`, which is
neither registered nor enabled. -/
def staleDepState : State :=
  { list := [mkExtension "X" (some ["Z"])], init := [], enabled := ["X"], log := [] }

/-- A state in which the enabled list holds the name `S`, for which no
descriptor is registered, and the registered `B`. -/
def staleState : State :=
  { list := [mkExtension "A" none, mkExtension "B" none],
    init := [], enabled := ["S", "B"], log := [] }

/-- A state in which the enabled `X` depends on the registered `D`, which is
not enabled. -/
def healState : State :=
  { list := [mkExtension "D" none, mkExtension "X" (some ["D"])],
    init := [], enabled := ["X"], log := [] }

/-! ## Reachable states -/

/-- The states that the calls `add(d, false, false)`, `enable(X, false)` and
`disable(X)` reach, when they return, from a state whose enabled list is
empty. -/
inductive GateReachable : State → Prop
  | start (s : State) : s.enabled = [] → GateReachable s
  | byAdd {s s1 : State} (d : Extension) :
      GateReachable s → add s d false false = .ok s1 → GateReachable s1
  | byEnable {s s1 : State} (n : Option String) :
      GateReachable s → enable s n false = .ok s1 → GateReachable s1
  | byDisable {s s1 : State} (n : Option String) :
      GateReachable s → disable s n = .ok s1 → GateReachable s1

/-- Every entry of `_init` that is not in `D` is the name of an enabled
extension. -/
def Coupled (D : Option String → Prop) (s : State) : Prop :=
  ∀ m ∈ s.init, D m ∨ ∃ k, m = some k ∧ k ∈ s.enabled

/-- The consistency of the three parts of the state: initialized names are
enabled, enabled names are registered, and neither list repeats a name. -/
structure Consistent (s : State) : Prop where
  init_enabled : ∀ m ∈ s.init, ∃ k, m = some k ∧ k ∈ s.enabled
  enabled_registered : ∀ k ∈ s.enabled, Registered s.list k
  init_nodup : s.init.Nodup
  enabled_nodup : s.enabled.Nodup

/-- The states that returning calls of the module reach from the initial state,
where a call with `initAfter` counts only when it ends with the extension
enabled, and `remove` is called on a name for which a descriptor is found. -/
inductive CoupledReachable : State → Prop
  | start (s : State) : s.list = [] → s.init = [] → s.enabled = [] → CoupledReachable s
  | byAdd {s s1 : State} (d : Extension) (enableAfter initAfter : Bool) :
      CoupledReachable s → add s d enableAfter initAfter = .ok s1 →
      (enableAfter = true → initAfter = true → getExtension s.list d.name = none →
        isEnabled s1 d.name = true) →
      CoupledReachable s1
  | byRemove {s s1 : State} (n : Option String) :
      CoupledReachable s → getExtension s.list n ≠ none → remove s n = .ok s1 →
      CoupledReachable s1
  | byEnable {s s1 : State} (n : Option String) (initAfter : Bool) :
      CoupledReachable s → enable s n initAfter = .ok s1 →
      (initAfter = true → isEnabled s1 n = true) → CoupledReachable s1
  | byDisable {s s1 : State} (n : Option String) :
      CoupledReachable s → disable s n = .ok s1 → CoupledReachable s1
  | byInit {s s1 : State} : CoupledReachable s → init s = .ok s1 → CoupledReachable s1

/-! ## The invariant of the enabled list -/

/-- The enabled list is duplicate-free, holds registered names only, and every
declared dependency of an enabled extension is enabled and stored before it. -/
def EnabledInv (s : State) : Prop :=
  s.enabled.Nodup ∧ (∀ n ∈ s.enabled, Registered s.list n) ∧
    ∀ m ∈ s.enabled, ∀ d ∈ dependenciesOf s.list m,
      d ∈ s.enabled ∧ s.enabled.indexOf d < s.enabled.indexOf m

instance (s : State) : Decidable (EnabledInv s) :=
  inferInstanceAs (Decidable (_ ∧ _ ∧ _))

/-! ## Registries in dependency order -/

/-- In `sorted`, every declared dependency of a sorted name differs from the
name and either stands before it or is a property name of `Object.prototype`. -/
def DepsBefore (l : List Extension) (sorted : List String) : Prop :=
  ∀ n ∈ sorted, ∀ d, Dep l n d →
    d ≠ n ∧ (d ∈ objectPrototypeKeys ∨ (d ∈ sorted ∧ sorted.indexOf d < sorted.indexOf n))

/-- The registry is in dependency order after the names `P`: every descriptor
has a name, which none before it has, and each of its declared dependencies is
another name that is in `P`, is the name of a descriptor before it, or is a
property name of `Object.prototype`. -/
def InOrder : List String → List Extension → Prop
  | _, [] => True
  | P, e :: rest => ∃ n, e.name = some n ∧ n ∉ P ∧
      (∀ ds, e.dependencies = some ds → ∀ d ∈ ds,
        d ≠ n ∧ (d ∈ P ∨ d ∈ objectPrototypeKeys)) ∧
      InOrder (P ++ [n]) rest

/-! ## `disable` on the store, with a count of the writes -/

/-- The module state together with the key `'TD.extensions.enabled'` of
`window.localStorage`: `present` tells whether the key exists (when it does not,
the field `enabled` of the state is not read and `getAllEnabled` returns `[]`),
and `writes` counts the calls of `window.localStorage.setItem` made so far. -/
structure Stored where
  state : State
  present : Bool
  writes : Nat
deriving DecidableEq, Repr

/-- The outcome of a call that works on the store: the value it returns, or the
exception it raises together with the store at that moment. -/
abbrev Counted (α : Type) : Type := Except (JsError × Stored) α

/-- The call `window.localStorage.setItem('TD.extensions.enabled',
JSON.stringify(enabled))`. -/
def setItem (t : Stored) (enabled : List String) : Stored :=
  { state := { t.state with enabled := enabled }, present := true, writes := t.writes + 1 }

/-- `getAllEnabled` on the store: when the key is absent, `[]` is written back
and returned. -/
def getAllEnabledCount (t : Stored) : List String × Stored :=
  if t.present then (t.state.enabled, t) else ([], setItem t [])

/-- `isEnabled` on the store. -/
def isEnabledCount (t : Stored) (extensionName : Option String) : Bool × Stored :=
  let enabled := getAllEnabledCount t
  (match extensionName with
    | some n => decide (n ∈ enabled.1)
    | none => false,
   enabled.2)

/-- The call `dependencies.every((dependency) => isEnabled(dependency))` on the
store: it stops at the first dependency that is not enabled. -/
def everyEnabledCount : List String → Stored → Bool × Stored
  | [], t => (true, t)
  | dependency :: rest, t =>
    let enabled := isEnabledCount t (some dependency)
    if enabled.1 then everyEnabledCount rest enabled.2 else (false, enabled.2)

/-- `checkDependencies` on the store, with the function it calls as `disable` a
parameter. -/
def checkDependenciesCount (disable : Stored → Option String → Counted Stored)
    (t : Stored) (extensionName : Option String) : Counted (Bool × Stored) :=
  match getExtension t.state.list extensionName with
  | none => .error (.typeError, t)
  | some extension =>
    match extension.dependencies with
    | none => .ok (true, t)
    | some dependencies =>
      let extensionDependencyStatus := everyEnabledCount dependencies t
      if extensionDependencyStatus.1 = false then
        let enabled := isEnabledCount extensionDependencyStatus.2 extensionName
        if enabled.1 then
          match disable enabled.2 extensionName with
          | .ok t1 => .ok (false, t1)
          | .error e => .error e
        else
          .ok (extensionDependencyStatus.1, enabled.2)
      else
        .ok (extensionDependencyStatus.1, extensionDependencyStatus.2)

/-- The end of `disable` on the store: the destruction of the extension when it
is initialized. -/
def disableEndCount (t1 : Stored) (n : Option String) : Counted Stored :=
  if isInitialized t1.state n then
    match destroyExtension t1.state n with
    | .ok s2 => .ok { t1 with state := s2 }
    | .error e => .error (e.1, { t1 with state := e.2 })
  else .ok t1

/-- `disable` on the store, by recursion on a fuel: every read of the persisted
array goes through `getAllEnabledCount`, and the array is written by
`setItem`. -/
def disableCount : Nat → Stored → Option String → Counted Stored
  | 0, t, _ => .error (.fuel, t)
  | fuel + 1, t, extensionName =>
    let read := getAllEnabledCount t
    let enabledExtensions := read.1.map some
    let enabled := isEnabledCount read.2 extensionName
    match (if enabled.1 then
        let enabledExtensions := enabledExtensions.erase extensionName
        match reorderEnabledExtensions enabled.2.state enabledExtensions with
        | .error e => .error (e.1, { enabled.2 with state := e.2 })
        | .ok enabledExtensions =>
          forEach
            (fun enabledExtension t1 =>
              match checkDependenciesCount (disableCount fuel) t1 (some enabledExtension) with
              | .ok r => .ok r.2
              | .error e => .error e)
            enabledExtensions (setItem enabled.2 enabledExtensions)
      else .ok enabled.2 : Counted Stored) with
    | .error e => .error e
    | .ok t1 => disableEndCount t1 extensionName

/-- The callback of the loop of `disable` on the store. -/
def recheckCount (fuel : Nat) (enabledExtension : String) (t1 : Stored) : Counted Stored :=
  match checkDependenciesCount (disableCount fuel) t1 (some enabledExtension) with
  | .ok r => .ok r.2
  | .error e => .error e

/-- The outcome of a call on the store, without the key and the count. -/
def erased : Counted Stored → Outcome State
  | .ok t => .ok t.state
  | .error (e, t) => .error (e, t.state)

/-- The store in which a call ends, whether it returns or raises. -/
def endStore : Counted Stored → Stored
  | .ok t => t
  | .error (_, t) => t

/-- The number of calls of `setItem` when a call ends. -/
def writes (r : Counted Stored) : Nat :=
  (endStore r).writes

/-! ## The dependency walk: what a returning call guarantees -/

theorem getExtension_eq_find (l : List Extension) (n : Option String) :
    getExtension l n = l.find? (fun e => e.name == n) := by
  unfold getExtension
  induction l with
  | nil => rfl
  | cons a t ih =>
    by_cases h : (a.name == n) = true
    · simp [List.filter_cons, List.find?_cons, h]
    · simp only [List.filter_cons, List.find?_cons, h]
      simp

theorem getExtension_some {l : List Extension} {n : Option String} {e : Extension}
    (h : getExtension l n = some e) : e ∈ l ∧ e.name = n := by
  rw [getExtension_eq_find] at h
  refine ⟨List.mem_of_find?_eq_some h, ?_⟩
  have := List.find?_some h
  simpa using this

theorem getExtension_eq_none {l : List Extension} {n : Option String} :
    getExtension l n = none ↔ ∀ e ∈ l, e.name ≠ n := by
  rw [getExtension_eq_find]
  simp

theorem getExtension_ne_none_iff {l : List Extension} {n : String} :
    getExtension l (some n) ≠ none ↔ Registered l n := by
  rw [Ne, getExtension_eq_none]
  unfold Registered
  push_neg
  rfl

theorem getExtension_of_registered {l : List Extension} {n : String} (h : Registered l n) :
    ∃ e, getExtension l (some n) = some e ∧ e ∈ l ∧ e.name = some n := by
  cases hg : getExtension l (some n) with
  | none => exact absurd hg (getExtension_ne_none_iff.2 h)
  | some e => exact ⟨e, rfl, getExtension_some hg⟩

theorem WalkStep.refl (l : List Extension) (w : Walk) : WalkStep l w w :=
  ⟨List.prefix_refl _, List.Subset.refl _, id, id, id⟩

theorem WalkStep.trans {l : List Extension} {a b c : Walk} (h1 : WalkStep l a b)
    (h2 : WalkStep l b c) : WalkStep l a c :=
  ⟨h1.sorted_prefix.trans h2.sorted_prefix, h1.visited_subset.trans h2.visited_subset,
   fun h => h2.nodup (h1.nodup h), fun h => h2.sorted_registered (h1.sorted_registered h),
   fun h => h2.visited_registered (h1.visited_registered h)⟩

theorem visitedTruthy_mono {v v1 : List String} (h : v ⊆ v1) {k : String}
    (hk : visitedTruthy v k = true) : visitedTruthy v1 k = true := by
  simp only [visitedTruthy, Bool.or_eq_true, decide_eq_true_eq] at hk ⊢
  exact hk.imp (fun x => h x) id

theorem visitDependencies_ok {l : List Extension}
    {recurse : Option Extension → List String → Walk → Except JsError Walk}
    (hrec : ∀ ext anc w w1, recurse ext anc w = .ok w1 → (∀ e, ext = some e → e ∈ l) →
      WalkStep l w w1 ∧ Visited w1 ext)
    (name : String) (anc : List String) :
    ∀ (ds : List String) (w w1 : Walk), visitDependencies recurse l name anc ds w = .ok w1 →
      WalkStep l w w1 ∧ ∀ d ∈ ds, d ∉ anc ∧ visitedTruthy w1.visited d = true := by
  intro ds
  induction ds with
  | nil =>
    intro w w1 h
    simp only [visitDependencies, Except.ok.injEq] at h
    subst h
    exact ⟨WalkStep.refl l w, by simp⟩
  | cons d rest ih =>
    intro w w1 h
    rw [visitDependencies] at h
    split_ifs at h with h1 h2
    · obtain ⟨hs, hd⟩ := ih w w1 h
      refine ⟨hs, ?_⟩
      intro x hx
      rcases List.mem_cons.1 hx with rfl | hx
      · exact ⟨h1, visitedTruthy_mono hs.visited_subset h2⟩
      · exact hd x hx
    · cases hr : recurse (getExtension l (some d)) anc w with
      | error e => rw [hr] at h; simp at h
      | ok w2 =>
        rw [hr] at h
        simp only at h
        obtain ⟨hs2, hv2⟩ := hrec _ _ _ _ hr (fun e he => (getExtension_some he).1)
        obtain ⟨hs, hd⟩ := ih w2 w1 h
        refine ⟨hs2.trans hs, ?_⟩
        intro x hx
        rcases List.mem_cons.1 hx with rfl | hx
        · refine ⟨h1, ?_⟩
          obtain ⟨e, hg, hv2⟩ := hv2
          have hn := (getExtension_some hg).2
          have := (hv2 x hn).2.1
          apply visitedTruthy_mono hs.visited_subset
          simp [visitedTruthy, this]
        · exact hd x hx


theorem visit_ok {l : List Extension} :
    ∀ (fuel : Nat) (ext : Option Extension) (anc : List String) (w w1 : Walk),
      visit l fuel ext anc w = .ok w1 → (∀ e, ext = some e → e ∈ l) →
      WalkStep l w w1 ∧ Visited w1 ext := by
  intro fuel
  induction fuel with
  | zero => intro ext anc w w1 h; simp [visit] at h
  | succ f ih =>
    intro ext anc w w1 h hmem
    cases ext with
    | none => simp [visit] at h
    | some e =>
      have hel := hmem e rfl
      rw [visit] at h
      simp only at h
      cases hn : e.name with
      | none =>
        rw [hn] at h
        simp only [Except.ok.injEq] at h
        subst h
        exact ⟨WalkStep.refl l w, e, rfl, by simp [hn]⟩
      | some n =>
        rw [hn] at h
        simp only at h
        have hreg : Registered l n := ⟨e, hel, hn⟩
        -- the walk after the dependency loop
        have key : ∀ w2 : Walk, WalkStep l { w with visited := n :: w.visited } w2 →
            (∀ ds, e.dependencies = some ds → ∀ d ∈ ds, visitedTruthy w2.visited d = true) →
            WalkStep l w (if n ∈ w2.sorted then w2 else { w2 with sorted := w2.sorted ++ [n] }) ∧
            Visited (if n ∈ w2.sorted then w2 else { w2 with sorted := w2.sorted ++ [n] })
              (some e) := by
          intro w2 hs hd
          have h0 : WalkStep l w { w with visited := n :: w.visited } :=
            ⟨List.prefix_refl _, List.subset_cons_self _ _, id, id, fun hv x hx => by
              rcases List.mem_cons.1 hx with rfl | hx
              · exact hreg
              · exact hv x hx⟩
          have hnv : n ∈ w2.visited := hs.visited_subset (List.mem_cons_self _ _)
          by_cases hin : n ∈ w2.sorted
          · simp only [hin, if_true]
            refine ⟨h0.trans hs, e, rfl, fun m hm => ?_⟩
            rw [hn] at hm
            cases hm
            exact ⟨hin, hnv, hd⟩
          · simp only [hin, if_false]
            have h3 : WalkStep l w2 { w2 with sorted := w2.sorted ++ [n] } :=
              ⟨List.prefix_append _ _, List.Subset.refl _, fun hnd => by
                simpa [List.nodup_append, hin] using hnd,
               fun hr x hx => by
                rcases List.mem_append.1 hx with hx | hx
                · exact hr x hx
                · simp only [List.mem_singleton] at hx
                  subst hx
                  exact hreg, id⟩
            refine ⟨(h0.trans hs).trans h3, e, rfl, fun m hm => ?_⟩
            rw [hn] at hm
            cases hm
            exact ⟨by simp, hnv, hd⟩
        cases hdeps : e.dependencies with
        | none =>
          rw [hdeps] at h
          simp only [Except.ok.injEq] at h
          rw [← h]
          exact key _ (WalkStep.refl l _) (by simp [hdeps])
        | some ds =>
          rw [hdeps] at h
          simp only at h
          cases hloop : visitDependencies (visit l f) l n (anc ++ [n]) ds
              { w with visited := n :: w.visited } with
          | error err => rw [hloop] at h; simp at h
          | ok w2 =>
            rw [hloop] at h
            simp only [Except.ok.injEq] at h
            rw [← h]
            obtain ⟨hs, hd⟩ := visitDependencies_ok ih n (anc ++ [n]) ds _ _ hloop
            refine key w2 hs ?_
            intro ds1 hds1 d hdm
            rw [hdeps] at hds1
            cases hds1
            exact (hd d hdm).2


theorem forEach_ok_induct {α σ ε : Type} {f : α → σ → Except ε σ} (R : σ → σ → Prop)
    (P : α → σ → Prop) (hrefl : ∀ s, R s s) (htrans : ∀ a b c, R a b → R b c → R a c)
    (hmono : ∀ x s s1, P x s → R s s1 → P x s1) :
    ∀ (xs : List α) (s s1 : σ), (∀ x ∈ xs, ∀ a b, f x a = .ok b → R a b ∧ P x b) →
      forEach f xs s = .ok s1 → R s s1 ∧ ∀ x ∈ xs, P x s1 := by
  intro xs
  induction xs with
  | nil =>
    intro s s1 _ h
    simp only [forEach, Except.ok.injEq] at h
    subst h
    exact ⟨hrefl s, by simp⟩
  | cons x rest ih =>
    intro s s1 hstep h
    rw [forEach] at h
    cases hx : f x s with
    | error e => rw [hx] at h; simp at h
    | ok s2 =>
      rw [hx] at h
      simp only at h
      obtain ⟨hr, hp⟩ := hstep x (List.mem_cons_self _ _) s s2 hx
      obtain ⟨hr2, hp2⟩ := ih s2 s1 (fun y hy => hstep y (List.mem_cons_of_mem _ hy)) h
      refine ⟨htrans _ _ _ hr hr2, ?_⟩
      intro y hy
      rcases List.mem_cons.1 hy with rfl | hy
      · exact hmono _ _ _ hp hr2
      · exact hp2 y hy

theorem forEach_error {α σ ε : Type} {f : α → σ → Except ε σ} :
    ∀ (xs : List α) (s : σ) (e : ε), forEach f xs s = .error e →
      ∃ x ∈ xs, ∃ s1, f x s1 = .error e := by
  intro xs
  induction xs with
  | nil => intro s e h; simp [forEach] at h
  | cons x rest ih =>
    intro s e h
    rw [forEach] at h
    cases hx : f x s with
    | error e1 =>
      rw [hx] at h
      simp only [Except.error.injEq] at h
      subst h
      exact ⟨x, List.mem_cons_self _ _, s, hx⟩
    | ok s2 =>
      rw [hx] at h
      simp only at h
      obtain ⟨y, hy, s1, h1⟩ := ih s2 e h
      exact ⟨y, List.mem_cons_of_mem _ hy, s1, h1⟩

theorem Visited.mono {l : List Extension} {w w1 : Walk} {ext : Option Extension}
    (h : Visited w ext) (hs : WalkStep l w w1) : Visited w1 ext := by
  obtain ⟨e, he, hv⟩ := h
  refine ⟨e, he, fun n hn => ?_⟩
  obtain ⟨h1, h2, h3⟩ := hv n hn
  exact ⟨hs.sorted_prefix.subset h1, hs.visited_subset h2,
    fun ds hds d hd => visitedTruthy_mono hs.visited_subset (h3 ds hds d hd)⟩

/-- What a resolution that returns guarantees without any assumption on the
registry. -/
theorem resolve_ok {l : List Extension} {order : List String}
    (h : resolveDependencyGraph l = .ok order) :
    order.Nodup ∧ (∀ n, n ∈ order ↔ Registered l n) ∧
      ∀ e ∈ l, ∀ n ds d, e.name = some n → e.dependencies = some ds → d ∈ ds →
        d ∈ objectPrototypeKeys ∨ Registered l d := by
  unfold resolveDependencyGraph at h
  cases hf : forEach (fun extension w => visit l (l.length + 1) (some extension) [] w)
      l ⟨[], []⟩ with
  | error e => rw [hf] at h; simp at h
  | ok w =>
    rw [hf] at h
    simp only [Except.ok.injEq] at h
    subst h
    have hstep : ∀ x ∈ l, ∀ a b : Walk,
        (fun extension w => visit l (l.length + 1) (some extension) [] w) x a = .ok b →
          WalkStep l a b ∧ (fun (x : Extension) (w : Walk) => Visited w (some x)) x b := by
      intro x hx a b hab
      exact visit_ok _ _ _ _ _ hab (fun e he => by cases he; exact hx)
    obtain ⟨hs, hv⟩ := forEach_ok_induct (WalkStep l) (fun x w => Visited w (some x))
      (WalkStep.refl l) (fun _ _ _ => WalkStep.trans) (fun _ _ _ hp hr => hp.mono hr)
      l _ _ hstep hf
    have hreg := hs.sorted_registered (by simp)
    have hvreg := hs.visited_registered (by simp)
    refine ⟨hs.nodup (by simp), fun n => ⟨hreg n, ?_⟩, ?_⟩
    · rintro ⟨e, he, hn⟩
      obtain ⟨e1, he1, hv1⟩ := hv e he
      cases he1
      exact (hv1 n hn).1
    · intro e he n ds d hn hds hd
      obtain ⟨e1, he1, hv1⟩ := hv e he
      cases he1
      have := (hv1 n hn).2.2 ds hds d hd
      simp only [visitedTruthy, Bool.or_eq_true, decide_eq_true_eq] at this
      rcases this with h1 | h1
      · exact Or.inr (hvreg d h1)
      · exact Or.inl h1

/-! ## The dependency walk: the fuel suffices -/

theorem mem_names_iff {l : List Extension} {n : String} :
    n ∈ (l.filterMap (fun e => e.name)).toFinset ↔ Registered l n := by
  simp [Registered]

theorem unvisitedCount_mono {l : List Extension} {v v1 : List String} (h : v ⊆ v1) :
    unvisitedCount l v1 ≤ unvisitedCount l v := by
  unfold unvisitedCount
  apply Finset.card_le_card
  intro x hx
  simp only [Finset.mem_sdiff, List.mem_toFinset] at hx ⊢
  exact ⟨hx.1, fun hv => hx.2 (h hv)⟩

theorem unvisitedCount_cons_lt {l : List Extension} {v : List String} {n : String}
    (hr : Registered l n) (hv : n ∉ v) : unvisitedCount l (n :: v) < unvisitedCount l v := by
  unfold unvisitedCount
  apply Finset.card_lt_card
  rw [Finset.ssubset_iff_of_subset]
  · refine ⟨n, ?_, ?_⟩
    · simp only [Finset.mem_sdiff, List.mem_toFinset]
      exact ⟨by simpa using mem_names_iff.2 hr, hv⟩
    · simp
  · intro x hx
    simp only [Finset.mem_sdiff, List.mem_toFinset] at hx ⊢
    exact ⟨hx.1, fun hv => hx.2 (List.mem_cons_of_mem _ hv)⟩

theorem unvisitedCount_cons_registered {l : List Extension} {v : List String} {n : String}
    (hr : Registered l n) : unvisitedCount l (n :: v) + 1 ≤ l.length := by
  unfold unvisitedCount
  have h1 : (l.filterMap (fun e => e.name)).toFinset \ (n :: v).toFinset ⊂
      (l.filterMap (fun e => e.name)).toFinset := by
    rw [Finset.ssubset_iff_of_subset Finset.sdiff_subset]
    exact ⟨n, mem_names_iff.2 hr, by simp⟩
  have h2 := Finset.card_lt_card h1
  have h3 : (l.filterMap (fun e => e.name)).toFinset.card ≤ l.length :=
    le_trans (List.toFinset_card_le _) (List.length_filterMap_le _ _)
  omega

theorem not_visitedTruthy {v : List String} {d : String} (h : ¬ visitedTruthy v d = true) :
    d ∉ v ∧ d ∉ objectPrototypeKeys := by
  simp only [visitedTruthy, Bool.or_eq_true, decide_eq_true_eq, not_or] at h
  exact h

theorem visitDependencies_ne_fuel {l : List Extension}
    {recurse : Option Extension → List String → Walk → Except JsError Walk}
    (bound : Nat)
    (hok : ∀ ext anc w w1, recurse ext anc w = .ok w1 → (∀ e, ext = some e → e ∈ l) →
      WalkStep l w w1 ∧ Visited w1 ext)
    (hfuel : ∀ d anc w, d ∉ w.visited → unvisitedCount l w.visited ≤ bound →
      recurse (getExtension l (some d)) anc w ≠ .error .fuel)
    (name : String) (anc : List String) :
    ∀ (ds : List String) (w : Walk), unvisitedCount l w.visited ≤ bound →
      visitDependencies recurse l name anc ds w ≠ .error .fuel := by
  intro ds
  induction ds with
  | nil => intro w _; simp [visitDependencies]
  | cons d rest ih =>
    intro w hb
    rw [visitDependencies]
    split_ifs with h1 h2
    · simp
    · exact ih w hb
    · cases hr : recurse (getExtension l (some d)) anc w with
      | error e =>
        simp only [ne_eq, Except.error.injEq]
        intro he
        subst he
        exact hfuel d anc w (not_visitedTruthy h2).1 hb hr
      | ok w2 =>
        simp only
        have hs := (hok _ _ _ _ hr (fun e he => (getExtension_some he).1)).1
        exact ih w2 (le_trans (unvisitedCount_mono hs.visited_subset) hb)

theorem visit_ne_fuel {l : List Extension} :
    ∀ (fuel : Nat) (ext : Option Extension) (anc : List String) (w : Walk),
      (∀ e, ext = some e → e ∈ l) →
      (∀ e n, ext = some e → e.name = some n → unvisitedCount l (n :: w.visited) + 1 ≤ fuel) →
      visit l (fuel + 1) ext anc w ≠ .error .fuel := by
  intro fuel
  induction fuel with
  | zero =>
    intro ext anc w _ hb
    cases ext with
    | none => simp [visit]
    | some e =>
      cases hn : e.name with
      | none => rw [visit]; simp [hn]
      | some n => have := hb e n rfl hn; omega
  | succ f ih =>
    intro ext anc w hmem hb
    cases ext with
    | none => simp [visit]
    | some e =>
      rw [visit]
      simp only
      cases hn : e.name with
      | none => simp
      | some n =>
        simp only
        have hbn := hb e n rfl hn
        cases hdeps : e.dependencies with
        | none => simp
        | some ds =>
          simp only
          have hloop := @visitDependencies_ne_fuel l (visit l (f + 1))
            (unvisitedCount l (n :: w.visited)) (fun ext anc w w1 h hm => visit_ok _ _ _ _ _ h hm)
            (by
              intro d anc1 w1 hd hb1
              cases hg : getExtension l (some d) with
              | none => simp [visit]
              | some e1 =>
                have hg1 := getExtension_some hg
                apply ih _ _ _ (fun e he => by cases he; exact hg1.1)
                intro e2 n2 he2 hn2
                cases he2
                rw [hg1.2] at hn2
                cases hn2
                have := unvisitedCount_cons_lt (l := l) ⟨e1, hg1.1, hg1.2⟩ hd
                omega)
            n (anc ++ [n]) ds { w with visited := n :: w.visited } (le_refl _)
          cases hl : visitDependencies (visit l (f + 1)) l n (anc ++ [n]) ds
              { w with visited := n :: w.visited } with
          | error err =>
            simp only [ne_eq, Except.error.injEq]
            intro he
            subst he
            exact hloop hl
          | ok w2 => simp

/-- The fuel that `resolveDependencyGraph` supplies is never exhausted. -/
theorem resolveDependencyGraph_ne_fuel (l : List Extension) :
    resolveDependencyGraph l ≠ .error .fuel := by
  unfold resolveDependencyGraph
  cases hf : forEach (fun extension w => visit l (l.length + 1) (some extension) [] w)
      l ⟨[], []⟩ with
  | ok w => simp
  | error err =>
    simp only [ne_eq, Except.error.injEq]
    intro he
    subst he
    obtain ⟨x, hx, w1, h1⟩ := forEach_error _ _ _ hf
    refine visit_ne_fuel l.length (some x) [] w1 (fun e he => by cases he; exact hx) ?_ h1
    intro e n he hn
    cases he
    exact unvisitedCount_cons_registered ⟨_, hx, hn⟩

/-! ## The dependency walk: where an exception comes from -/

theorem visitDependencies_error
    {recurse : Option Extension → List String → Walk → Except JsError Walk}
    (l : List Extension) (name : String) (anc : List String) :
    ∀ (ds : List String) (w : Walk) (err : JsError),
      visitDependencies recurse l name anc ds w = .error err →
      (∃ d ∈ ds, d ∈ anc ∧ err = .error (cycleMessage d name anc)) ∨
      (∃ d ∈ ds, d ∉ anc ∧ ∃ w1, recurse (getExtension l (some d)) anc w1 = .error err) := by
  intro ds
  induction ds with
  | nil => intro w err h; simp [visitDependencies] at h
  | cons d rest ih =>
    intro w err h
    rw [visitDependencies] at h
    split_ifs at h with h1 h2
    · simp only [Except.error.injEq] at h
      exact Or.inl ⟨d, List.mem_cons_self _ _, h1, h.symm⟩
    · rcases ih w err h with ⟨x, hx, hc⟩ | ⟨x, hx, hc⟩
      · exact Or.inl ⟨x, List.mem_cons_of_mem _ hx, hc⟩
      · exact Or.inr ⟨x, List.mem_cons_of_mem _ hx, hc⟩
    · cases hr : recurse (getExtension l (some d)) anc w with
      | error e =>
        rw [hr] at h
        simp only [Except.error.injEq] at h
        subst h
        exact Or.inr ⟨d, List.mem_cons_self _ _, h1, w, hr⟩
      | ok w2 =>
        rw [hr] at h
        simp only at h
        rcases ih w2 err h with ⟨x, hx, hc⟩ | ⟨x, hx, hc⟩
        · exact Or.inl ⟨x, List.mem_cons_of_mem _ hx, hc⟩
        · exact Or.inr ⟨x, List.mem_cons_of_mem _ hx, hc⟩

/-- The error that `visit` raises on the descriptor `e` named `n`, when it has
one: it comes from the loop over the declared dependencies. -/
theorem visit_error_some {l : List Extension} {fuel : Nat} {e : Extension} {n : String}
    {anc : List String} {w : Walk} {err : JsError} (hn : e.name = some n)
    (h : visit l (fuel + 1) (some e) anc w = .error err) :
    ∃ ds, e.dependencies = some ds ∧
      visitDependencies (visit l fuel) l n (anc ++ [n]) ds { w with visited := n :: w.visited } =
        .error err := by
  rw [visit] at h
  simp only [hn] at h
  cases hdeps : e.dependencies with
  | none => rw [hdeps] at h; simp at h
  | some ds =>
    rw [hdeps] at h
    simp only at h
    refine ⟨ds, rfl, ?_⟩
    cases hl : visitDependencies (visit l fuel) l n (anc ++ [n]) ds
        { w with visited := n :: w.visited } with
    | error err1 => rw [hl] at h; simpa using h
    | ok w2 => rw [hl] at h; simp at h

/-- A `TypeError` of `visit` comes from a dependency that is not registered. -/
theorem visit_typeError {l : List Extension} :
    ∀ (fuel : Nat) (ext : Option Extension) (anc : List String) (w : Walk),
      visit l fuel ext anc w = .error .typeError → (∀ e, ext = some e → e ∈ l) →
      ext = none ∨ ∃ x d, Dep l x d ∧ ¬ Registered l d := by
  intro fuel
  induction fuel with
  | zero => intro ext anc w h; simp [visit] at h
  | succ f ih =>
    intro ext anc w h hmem
    cases ext with
    | none => exact Or.inl rfl
    | some e =>
      right
      cases hn : e.name with
      | none => rw [visit] at h; simp [hn] at h
      | some n =>
        obtain ⟨ds, hds, hl⟩ := visit_error_some hn h
        rcases visitDependencies_error l n _ ds _ _ hl with ⟨d, _, _, hc⟩ | ⟨d, hd, _, w1, hr⟩
        · simp at hc
        · rcases ih _ _ _ hr (fun e1 he1 => (getExtension_some he1).1) with hnone | hex
          · exact ⟨n, d, ⟨e, hmem e rfl, hn, ds, hds, hd⟩,
              fun hreg => getExtension_ne_none_iff.2 hreg hnone⟩
          · exact hex

/-- An `Error` of `visit` (the circular-dependency error) comes from a cycle of
the dependency relation, provided every received ancestor reaches the visited
descriptor. -/
theorem visit_cycleError {l : List Extension} :
    ∀ (fuel : Nat) (ext : Option Extension) (anc : List String) (w : Walk) (msg : String),
      visit l fuel ext anc w = .error (.error msg) → (∀ e, ext = some e → e ∈ l) →
      (∀ e n, ext = some e → e.name = some n →
        ∀ a ∈ anc, Relation.ReflTransGen (Dep l) a n) →
      ∃ x, Relation.TransGen (Dep l) x x := by
  intro fuel
  induction fuel with
  | zero => intro ext anc w msg h; simp [visit] at h
  | succ f ih =>
    intro ext anc w msg h hmem hanc
    cases ext with
    | none => simp [visit] at h
    | some e =>
      cases hn : e.name with
      | none => rw [visit] at h; simp [hn] at h
      | some n =>
        obtain ⟨ds, hds, hl⟩ := visit_error_some hn h
        have hreach : ∀ a ∈ anc ++ [n], Relation.ReflTransGen (Dep l) a n := by
          intro a ha
          rcases List.mem_append.1 ha with ha | ha
          · exact hanc e n rfl hn a ha
          · simp only [List.mem_singleton] at ha
            subst ha
            exact Relation.ReflTransGen.refl
        rcases visitDependencies_error l n _ ds _ _ hl with ⟨d, hd, hda, _⟩ | ⟨d, hd, _, w1, hr⟩
        · exact ⟨d, Relation.TransGen.tail' (hreach d hda) ⟨e, hmem e rfl, hn, ds, hds, hd⟩⟩
        · apply ih _ _ _ _ hr (fun e1 he1 => (getExtension_some he1).1)
          intro e1 n1 he1 hn1 a ha
          have h2 := (getExtension_some he1).2
          rw [hn1] at h2
          cases h2
          exact Relation.ReflTransGen.tail (hreach a ha) ⟨e, hmem e rfl, hn, ds, hds, hd⟩

theorem resolve_error {l : List Extension} {err : JsError}
    (h : resolveDependencyGraph l = .error err) :
    ∃ x ∈ l, ∃ w, visit l (l.length + 1) (some x) [] w = .error err := by
  unfold resolveDependencyGraph at h
  cases hf : forEach (fun extension w => visit l (l.length + 1) (some extension) [] w)
      l ⟨[], []⟩ with
  | ok w => rw [hf] at h; simp at h
  | error e1 =>
    rw [hf] at h
    simp only [Except.error.injEq] at h
    subst h
    exact forEach_error _ _ _ hf

/-- A resolution that raises a `TypeError` has met a dependency name that is not
registered. -/
theorem resolve_typeError {l : List Extension}
    (h : resolveDependencyGraph l = .error .typeError) :
    ∃ x d, Dep l x d ∧ ¬ Registered l d := by
  obtain ⟨x, hx, w, hv⟩ := resolve_error h
  rcases visit_typeError _ _ _ _ hv (fun e he => by cases he; exact hx) with h1 | h1
  · cases h1
  · exact h1

/-- A resolution that raises the circular-dependency error has met a cycle. -/
theorem resolve_cycleError {l : List Extension} {msg : String}
    (h : resolveDependencyGraph l = .error (.error msg)) :
    ∃ x, Relation.TransGen (Dep l) x x := by
  obtain ⟨x, hx, w, hv⟩ := resolve_error h
  exact visit_cycleError _ _ _ _ _ hv (fun e he => by cases he; exact hx) (by simp)

/-! ## The dependency walk: the order is topological -/

theorem UniqueNames.eq {l : List Extension} (h : UniqueNames l) {e1 e2 : Extension}
    (h1 : e1 ∈ l) (h2 : e2 ∈ l) (hn : e1.name = e2.name) : e1 = e2 :=
  List.inj_on_of_nodup_map h h1 h2 hn

theorem visitDependencies_induct {l : List Extension}
    {recurse : Option Extension → List String → Walk → Except JsError Walk}
    (R : Walk → Walk → Prop) (hrefl : ∀ w, R w w) (htrans : ∀ a b c, R a b → R b c → R a c)
    (name : String) (anc : List String)
    (hrec : ∀ d w w1, recurse (getExtension l (some d)) anc w = .ok w1 → R w w1) :
    ∀ (ds : List String) (w w1 : Walk),
      visitDependencies recurse l name anc ds w = .ok w1 → R w w1 := by
  intro ds
  induction ds with
  | nil =>
    intro w w1 h
    simp only [visitDependencies, Except.ok.injEq] at h
    subst h
    exact hrefl w
  | cons d rest ih =>
    intro w w1 h
    rw [visitDependencies] at h
    split_ifs at h with h1 h2
    · exact ih w w1 h
    · cases hr : recurse (getExtension l (some d)) anc w with
      | error e => rw [hr] at h; simp at h
      | ok w2 =>
        rw [hr] at h
        exact htrans _ _ _ (hrec d w w2 hr) (ih w2 w1 h)

/-- The shape of a call of `visit` that returns on a named descriptor. -/
theorem visit_ok_some {l : List Extension} {fuel : Nat} {e : Extension} {n : String}
    {anc : List String} {w w1 : Walk} (hn : e.name = some n)
    (h : visit l (fuel + 1) (some e) anc w = .ok w1) :
    ∃ w2, (match e.dependencies with
        | some ds => visitDependencies (visit l fuel) l n (anc ++ [n]) ds
            { w with visited := n :: w.visited }
        | none => .ok { w with visited := n :: w.visited }) = .ok w2 ∧
      w1 = if n ∈ w2.sorted then w2 else { w2 with sorted := w2.sorted ++ [n] } := by
  rw [visit] at h
  simp only [hn] at h
  split at h
  · simp at h
  · rename_i w2 heq
    simp only [Except.ok.injEq] at h
    exact ⟨w2, heq, h.symm⟩

theorem visit_sound {l : List Extension} (hu : UniqueNames l)
    (hp : ∀ x d, Dep l x d → d ∉ objectPrototypeKeys) :
    ∀ (fuel : Nat) (ext : Option Extension) (anc : List String) (w w1 : Walk),
      visit l fuel ext anc w = .ok w1 → (∀ e, ext = some e → e ∈ l) →
      Sound l anc w → Sound l anc w1 := by
  intro fuel
  induction fuel with
  | zero => intro ext anc w w1 h; simp [visit] at h
  | succ f ih =>
    intro ext anc w w1 h hmem hs
    cases ext with
    | none => simp [visit] at h
    | some e =>
      have hel := hmem e rfl
      cases hn : e.name with
      | none =>
        rw [visit] at h
        simp only [hn, Except.ok.injEq] at h
        subst h
        exact hs
      | some n =>
        obtain ⟨w2, hloop, hw1⟩ := visit_ok_some hn h
        -- the state after the loop
        have h0 : Sound l (anc ++ [n]) { w with visited := n :: w.visited } := by
          refine ⟨?_, hs.2⟩
          intro v hv
          rcases List.mem_cons.1 hv with rfl | hv
          · exact Or.inr (by simp)
          · exact (hs.1 v hv).imp id (fun h => List.mem_append_left _ h)
        have h2 : Sound l (anc ++ [n]) w2 ∧
            ∀ ds, e.dependencies = some ds → ∀ d ∈ ds, d ∉ anc ++ [n] ∧ d ∈ w2.visited := by
          cases hdeps : e.dependencies with
          | none =>
            rw [hdeps] at hloop
            simp only [Except.ok.injEq] at hloop
            subst hloop
            exact ⟨h0, by simp⟩
          | some ds =>
            rw [hdeps] at hloop
            simp only at hloop
            refine ⟨?_, ?_⟩
            · exact visitDependencies_induct
                (fun a b => Sound l (anc ++ [n]) a → Sound l (anc ++ [n]) b)
                (fun _ h => h) (fun _ _ _ h1 h2 h => h2 (h1 h)) n (anc ++ [n])
                (fun d a b hab =>
                  ih _ _ _ _ hab (fun e1 he1 => (getExtension_some he1).1))
                ds _ _ hloop h0
            · intro ds1 hds1 d hd
              cases hds1
              have := (visitDependencies_ok
                (fun ext anc w w1 h hm => visit_ok f ext anc w w1 h hm) n (anc ++ [n])
                ds _ _ hloop).2 d hd
              refine ⟨this.1, ?_⟩
              have hv := this.2
              simp only [visitedTruthy, Bool.or_eq_true, decide_eq_true_eq] at hv
              rcases hv with hv | hv
              · exact hv
              · exact absurd hv (hp n d ⟨e, hel, hn, ds, hdeps, hd⟩)
        obtain ⟨⟨hj, hg⟩, hd⟩ := h2
        have hnin : n ∈ w1.sorted := by
          rw [hw1]; split_ifs with hin
          · exact hin
          · simp
        have hsub : w2.sorted ⊆ w1.sorted := by
          rw [hw1]; split_ifs with hin
          · exact List.Subset.refl _
          · exact List.subset_append_left _ _
        have hvis : w1.visited = w2.visited := by
          rw [hw1]; split_ifs <;> rfl
        refine ⟨?_, ?_⟩
        · intro v hv
          rw [hvis] at hv
          rcases hj v hv with h1 | h1
          · exact Or.inl (hsub h1)
          · rcases List.mem_append.1 h1 with h1 | h1
            · exact Or.inr h1
            · simp only [List.mem_singleton] at h1
              subst h1
              exact Or.inl hnin
        · rw [hw1]
          split_ifs with hin
          · exact hg
          · intro m hm d hdep
            simp only [List.mem_append, List.mem_singleton] at hm
            rcases hm with hm | hm
            · obtain ⟨hd1, hd2⟩ := hg m hm d hdep
              refine ⟨List.mem_append_left _ hd1, ?_⟩
              simp only
              rw [List.indexOf_append_of_mem hd1, List.indexOf_append_of_mem hm]
              exact hd2
            · subst hm
              obtain ⟨e1, he1, hn1, ds, hds, hdm⟩ := hdep
              have : e1 = e := hu.eq he1 hel (by rw [hn1, hn])
              subst this
              obtain ⟨hda, hdv⟩ := hd ds hds d hdm
              have hds2 : d ∈ w2.sorted := by
                rcases hj d hdv with h1 | h1
                · exact h1
                · exact absurd h1 hda
              refine ⟨List.mem_append_left _ hds2, ?_⟩
              simp only
              rw [List.indexOf_append_of_mem hds2, List.indexOf_append_of_not_mem hin]
              have := List.indexOf_lt_length.2 hds2
              omega

/-- The order that a returning resolution produces is topological: if the
registered names are pairwise distinct and no declared dependency is a property
name of `Object.prototype`, every declared dependency of a registered extension
stands before the extension. -/
theorem resolve_sound {l : List Extension} {order : List String} (hu : UniqueNames l)
    (hp : ∀ x d, Dep l x d → d ∉ objectPrototypeKeys)
    (h : resolveDependencyGraph l = .ok order) : DepsFirst l order := by
  unfold resolveDependencyGraph at h
  cases hf : forEach (fun extension w => visit l (l.length + 1) (some extension) [] w)
      l ⟨[], []⟩ with
  | error e => rw [hf] at h; simp at h
  | ok w =>
    rw [hf] at h
    simp only [Except.ok.injEq] at h
    subst h
    have := (forEach_ok_induct (fun a b : Walk => Sound l [] a → Sound l [] b)
      (fun (_ : Extension) (_ : Walk) => True) (fun _ h => h) (fun _ _ _ h1 h2 h => h2 (h1 h))
      (fun _ _ _ _ _ => trivial) l _ _
      (fun x hx a b hab =>
        ⟨visit_sound hu hp _ _ _ _ _ hab (fun e he => by cases he; exact hx), trivial⟩) hf).1
    exact (this ⟨by simp, by intro n hn; simp at hn⟩).2

/-! ## The example registries -/

theorem acyclic_of_rank {l : List Extension} (rank : String → Nat)
    (h : ∀ x y, Dep l x y → rank y < rank x) : Acyclic l := by
  have key : ∀ x y, Relation.TransGen (Dep l) x y → rank y < rank x := by
    intro x y hxy
    induction hxy with
    | single h1 => exact h _ _ h1
    | tail _ h2 ih => exact lt_trans (h _ _ h2) ih
  intro x hx
  exact lt_irrefl _ (key x x hx)

theorem dep_chainRegistry {x y : String} (h : Dep chainRegistry x y) : x = "A" ∧ y = "B" := by
  obtain ⟨e, he, hn, ds, hds, hy⟩ := h
  simp only [chainRegistry, mkExtension, List.mem_cons, List.mem_singleton, List.not_mem_nil,
    or_false] at he
  rcases he with rfl | rfl
  · simp only [Option.some.injEq] at hn hds
    subst hn hds
    simp only [List.mem_singleton] at hy
    exact ⟨rfl, hy⟩
  · simp at hds

theorem acyclic_chainRegistry : Acyclic chainRegistry := by
  apply acyclic_of_rank (fun s => if s = "A" then 1 else 0)
  intro x y h
  obtain ⟨rfl, rfl⟩ := dep_chainRegistry h
  decide

theorem dep_danglingRegistry {x y : String} (h : Dep danglingRegistry x y) :
    x = "A" ∧ y = "B" := by
  obtain ⟨e, he, hn, ds, hds, hy⟩ := h
  simp only [danglingRegistry, mkExtension, List.mem_singleton] at he
  subst he
  simp only [Option.some.injEq] at hn hds
  subst hn hds
  simp only [List.mem_singleton] at hy
  exact ⟨rfl, hy⟩

theorem acyclic_danglingRegistry : Acyclic danglingRegistry := by
  apply acyclic_of_rank (fun s => if s = "A" then 1 else 0)
  intro x y h
  obtain ⟨rfl, rfl⟩ := dep_danglingRegistry h
  decide

/-! ## Cycle detection -/

/-- On the registry `[A (dependencies [B]), B (dependencies [A])]` the resolution
raises the circular-dependency error with the path `A -> B`. -/
theorem resolveDependencyGraph_cycle_example :
    resolveDependencyGraph [mkExtension "A" (some ["B"]), mkExtension "B" (some ["A"])] =
      .error (.error "Circular dependency \"A\" is required by \"B\": A -> B") := by
  decide

/-- An order in which the dependencies stand first leaves no room for a
cycle. -/
theorem acyclic_of_depsFirst {l : List Extension} {order : List String}
    (hreg : ∀ n, Registered l n → n ∈ order) (h : DepsFirst l order) : Acyclic l := by
  apply acyclic_of_rank (fun n => order.indexOf n)
  intro x y hxy
  have hx : Registered l x := by
    obtain ⟨e, he, hn, _⟩ := hxy
    exact ⟨e, he, hn⟩
  exact (h x (hreg x hx) y hxy).2

/-- The circular-dependency error of `visit` names a dependency `D` of the
visited extension `E` that is on the path of the calls in progress, and the
path, which runs along declared dependencies down to `E`. -/
theorem visit_cycleError_shape {l : List Extension} :
    ∀ (fuel : Nat) (ext : Option Extension) (anc : List String) (w : Walk) (msg : String),
      visit l fuel ext anc w = .error (.error msg) → (∀ e, ext = some e → e ∈ l) →
      (∀ e n, ext = some e → e.name = some n → List.Chain' (Dep l) (anc ++ [n])) →
      ∃ D E path, msg = cycleMessage D E path ∧ Dep l E D ∧ D ∈ path ∧
        path.getLast? = some E ∧ List.Chain' (Dep l) path ∧ anc <+: path := by
  intro fuel
  induction fuel with
  | zero => intro ext anc w msg h; simp [visit] at h
  | succ f ih =>
    intro ext anc w msg h hmem hanc
    cases ext with
    | none => simp [visit] at h
    | some e =>
      cases hn : e.name with
      | none => rw [visit] at h; simp [hn] at h
      | some n =>
        obtain ⟨ds, hds, hl⟩ := visit_error_some hn h
        have hchain := hanc e n rfl hn
        rcases visitDependencies_error l n _ ds _ _ hl with ⟨d, hd, hda, hm⟩ | ⟨d, hd, _, w1, hr⟩
        · simp only [JsError.error.injEq] at hm
          exact ⟨d, n, anc ++ [n], hm, ⟨e, hmem e rfl, hn, ds, hds, hd⟩, hda, by simp, hchain,
            List.prefix_append _ _⟩
        · obtain ⟨D, E, path, h1, h2, h3, h4, h5, h6⟩ :=
            ih _ _ _ _ hr (fun e1 he1 => (getExtension_some he1).1) (by
              intro e1 n1 he1 hn1
              have h2 := (getExtension_some he1).2
              rw [hn1] at h2
              cases h2
              rw [List.chain'_append]
              refine ⟨hchain, by simp, ?_⟩
              intro a ha b hb
              have ha1 : a = n := by
                simp only [List.getLast?_append, List.getLast?_singleton,
                  Option.mem_def] at ha
                simpa [Option.or] using ha.symm
              simp only [List.head?_cons, Option.mem_def, Option.some.injEq] at hb
              subst ha1 hb
              exact ⟨e, hmem e rfl, hn, ds, hds, hd⟩)
          exact ⟨D, E, path, h1, h2, h3, h4, h5, (List.prefix_append _ _).trans h6⟩

/-- Cycle detection, for names that do not collide with `Object.prototype`: in
a registry with pairwise distinct names in which every declared dependency is
registered and none is a property name of `Object.prototype`, a cycle of the
dependency relation makes `resolveDependencyGraph` raise the error with the
message `cycleMessage D E path`, where `D` is a dependency of `E` that is on
`path`, and `path` runs along declared dependencies and ends in `E`. -/
theorem resolve_cycle_raises {l : List Extension} (huniq : UniqueNames l)
    (hp : ∀ x d, Dep l x d → d ∉ objectPrototypeKeys)
    (hreg : ∀ x d, Dep l x d → Registered l d) (hcyc : ¬ Acyclic l) :
    ∃ D E path, resolveDependencyGraph l = .error (.error (cycleMessage D E path)) ∧
      Dep l E D ∧ D ∈ path ∧ path.getLast? = some E ∧ List.Chain' (Dep l) path := by
  cases h : resolveDependencyGraph l with
  | ok order =>
    exact absurd (acyclic_of_depsFirst (fun n hn => ((resolve_ok h).2.1 n).2 hn)
      (resolve_sound huniq hp h)) hcyc
  | error err =>
    cases err with
    | fuel => exact absurd h (resolveDependencyGraph_ne_fuel _)
    | typeError =>
      obtain ⟨x, d, hd, hn⟩ := resolve_typeError h
      exact absurd (hreg x d hd) hn
    | error msg =>
      obtain ⟨x, hx, w, hv⟩ := resolve_error h
      obtain ⟨D, E, path, h1, h2, h3, h4, h5, _⟩ :=
        visit_cycleError_shape _ _ _ _ _ hv (fun e he => by cases he; exact hx) (by simp)
      exact ⟨D, E, path, by rw [h1], h2, h3, h4, h5⟩

/-! ## `disable`: the cascade -/

theorem isEnabled_some (s : State) (x : String) :
    isEnabled s (some x) = decide (x ∈ s.enabled) := rfl

theorem isEnabled_true {s : State} {n : Option String} (h : isEnabled s n = true) :
    ∃ x, n = some x ∧ x ∈ s.enabled := by
  cases n with
  | none => simp [isEnabled] at h
  | some x => exact ⟨x, rfl, by simpa [isEnabled, getAllEnabled] using h⟩

theorem mem_erase_map_some (E : List String) (x e : String) :
    some e ∈ (E.map some).erase (some x) ↔ e ∈ E.erase x := by
  induction E with
  | nil => simp
  | cons a t ih =>
    by_cases h : a = x
    · subst h
      simp
    · have h1 : (some a == some x) = false := by simpa using h
      have h2 : (a == x) = false := by simpa using h
      simp only [List.map_cons, List.erase_cons, h1, h2, Bool.false_eq_true, if_false,
        List.mem_cons, Option.some.injEq]
      rw [ih]

theorem destroyExtension_ok {s : State} {n : Option String}
    (h : isInitialized s n = true → getExtension s.list n ≠ none) :
    ∃ s1, destroyExtension s n = .ok s1 ∧ s1.list = s.list ∧ s1.enabled = s.enabled ∧
      s1.init = s.init.erase n ∧ s.log <+: s1.log := by
  unfold destroyExtension
  by_cases hi : isInitialized s n = true
  · simp only [hi, if_true]
    cases hg : getExtension s.list n with
    | none => exact absurd hg (h hi)
    | some e => exact ⟨_, rfl, rfl, rfl, rfl, List.prefix_append _ _⟩
  · simp only [hi]
    refine ⟨s, rfl, rfl, rfl, ?_, List.prefix_refl _⟩
    simp only [isInitialized, getAllInitialized, decide_eq_true_eq] at hi
    exact (List.erase_of_not_mem hi).symm

theorem disableEnd_ok {s : State} {n : Option String}
    (h : isInitialized s n = true → getExtension s.list n ≠ none) :
    ∃ s1, disableEnd s n = .ok s1 ∧ s1.list = s.list ∧ s1.enabled = s.enabled ∧
      s1.init = s.init.erase n ∧ s.log <+: s1.log := by
  unfold disableEnd
  by_cases hi : isInitialized s n = true
  · simp only [hi, if_true]
    exact destroyExtension_ok h
  · simp only [hi]
    refine ⟨s, rfl, rfl, rfl, ?_, List.prefix_refl _⟩
    simp only [isInitialized, getAllInitialized, decide_eq_true_eq] at hi
    exact (List.erase_of_not_mem hi).symm

theorem disableFuel_not_enabled (fuel : Nat) {s : State} {n : Option String}
    (h : isEnabled s n = false) : disableFuel (fuel + 1) s n = disableEnd s n := by
  rw [disableFuel]
  simp only [h, disableEnd]
  rfl

theorem disableFuel_enabled (fuel : Nat) {s : State} {x : String} {order : List String}
    (h : x ∈ s.enabled) (hr : resolveDependencyGraph s.list = .ok order) :
    disableFuel (fuel + 1) s (some x) =
      match forEach (recheck fuel) (order.filter (fun e => decide (e ∈ s.enabled.erase x)))
          { s with enabled := order.filter (fun e => decide (e ∈ s.enabled.erase x)) } with
      | .error e => .error e
      | .ok s1 => disableEnd s1 (some x) := by
  rw [disableFuel]
  have he : isEnabled s (some x) = true := by simpa [isEnabled, getAllEnabled] using h
  simp only [he, if_true, reorderEnabledExtensions, hr, getAllEnabled, mem_erase_map_some]
  rfl

theorem forEach_total {α σ ε : Type} {f : α → σ → Except ε σ} (I : σ → Prop)
    (R : σ → σ → Prop) (P : α → σ → Prop) (hrefl : ∀ s, R s s)
    (htrans : ∀ a b c, R a b → R b c → R a c) (hmono : ∀ x s s1, P x s → R s s1 → P x s1) :
    ∀ (xs : List α) (s : σ),
      (∀ x ∈ xs, ∀ a, I a → ∃ b, f x a = .ok b ∧ I b ∧ R a b ∧ P x b) → I s →
      ∃ s1, forEach f xs s = .ok s1 ∧ I s1 ∧ R s s1 ∧ ∀ x ∈ xs, P x s1 := by
  intro xs
  induction xs with
  | nil =>
    intro s _ hi
    exact ⟨s, rfl, hi, hrefl s, by simp⟩
  | cons x rest ih =>
    intro s hstep hi
    obtain ⟨b, hb, hib, hrb, hpb⟩ := hstep x (List.mem_cons_self _ _) s hi
    obtain ⟨s1, h1, hi1, hr1, hp1⟩ :=
      ih b (fun y hy => hstep y (List.mem_cons_of_mem _ hy)) hib
    refine ⟨s1, ?_, hi1, htrans _ _ _ hrb hr1, ?_⟩
    · rw [forEach, hb]
      exact h1
    · intro y hy
      rcases List.mem_cons.1 hy with rfl | hy
      · exact hmono _ _ _ hpb hr1
      · exact hp1 y hy

theorem Blame.lift {l : List Extension} {E A : List String} {x e m : String}
    (hinv : ∀ m ∈ E, m ∉ A → Blame l E x m) (he : Blame l E x e) (h : Blame l A e m) :
    Blame l E x m := by
  induction h with
  | root => exact he
  | unregistered hn => exact .unregistered hn
  | @missing m d hd hna =>
    by_cases hdE : d ∈ E
    · exact .step hd (hinv d hdE hna)
    · exact .missing hd hdE
  | step hd _ ih => exact .step hd ih

theorem not_mem_erase_of_count_le_one {α : Type} [BEq α] [LawfulBEq α] {l : List α} {a : α}
    (h : l.count a ≤ 1) : a ∉ l.erase a := by
  rw [← List.count_eq_zero, List.count_erase_self]
  omega

theorem length_filter_erase_lt {order E : List String} {x : String} (hnd : order.Nodup)
    (hx : x ∈ E) :
    (order.filter (fun e => decide (e ∈ E.erase x))).length < E.length := by
  have h1 : (order.filter (fun e => decide (e ∈ E.erase x))).length ≤ (E.erase x).length := by
    apply List.Subperm.length_le
    apply List.subperm_of_subset (hnd.filter _)
    intro a ha
    simpa using (List.mem_filter.1 ha).2
  have h2 := List.length_erase_of_mem hx
  have h3 : 0 < E.length := List.length_pos_of_mem hx
  omega


/-- The loop of `disable(x)` over the remaining enabled names returns, keeps
the invariant and ends with a dependency-closed enabled list, provided the
nested calls of `disable` with the fuel `f` behave. -/
theorem cascade_loop (f : Nat)
    (ih : ∀ (s : State) (n : Option String) (order : List String),
      resolveDependencyGraph s.list = .ok order → s.enabled.length < f →
      (isInitialized s n = true → getExtension s.list n ≠ none) →
      ∃ s1, disableFuel f s n = .ok s1 ∧ DisablePost order s n s1)
    {s : State} {x : String} {order E2 : List String}
    (hres : resolveDependencyGraph s.list = .ok order) (hlen : s.enabled.length < f + 1)
    (hE2 : order.filter (fun e => decide (e ∈ s.enabled.erase x)) = E2)
    (hE2len : E2.length < s.enabled.length) :
    ∃ s1, forEach (recheck f) E2 { s with enabled := E2 } = .ok s1 ∧
      CascadeInv order s x E2 s1 ∧ DepClosed s.list s1.enabled := by
  obtain ⟨hnd, hord, _⟩ := resolve_ok hres
  have hE2ord : List.Sublist E2 order := by rw [← hE2]; exact List.filter_sublist _
  have hloop := @forEach_total String State (JsError × State) (recheck f)
    (CascadeInv order s x E2)
    (fun a b => b.enabled = a.enabled ∨ DepClosed s.list b.enabled)
    (fun e a => e ∈ a.enabled → ∀ d, Declares s.list e d → d ∈ a.enabled)
    (fun _ => Or.inl rfl)
    (fun a b c h1 h2 => by
      rcases h2 with h2 | h2
      · rcases h1 with h1 | h1
        · exact Or.inl (h2.trans h1)
        · exact Or.inr (h2 ▸ h1)
      · exact Or.inr h2)
    (fun e a b hp hr => by
      rcases hr with hr | hr
      · rw [hr]; exact hp
      · exact fun hm => hr e hm)
    E2 { s with enabled := E2 }
    (by
      intro e heE2 a ha
      have hreg : Registered s.list e := (hord e).1 (hE2ord.subset heE2)
      obtain ⟨ext, hg, _, hname⟩ := getExtension_of_registered hreg
      unfold recheck checkDependenciesWith
      rw [ha.list_eq, hg]
      simp only
      cases hdeps : ext.dependencies with
      | none =>
        refine ⟨a, rfl, ha, Or.inl rfl, ?_⟩
        intro _ d hd
        simp [Declares, dependenciesOf, hg, hdeps] at hd
      | some ds =>
        simp only
        have hdecl : ∀ d, Declares s.list e d ↔ d ∈ ds := by
          intro d
          simp [Declares, dependenciesOf, hg, hdeps]
        by_cases hc : (ds.all (fun dependency => isEnabled a (some dependency)) = false ∧
            isEnabled a (some e) = true)
        · simp only [hc, and_self, if_true]
          have hlen2 : a.enabled.length < f := by
            have := ha.enabled_length
            omega
          obtain ⟨b, hb, hpost⟩ := ih a (some e) order (by rw [ha.list_eq]; exact hres) hlen2
            (fun _ => by rw [ha.list_eq, hg]; simp)
          rw [hb]
          simp only
          have hea : e ∈ a.enabled := by
            simpa [isEnabled, getAllEnabled] using hc.2
          have hclosed : DepClosed s.list b.enabled := by
            have := hpost.closed hc.2
            rwa [ha.list_eq] at this
          refine ⟨b, rfl, ?_, Or.inr hclosed, fun hm => hclosed e hm⟩
          -- the extension `e` is blamed
          have hbe : Blame s.list s.enabled x e := by
            have h1 := hc.1
            rw [List.all_eq_false] at h1
            obtain ⟨d, hd, hdn⟩ := h1
            have hda : d ∉ a.enabled := by
              simpa [isEnabled, getAllEnabled] using hdn
            by_cases hdE : d ∈ s.enabled
            · exact .step ((hdecl d).2 hd) (ha.blame d hdE hda)
            · exact .missing ((hdecl d).2 hd) hdE
          exact {
            list_eq := hpost.list_eq.trans ha.list_eq
            enabled_sublist := hpost.enabled_sublist hc.2
            enabled_subset := fun m hm => ha.enabled_subset (hpost.enabled_subset hm)
            enabled_length := le_trans (le_of_lt (hpost.enabled_length hc.2)) ha.enabled_length
            init_sublist := hpost.init_sublist.trans ha.init_sublist
            log_prefix := ha.log_prefix.trans hpost.log_prefix
            blame := by
              intro m hm hmb
              by_cases hma : m ∈ a.enabled
              · have := hpost.blame e rfl m hma hmb
                rw [ha.list_eq] at this
                exact Blame.lift ha.blame hbe this
              · exact ha.blame m hm hma }
        · simp only [hc, if_false]
          refine ⟨a, rfl, ha, Or.inl rfl, ?_⟩
          intro hm d hd
          have hen : isEnabled a (some e) = true := by
            simpa [isEnabled, getAllEnabled] using hm
          have hall : ds.all (fun dependency => isEnabled a (some dependency)) = true := by
            by_contra hne
            exact hc ⟨by simpa using hne, hen⟩
          rw [List.all_eq_true] at hall
          have := hall d ((hdecl d).1 hd)
          simpa [isEnabled, getAllEnabled] using this)
    { list_eq := rfl
      enabled_sublist := hE2ord
      enabled_subset := List.Subset.refl _
      enabled_length := le_refl _
      init_sublist := List.Sublist.refl _
      log_prefix := List.prefix_refl _
      blame := by
        intro m hm hmn
        simp only at hmn
        by_cases hmx : m = x
        · subst hmx; exact .root
        · apply Blame.unregistered
          intro hreg
          apply hmn
          rw [← hE2]
          exact List.mem_filter.2 ⟨(hord m).2 hreg, by
            simpa using (List.mem_erase_of_ne hmx).2 hm⟩ }
  obtain ⟨s1, hs1, hinv, _, hP⟩ := hloop
  exact ⟨s1, hs1, hinv, fun m hm d hd => hP m (hinv.enabled_subset hm) hm d hd⟩

theorem disableFuel_ok : ∀ (fuel : Nat) (s : State) (n : Option String) (order : List String),
    resolveDependencyGraph s.list = .ok order → s.enabled.length < fuel →
    (isInitialized s n = true → getExtension s.list n ≠ none) →
    ∃ s1, disableFuel fuel s n = .ok s1 ∧ DisablePost order s n s1 := by
  intro fuel
  induction fuel with
  | zero => intro s n order _ h; omega
  | succ f ih =>
    intro s n order hres hlen hinit
    obtain ⟨hnd, hord, _⟩ := resolve_ok hres
    by_cases he : isEnabled s n = true
    · obtain ⟨x, rfl, hx⟩ := isEnabled_true he
      rw [disableFuel_enabled f hx hres]
      have hE2len := length_filter_erase_lt hnd hx
      have hE2sub : order.filter (fun e => decide (e ∈ s.enabled.erase x)) ⊆ s.enabled := by
        intro a ha
        have := (List.mem_filter.1 ha).2
        exact List.mem_of_mem_erase (by simpa using this)
      generalize hE2 : order.filter (fun e => decide (e ∈ s.enabled.erase x)) = E2
        at hE2len hE2sub
      have hE2ord : List.Sublist E2 order := by rw [← hE2]; exact List.filter_sublist _
      obtain ⟨s1, hs1, hinv, hclosed⟩ := cascade_loop f ih hres hlen hE2 hE2len
      rw [hs1]
      simp only
      obtain ⟨s2, hs2, hl2, he2, hi2, hlog2⟩ := disableEnd_ok (s := s1) (n := some x) (by
        intro hi
        rw [hinv.list_eq]
        apply hinit
        simp only [isInitialized, getAllInitialized, decide_eq_true_eq] at hi ⊢
        exact hinv.init_sublist.subset hi)
      refine ⟨s2, hs2, ?_⟩
      exact {
        list_eq := hl2.trans hinv.list_eq
        enabled_eq := fun h => by rw [he] at h; cases h
        enabled_sublist := fun _ => he2 ▸ hinv.enabled_sublist
        enabled_subset := fun m hm => hE2sub (hinv.enabled_subset (he2 ▸ hm))
        enabled_length := fun _ => by
          rw [he2]
          exact lt_of_le_of_lt hinv.enabled_length hE2len
        not_enabled := by
          intro y hy hcount hmem
          cases hy
          rw [he2] at hmem
          have := hinv.enabled_subset hmem
          rw [← hE2] at this
          have := (List.mem_filter.1 this).2
          exact not_mem_erase_of_count_le_one hcount (by simpa using this)
        closed := fun _ => by
          rw [he2]
          exact hclosed
        blame := by
          intro y hy m hm hmn
          cases hy
          rw [he2] at hmn
          exact hinv.blame m hm hmn
        init_sublist := by
          rw [hi2]
          exact (List.erase_sublist _ _).trans hinv.init_sublist
        not_init := by
          intro hcount
          rw [hi2]
          apply not_mem_erase_of_count_le_one
          exact le_trans (hinv.init_sublist.count_le _) hcount
        log_prefix := hinv.log_prefix.trans hlog2 }
    · have he1 : isEnabled s n = false := by simpa using he
      rw [disableFuel_not_enabled f he1]
      obtain ⟨s2, hs2, hl2, he2, hi2, hlog2⟩ := disableEnd_ok hinit
      refine ⟨s2, hs2, ?_⟩
      exact {
        list_eq := hl2
        enabled_eq := fun _ => he2
        enabled_sublist := fun h => absurd h he
        enabled_subset := by rw [he2]; exact List.Subset.refl _
        enabled_length := fun h => absurd h he
        not_enabled := by
          intro y hy _ hmem
          subst hy
          rw [he2] at hmem
          simp [isEnabled, getAllEnabled] at he1
          exact he1 hmem
        closed := fun h => absurd h he
        blame := by
          intro y _ m hm hmn
          rw [he2] at hmn
          exact absurd hm hmn
        init_sublist := by rw [hi2]; exact List.erase_sublist _ _
        not_init := by
          intro hcount
          rw [hi2]
          exact not_mem_erase_of_count_le_one hcount
        log_prefix := hlog2 }

theorem disableEnd_ne_fuel (s st : State) (n : Option String) :
    disableEnd s n ≠ .error (.fuel, st) := by
  unfold disableEnd destroyExtension
  by_cases hi : isInitialized s n = true
  · simp only [hi, if_true]
    cases getExtension s.list n with
    | none => simp
    | some e => simp
  · simp [hi]

theorem disableFuel_enabled_error (fuel : Nat) {s : State} {x : String} {err : JsError}
    (h : x ∈ s.enabled) (hr : resolveDependencyGraph s.list = .error err) :
    disableFuel (fuel + 1) s (some x) = .error (err, s) := by
  rw [disableFuel]
  have he : isEnabled s (some x) = true := by simpa [isEnabled, getAllEnabled] using h
  simp only [he, if_true, reorderEnabledExtensions, hr]

/-- The fuel that `disable` supplies is never exhausted. -/
theorem disableFuel_ne_fuel (fuel : Nat) (s st : State) (n : Option String)
    (hlen : s.enabled.length < fuel) : disableFuel fuel s n ≠ .error (.fuel, st) := by
  cases fuel with
  | zero => omega
  | succ f =>
    by_cases he : isEnabled s n = true
    · obtain ⟨x, rfl, hx⟩ := isEnabled_true he
      cases hres : resolveDependencyGraph s.list with
      | error err =>
        rw [disableFuel_enabled_error f hx hres]
        simp only [ne_eq, Except.error.injEq, Prod.mk.injEq, not_and]
        intro h
        subst h
        exact absurd hres (resolveDependencyGraph_ne_fuel _)
      | ok order =>
        rw [disableFuel_enabled f hx hres]
        obtain ⟨s1, hs1, _, _⟩ := cascade_loop f (disableFuel_ok f) hres hlen rfl
          (length_filter_erase_lt (resolve_ok hres).1 hx)
        rw [hs1]
        exact disableEnd_ne_fuel _ _ _
    · have he1 : isEnabled s n = false := by simpa using he
      rw [disableFuel_not_enabled f he1]
      exact disableEnd_ne_fuel _ _ _

/-- The call `disable(n)` never ends by exhaustion of the fuel. -/
theorem disable_ne_fuel (s st : State) (n : Option String) :
    disable s n ≠ .error (.fuel, st) :=
  disableFuel_ne_fuel _ s st n (Nat.lt_succ_self _)

theorem disable_ok {s : State} {n : Option String} {order : List String}
    (hres : resolveDependencyGraph s.list = .ok order)
    (hinit : isInitialized s n = true → getExtension s.list n ≠ none) :
    ∃ s1, disable s n = .ok s1 ∧ DisablePost order s n s1 :=
  disableFuel_ok (s.enabled.length + 1) s n order hres (Nat.lt_succ_self _) hinit

theorem depClosed_reach {l : List Extension} {F : List String} (h : DepClosed l F)
    {m y : String} (hm : m ∈ F) (hr : Relation.TransGen (Declares l) m y) : y ∈ F := by
  induction hr with
  | single h1 => exact h m hm _ h1
  | tail _ h2 ih => exact h _ ih _ h2

theorem blame_reach {l : List Extension} {E : List String} {x m : String}
    (hreg : ∀ m ∈ E, Registered l m) (hc : DepClosed l E) (h : Blame l E x m) (hm : m ∈ E) :
    m = x ∨ Relation.TransGen (Declares l) m x := by
  induction h with
  | root => exact Or.inl rfl
  | unregistered hn => exact absurd (hreg _ hm) hn
  | missing hd hne => exact absurd (hc _ hm _ hd) hne
  | step hd _ ih =>
    rcases ih (hc _ hm _ hd) with h1 | h1
    · subst h1
      exact Or.inr (Relation.TransGen.single hd)
    · exact Or.inr (Relation.TransGen.head hd h1)

/-! ## `enable` -/

theorem checkDependencies_not_enabled {s : State} {n : Option String} {e : Extension}
    (hg : getExtension s.list n = some e) (hen : isEnabled s n = false) :
    checkDependencies s n = .ok (dependencyStatus s e, s) := by
  unfold checkDependencies checkDependenciesWith dependencyStatus
  rw [hg]
  rcases e with ⟨nm, deps, confs, cr, de⟩
  cases deps with
  | none => rfl
  | some ds => simp [hen]

theorem checkConflicts_registered {s : State} {n : Option String} {e : Extension}
    (hg : getExtension s.list n = some e) :
    checkConflicts s n = .ok (conflictStatus s e) := by
  unfold checkConflicts conflictStatus
  rw [hg]
  rcases e with ⟨nm, deps, confs, cr, de⟩
  cases confs with
  | none => rfl
  | some cs => rfl

theorem dependencyStatus_iff {s : State} {X : String} {e : Extension}
    (hg : getExtension s.list (some X) = some e) :
    dependencyStatus s e = true ↔ ∀ d ∈ dependenciesOf s.list X, d ∈ s.enabled := by
  unfold dependencyStatus dependenciesOf
  rw [hg]
  rcases e with ⟨nm, deps, confs, cr, de⟩
  cases deps with
  | none => simp
  | some ds => simp [isEnabled, getAllEnabled]

theorem conflictStatus_iff {s : State} {X : String} {e : Extension}
    (hg : getExtension s.list (some X) = some e) :
    conflictStatus s e = true ↔ ∀ c ∈ conflictsOf s.list X, c ∉ s.enabled := by
  unfold conflictStatus conflictsOf
  rw [hg]
  rcases e with ⟨nm, deps, confs, cr, de⟩
  cases confs with
  | none => simp
  | some cs => simp [isEnabled, getAllEnabled]

/-- The effect of the guarded block of `enable` on a registered name, when the
registry resolves. -/
theorem enableGate_registered {s : State} {X : String} {order : List String} {e : Extension}
    (hres : resolveDependencyGraph s.list = .ok order)
    (hg : getExtension s.list (some X) = some e) :
    enableGate s (some X) (some X) =
      .ok (if Enablable s X then
          { s with enabled := order.filter (fun n => decide (n ∈ s.enabled ++ [X])) }
        else s) := by
  unfold enableGate
  by_cases hen : isEnabled s (some X) = true
  · have hx : X ∈ s.enabled := by simpa [isEnabled, getAllEnabled] using hen
    have hne : ¬ Enablable s X := fun h => h.1 hx
    simp [hen, hne]
  · have hen1 : isEnabled s (some X) = false := by simpa using hen
    have hx : X ∉ s.enabled := by simpa [isEnabled, getAllEnabled] using hen1
    rw [checkDependencies_not_enabled hg hen1]
    simp only [hen1, Bool.false_eq_true, if_false]
    cases hd : dependencyStatus s e with
    | false =>
      have hne : ¬ Enablable s X := fun h => by
        have := (dependencyStatus_iff hg).2 h.2.1
        rw [hd] at this
        cases this
      simp [hne]
    | true =>
      have hd1 := (dependencyStatus_iff hg).1 hd
      simp only
      rw [checkConflicts_registered hg]
      cases hc : conflictStatus s e with
      | false =>
        have hne : ¬ Enablable s X := fun h => by
          have := (conflictStatus_iff hg).2 h.2.2
          rw [hc] at this
          cases this
        simp [hne]
      | true =>
        have he : Enablable s X := ⟨hx, hd1, (conflictStatus_iff hg).1 hc⟩
        simp only [reorderEnabledExtensions, hres, getAllEnabled, he, if_true]
        congr 2
        apply List.filter_congr
        intro n _
        simp

theorem enable_registered {s : State} {X : String} {order : List String}
    (hres : resolveDependencyGraph s.list = .ok order) (hX : Registered s.list X) :
    enable s (some X) false =
      .ok (if Enablable s X then
          { s with enabled := order.filter (fun n => decide (n ∈ s.enabled ++ [X])) }
        else s) := by
  obtain ⟨e, hg, _, hn⟩ := getExtension_of_registered hX
  unfold enable
  rw [hg]
  simp only [hn]
  rw [enableGate_registered hres hg]
  simp

/-! ## `reorderExtensions`, `add` and `remove` -/

theorem getExtension_append_fresh {l : List Extension} {d : Extension}
    (h : getExtension l d.name = none) : getExtension (l ++ [d]) d.name = some d := by
  rw [getExtension_eq_find] at h ⊢
  rw [List.find?_append, h]
  simp

/-- The descriptors that `reorderExtensions` writes have the names of the
resolved order. -/
theorem getAll_filterMap_getExtension (l : List Extension) :
    ∀ (order : List String), (∀ n ∈ order, Registered l n) →
      (order.filterMap (fun n => getExtension l (some n))).map (fun e => e.name) =
        order.map some := by
  intro order
  induction order with
  | nil => intro _; rfl
  | cons a t ih =>
    intro h
    obtain ⟨e, hg, _, hn⟩ := getExtension_of_registered (h a (List.mem_cons_self _ _))
    rw [List.filterMap_cons, hg]
    simp only [List.map_cons, hn]
    rw [ih (fun n hn => h n (List.mem_cons_of_mem _ hn))]

theorem getExtension_filterMap (l : List Extension) (n : String) :
    ∀ (order : List String), (∀ k ∈ order, Registered l k) → n ∈ order →
      getExtension (order.filterMap (fun k => getExtension l (some k))) (some n) =
        getExtension l (some n) := by
  intro order
  induction order with
  | nil => intro _ h; simp at h
  | cons a t ih =>
    intro h hn
    obtain ⟨e, hg, _, hname⟩ := getExtension_of_registered (h a (List.mem_cons_self _ _))
    rw [List.filterMap_cons, hg]
    simp only
    by_cases han : a = n
    · subst han
      rw [hg, getExtension_eq_find, List.find?_cons]
      simp [hname]
    · rw [getExtension_eq_find, List.find?_cons]
      have : (e.name == some n) = false := by simp [hname, han]
      rw [this, ← getExtension_eq_find]
      apply ih (fun k hk => h k (List.mem_cons_of_mem _ hk))
      rcases List.mem_cons.1 hn with h1 | h1
      · exact absurd h1.symm han
      · exact h1

theorem reorderExtensions_ok {s : State} {order : List String}
    (hres : resolveDependencyGraph s.list = .ok order) :
    ∃ s1, reorderExtensions s = .ok s1 ∧ getAll s1 = order.map some ∧
      s1.enabled = s.enabled ∧ s1.init = s.init ∧ s1.log = s.log ∧
      ∀ n, Registered s.list n → getExtension s1.list (some n) = getExtension s.list (some n) := by
  unfold reorderExtensions
  rw [hres]
  obtain ⟨_, hord, _⟩ := resolve_ok hres
  refine ⟨_, rfl, ?_, rfl, rfl, rfl, ?_⟩
  · exact getAll_filterMap_getExtension s.list order (fun n hn => (hord n).1 hn)
  · intro n hn
    exact getExtension_filterMap s.list n order (fun k hk => (hord k).1 hk) ((hord n).2 hn)

theorem reorderExtensions_error {s : State} {err : JsError}
    (hres : resolveDependencyGraph s.list = .error err) :
    reorderExtensions s = .error (err, s) := by
  unfold reorderExtensions
  rw [hres]

/-- The guarded block of `enable` changes neither `_list`, nor `_init`, nor the
callbacks invoked, whether it returns or raises. -/
theorem enableGate_frame (s : State) (en name : Option String) :
    (endState (enableGate s en name)).list = s.list ∧
    (endState (enableGate s en name)).init = s.init ∧
    (endState (enableGate s en name)).log = s.log := by
  unfold enableGate
  by_cases hen : isEnabled s name = true
  · simp [hen, endState]
  · have hen1 : isEnabled s name = false := by simpa using hen
    simp only [hen1, Bool.false_eq_true, if_false]
    cases hg : getExtension s.list name with
    | none =>
      simp [checkDependencies, checkDependenciesWith, hg, endState]
    | some e =>
      rw [checkDependencies_not_enabled hg hen1]
      cases dependencyStatus s e with
      | false => simp [endState]
      | true =>
        simp only
        rw [checkConflicts_registered hg]
        cases conflictStatus s e with
        | false => simp [endState]
        | true =>
          simp only [reorderEnabledExtensions]
          cases resolveDependencyGraph s.list with
          | error err => simp [endState]
          | ok order => simp [endState]

/-- `enable` does not change `_list`, whether it returns or raises. -/
theorem enable_list (s : State) (n : Option String) (init : Bool) :
    (endState (enable s n init)).list = s.list := by
  unfold enable
  cases hg : getExtension s.list n with
  | none => simp [endState]
  | some e =>
    simp only
    have hf := (enableGate_frame s n e.name).1
    cases hgate : enableGate s n e.name with
    | error err =>
      rw [hgate] at hf
      obtain ⟨er, st⟩ := err
      simpa [endState] using hf
    | ok s1 =>
      rw [hgate] at hf
      simp only [endState] at hf
      simp only
      cases init with
      | false => simpa [endState] using hf
      | true =>
        simp only [if_true]
        unfold initializeExtension
        by_cases hi : isInitialized s1 e.name = true
        · simpa [hi, endState] using hf
        · simp only [hi, Bool.not_eq_true', Bool.false_eq_true]
          cases getExtension s1.list e.name with
          | none => simpa [endState] using hf
          | some e2 => simpa [endState] using hf

theorem add_fresh {s : State} {d : Extension} (h : getExtension s.list d.name = none)
    (enableAfter initAfter : Bool) :
    add s d enableAfter initAfter =
      if enableAfter then enable (pushed s d) d.name initAfter else .ok (pushed s d) := by
  unfold add pushed
  rw [if_pos h]

theorem add_registered {s : State} {d : Extension} (h : getExtension s.list d.name ≠ none)
    (enableAfter initAfter : Bool) : add s d enableAfter initAfter = .ok s := by
  unfold add
  simp [h]

theorem filter_name_length_one {n : String} : ∀ (l : List Extension),
    (l.map (fun e => e.name)).Nodup → some n ∈ l.map (fun e => e.name) →
    (l.filter (fun e => decide (e.name = some n))).length = 1 := by
  intro l
  induction l with
  | nil => intro _ h; simp at h
  | cons a t ih =>
    intro hnd hm
    rw [List.map_cons, List.nodup_cons] at hnd
    by_cases ha : a.name = some n
    · have h0 : t.filter (fun e => decide (e.name = some n)) = [] := by
        rw [List.filter_eq_nil_iff]
        intro e he
        simp only [decide_eq_true_eq]
        intro hen
        apply hnd.1
        rw [ha, ← hen]
        exact List.mem_map.2 ⟨e, he, rfl⟩
      simp [List.filter_cons, ha, h0]
    · simp only [List.filter_cons, ha, decide_False, Bool.false_eq_true, if_false]
      apply ih hnd.2
      simp only [List.map_cons, List.mem_cons] at hm
      rcases hm with hm | hm
      · exact absurd hm.symm ha
      · exact hm

theorem mem_getAll_of_filter {s : State} {n : String}
    (h : (s.list.filter (fun e => decide (e.name = some n))).length = 1) :
    some n ∈ getAll s := by
  have hne : s.list.filter (fun e => decide (e.name = some n)) ≠ [] := by
    intro h0
    rw [h0] at h
    cases h
  obtain ⟨e, he⟩ := List.exists_mem_of_ne_nil _ hne
  obtain ⟨h1, h2⟩ := List.mem_filter.1 he
  exact List.mem_map.2 ⟨e, h1, by simpa using h2⟩

/-- What the push and the reorder of `add` do for a descriptor with a fresh
name `n`. -/
theorem pushed_spec {s : State} {d : Extension} {n : String} (hn : d.name = some n)
    (h : getExtension s.list (some n) = none) :
    (pushed s d).enabled = s.enabled ∧ (pushed s d).init = s.init ∧
    (pushed s d).log = s.log ∧
    getExtension (pushed s d).list (some n) = some d ∧
    ((pushed s d).list.filter (fun e => decide (e.name = some n))).length = 1 ∧
    (∀ err, resolveDependencyGraph (s.list ++ [d]) = .error err →
      (pushed s d).list = s.list ++ [d]) ∧
    (∀ order, resolveDependencyGraph (s.list ++ [d]) = .ok order →
      getAll (pushed s d) = order.map some) := by
  have hfresh : getExtension (s.list ++ [d]) (some n) = some d := by
    have := getExtension_append_fresh (l := s.list) (d := d) (by rw [hn]; exact h)
    rwa [hn] at this
  have hreg : Registered (s.list ++ [d]) n := ⟨d, by simp, hn⟩
  have hcount : ((s.list ++ [d]).filter (fun e => decide (e.name = some n))).length = 1 := by
    rw [List.filter_append]
    have h0 : s.list.filter (fun e => decide (e.name = some n)) = [] := by
      rw [List.filter_eq_nil_iff]
      intro e he
      simpa using getExtension_eq_none.1 h e he
    rw [h0]
    simp [hn]
  unfold pushed
  cases hres : resolveDependencyGraph (s.list ++ [d]) with
  | error err =>
    rw [reorderExtensions_error (s := { s with list := s.list ++ [d] }) hres]
    exact ⟨rfl, rfl, rfl, hfresh, hcount, fun _ _ => rfl, fun order ho => by cases ho⟩
  | ok order =>
    obtain ⟨s2, h2, hall, he, hi, hl, hget⟩ :=
      reorderExtensions_ok (s := { s with list := s.list ++ [d] }) hres
    rw [h2]
    obtain ⟨hnd, hord, _⟩ := resolve_ok hres
    refine ⟨he, hi, hl, ?_, ?_, ?_, ?_⟩
    · rw [hget n hreg]
      exact hfresh
    · apply filter_name_length_one
      · unfold getAll at hall
        rw [hall]
        exact hnd.map (Option.some_injective _)
      · unfold getAll at hall
        rw [hall]
        exact List.mem_map.2 ⟨n, (hord n).2 hreg, rfl⟩
    · intro err herr
      cases herr
    · intro order1 ho
      cases ho
      exact hall

/-- A resolution returns when every declared dependency is registered and the
dependency relation has no cycle. -/
theorem resolve_returns {l : List Extension} (hreg : ∀ x d, Dep l x d → Registered l d)
    (hacyc : Acyclic l) : ∃ order, resolveDependencyGraph l = .ok order := by
  cases h : resolveDependencyGraph l with
  | error err =>
    cases err with
    | fuel => exact absurd h (resolveDependencyGraph_ne_fuel _)
    | typeError =>
      obtain ⟨x, d, hd, hn⟩ := resolve_typeError h
      exact absurd (hreg x d hd) hn
    | error msg =>
      obtain ⟨x, hx⟩ := resolve_cycleError h
      exact absurd hx (hacyc x)
  | ok order => exact ⟨order, rfl⟩

theorem count_le_one_of_nodup {α : Type} [BEq α] [LawfulBEq α] {l : List α} (h : l.Nodup)
    (a : α) : l.count a ≤ 1 := by
  induction l with
  | nil => simp
  | cons b t ih =>
    rw [List.nodup_cons] at h
    rw [List.count_cons]
    by_cases hb : (b == a) = true
    · have hba : b = a := by simpa using hb
      subst hba
      have : List.count b t = 0 := List.count_eq_zero.2 h.1
      simp [this]
    · have := ih h.2
      simp only [hb, Bool.false_eq_true, if_false]
      omega

theorem splice1_indexOf {l : List Extension} {e : Extension} (he : e ∈ l) :
    splice1 l (indexOfExtension l (some e)) = l.erase e := by
  unfold splice1 indexOfExtension
  simp only [he, if_true]
  have : ¬ ((l.indexOf e : Int) < 0) := by omega
  simp only [this, if_false, Int.toNat_ofNat]
  exact List.eraseIdx_indexOf_eq_erase e l

theorem Dep.of_erase {l : List Extension} {e : Extension} {x d : String}
    (h : Dep (l.erase e) x d) : Dep l x d := by
  obtain ⟨e1, he1, hrest⟩ := h
  exact ⟨e1, List.mem_of_mem_erase he1, hrest⟩

theorem Registered.erase {l : List Extension} {e : Extension} {X d : String}
    (hX : e.name = some X) (hd : Registered l d) (hne : d ≠ X) : Registered (l.erase e) d := by
  obtain ⟨e1, he1, hn1⟩ := hd
  refine ⟨e1, (List.mem_erase_of_ne ?_).2 he1, hn1⟩
  intro h
  subst h
  rw [hX] at hn1
  cases hn1
  exact hne rfl

/-! ## The lifecycle: `initializeExtension`, `destroyExtension`, `init` -/

theorem isInitialized_iff (s : State) (n : Option String) :
    isInitialized s n = true ↔ n ∈ s.init := by
  simp [isInitialized, getAllInitialized]

/-- `initializeExtension` on a name that is not initialized and for which a
descriptor is found: the name is appended, and nothing else changes. -/
theorem initializeExtension_fresh {s : State} {n : Option String} {e : Extension}
    (hg : getExtension s.list n = some e) (hni : n ∉ s.init) :
    initializeExtension s n = .ok { s with init := s.init ++ [n] } := by
  unfold initializeExtension
  have : isInitialized s n = false := by
    simpa [isInitialized, getAllInitialized] using hni
  simp [this, hg]

/-- `initializeExtension` on an initialized name changes nothing. -/
theorem initializeExtension_initialized {s : State} {n : Option String} (hi : n ∈ s.init) :
    initializeExtension s n = .ok s := by
  unfold initializeExtension
  have : isInitialized s n = true := (isInitialized_iff s n).2 hi
  simp [this]

/-- `destroyExtension` on an initialized name for which a descriptor is found. -/
theorem destroyExtension_initialized {s : State} {n : Option String} {e : Extension}
    (hg : getExtension s.list n = some e) (hi : n ∈ s.init) :
    destroyExtension s n =
      .ok { s with log := s.log ++ [Event.destroy e.destroy], init := s.init.erase n } := by
  unfold destroyExtension
  have : isInitialized s n = true := (isInitialized_iff s n).2 hi
  simp [this, hg]

/-- `destroyExtension` on a name that is not initialized changes nothing. -/
theorem destroyExtension_not_initialized {s : State} {n : Option String} (hni : n ∉ s.init) :
    destroyExtension s n = .ok s := by
  unfold destroyExtension
  have : isInitialized s n = false := by
    simpa [isInitialized, getAllInitialized] using hni
  simp [this]

theorem erase_eq_filter_of_nodup {α : Type} [BEq α] [LawfulBEq α] [DecidableEq α] :
    ∀ {l : List α} (a : α), l.Nodup → l.erase a = l.filter (fun b => decide (b ≠ a)) := by
  intro l a
  induction l with
  | nil => intro _; rfl
  | cons b t ih =>
    intro h
    rw [List.nodup_cons] at h
    by_cases hb : b = a
    · subst hb
      rw [List.erase_cons_head, List.filter_cons]
      simp only [ne_eq, not_true_eq_false, decide_False, Bool.false_eq_true, if_false]
      symm
      rw [List.filter_eq_self]
      intro x hx
      simp only [decide_eq_true_eq]
      intro hxb
      exact h.1 (hxb ▸ hx)
    · rw [List.erase_cons_tail (by simpa using hb), List.filter_cons]
      simp only [ne_eq, hb, not_false_eq_true, decide_True, if_true]
      rw [ih h.2]

/-- The loop of `init()` over the names `xs`, all registered: it returns, changes
only `_init`, and appends to it the names of `xs` that were not initialized,
once each and in the order of `xs`. -/
theorem init_loop (l : List Extension) :
    ∀ (xs : List String) (s : State), s.list = l → (∀ n ∈ xs, Registered l n) →
      ∃ fresh, forEach (fun extension s1 => initializeExtension s1 (some extension)) xs s =
          .ok { s with init := s.init ++ fresh } ∧
        fresh.Nodup ∧ List.Sublist fresh (xs.map some) ∧
        (∀ m, m ∈ fresh ↔ m ∈ xs.map some ∧ m ∉ s.init) ∧
        (xs.Nodup → fresh = (xs.map some).filter (fun m => decide (m ∉ s.init))) := by
  intro xs
  induction xs with
  | nil =>
    intro s _ _
    exact ⟨[], by simp [forEach], List.nodup_nil, List.Sublist.refl _, by simp, fun _ => rfl⟩
  | cons x rest ih =>
    intro s hl hreg
    obtain ⟨e, hg, _, _⟩ := getExtension_of_registered (hreg x (List.mem_cons_self _ _))
    have hreg2 : ∀ n ∈ rest, Registered l n := fun n hn => hreg n (List.mem_cons_of_mem _ hn)
    by_cases hx : some x ∈ s.init
    · obtain ⟨fresh, hf, hnd, hsub, hmem, heq⟩ := ih s hl hreg2
      refine ⟨fresh, ?_, hnd, ?_, ?_, ?_⟩
      · rw [forEach, initializeExtension_initialized hx]
        exact hf
      · rw [List.map_cons]
        exact List.Sublist.cons _ hsub
      · intro m
        rw [hmem, List.map_cons, List.mem_cons]
        constructor
        · rintro ⟨h1, h2⟩
          exact ⟨Or.inr h1, h2⟩
        · rintro ⟨h1 | h1, h2⟩
          · exact absurd (h1 ▸ hx) h2
          · exact ⟨h1, h2⟩
      · intro hnodup
        rw [heq (List.nodup_cons.1 hnodup).2, List.map_cons, List.filter_cons]
        simp [hx]
    · obtain ⟨fresh, hf, hnd, hsub, hmem, heq⟩ :=
        ih { s with init := s.init ++ [some x] } hl hreg2
      have hxf : some x ∉ fresh := fun h => ((hmem _).1 h).2 (by simp)
      refine ⟨some x :: fresh, ?_, List.nodup_cons.2 ⟨hxf, hnd⟩, ?_, ?_, ?_⟩
      · rw [forEach, initializeExtension_fresh (by rw [hl] at *; exact hg) hx]
        simp only
        rw [hf]
        simp
      · rw [List.map_cons]
        exact List.Sublist.cons₂ _ hsub
      · intro m
        rw [List.mem_cons, hmem, List.map_cons, List.mem_cons]
        simp only [List.mem_append, List.mem_singleton, not_or]
        constructor
        · rintro (h1 | ⟨h1, h2, _⟩)
          · exact ⟨Or.inl h1, h1 ▸ hx⟩
          · exact ⟨Or.inr h1, h2⟩
        · rintro ⟨h1 | h1, h2⟩
          · exact Or.inl h1
          · by_cases hm : m = some x
            · exact Or.inl hm
            · exact Or.inr ⟨h1, h2, hm⟩
      · intro hnodup
        obtain ⟨hxr, hnr⟩ := List.nodup_cons.1 hnodup
        rw [heq hnr, List.map_cons, List.filter_cons]
        simp only [hx, not_false_eq_true, decide_True, if_true, List.cons.injEq, true_and]
        apply List.filter_congr
        intro m hm
        have hmx : m ≠ some x := by
          intro h
          subst h
          simp only [List.mem_map, Option.some.injEq, exists_eq_right] at hm
          exact hxr hm
        simp [hmx]

/-! ## What returning calls of `enable` and `disable` have done -/

theorem enable_eq {s : State} {X : String} {e : Extension}
    (hg : getExtension s.list (some X) = some e) (init : Bool) :
    enable s (some X) init =
      match enableGate s (some X) (some X) with
      | .error err => .error err
      | .ok s1 => if init then initializeExtension s1 (some X) else .ok s1 := by
  unfold enable
  rw [hg]
  simp only [(getExtension_some hg).2]

/-- The guarded block of `enable` changes nothing when a gate fails. -/
theorem enableGate_not_enablable {s : State} {X : String} {e : Extension}
    (hg : getExtension s.list (some X) = some e) (hne : ¬ Enablable s X) :
    enableGate s (some X) (some X) = .ok s := by
  unfold enableGate
  by_cases hen : isEnabled s (some X) = true
  · simp [hen]
  · have hen1 : isEnabled s (some X) = false := by simpa using hen
    have hx : X ∉ s.enabled := by simpa [isEnabled, getAllEnabled] using hen1
    rw [checkDependencies_not_enabled hg hen1]
    simp only [hen1, Bool.false_eq_true, if_false]
    cases hd : dependencyStatus s e with
    | false => rfl
    | true =>
      simp only
      rw [checkConflicts_registered hg]
      cases hc : conflictStatus s e with
      | false => rfl
      | true =>
        exact absurd ⟨hx, (dependencyStatus_iff hg).1 hd, (conflictStatus_iff hg).1 hc⟩ hne

/-- The guarded block of `enable` when the gates pass: the outcome of the
resolution decides. -/
theorem enableGate_enablable {s : State} {X : String} {e : Extension}
    (hg : getExtension s.list (some X) = some e) (he : Enablable s X) :
    enableGate s (some X) (some X) =
      match resolveDependencyGraph s.list with
      | .error err => .error (err, s)
      | .ok order =>
        .ok { s with enabled := order.filter (fun n => decide (n ∈ s.enabled ++ [X])) } := by
  cases hres : resolveDependencyGraph s.list with
  | ok order =>
    rw [enableGate_registered hres hg, if_pos he]
  | error err =>
    unfold enableGate
    have hen1 : isEnabled s (some X) = false := by
      simpa [isEnabled, getAllEnabled] using he.1
    rw [checkDependencies_not_enabled hg hen1]
    simp only [hen1, Bool.false_eq_true, if_false]
    rw [(dependencyStatus_iff hg).2 he.2.1]
    simp only
    rw [checkConflicts_registered hg, (conflictStatus_iff hg).2 he.2.2]
    simp only [reorderEnabledExtensions, hres]

/-- What a returning `enable(X, false)` has done. -/
theorem enable_false_returns {s s1 : State} {X : String}
    (h : enable s (some X) false = .ok s1) :
    Registered s.list X ∧
    ((¬ Enablable s X ∧ s1 = s) ∨
      (Enablable s X ∧ ∃ order, resolveDependencyGraph s.list = .ok order ∧
        s1 = { s with enabled := order.filter (fun n => decide (n ∈ s.enabled ++ [X])) })) := by
  cases hg : getExtension s.list (some X) with
  | none =>
    unfold enable at h
    rw [hg] at h
    cases h
  | some e =>
    refine ⟨getExtension_ne_none_iff.1 (by rw [hg]; simp), ?_⟩
    rw [enable_eq hg] at h
    by_cases he : Enablable s X
    · right
      rw [enableGate_enablable hg he] at h
      cases hres : resolveDependencyGraph s.list with
      | error err => rw [hres] at h; cases h
      | ok order =>
        rw [hres] at h
        simp only [Bool.false_eq_true, if_false, Except.ok.injEq] at h
        exact ⟨he, order, rfl, h.symm⟩
    · left
      rw [enableGate_not_enablable hg he] at h
      simp only [Bool.false_eq_true, if_false, Except.ok.injEq] at h
      exact ⟨he, h.symm⟩

theorem disableEnd_of_ok {s s1 : State} {n : Option String} (h : disableEnd s n = .ok s1) :
    s1.list = s.list ∧ s1.enabled = s.enabled ∧ s1.init = s.init.erase n ∧
      s.log <+: s1.log := by
  unfold disableEnd at h
  by_cases hi : n ∈ s.init
  · rw [if_pos ((isInitialized_iff s n).2 hi)] at h
    cases hg : getExtension s.list n with
    | none =>
      unfold destroyExtension at h
      simp [(isInitialized_iff s n).2 hi, hg] at h
    | some e =>
      rw [destroyExtension_initialized hg hi] at h
      simp only [Except.ok.injEq] at h
      subst h
      exact ⟨rfl, rfl, rfl, List.prefix_append _ _⟩
  · have : ¬ isInitialized s n = true := fun h => hi ((isInitialized_iff s n).1 h)
    rw [if_neg this] at h
    simp only [Except.ok.injEq] at h
    subst h
    exact ⟨rfl, rfl, (List.erase_of_not_mem hi).symm, List.prefix_refl _⟩

/-- What a returning call of `disable` has done, without any assumption on the
state. -/
theorem disableFuel_returns {fuel : Nat} {s s1 : State} {n : Option String}
    (hlen : s.enabled.length < fuel) (h : disableFuel fuel s n = .ok s1) :
    s1.list = s.list ∧ s1.enabled ⊆ s.enabled ∧ List.Sublist s1.init s.init ∧
    (isEnabled s n = false → s1.enabled = s.enabled) ∧
    (isEnabled s n = true →
      ∃ order, resolveDependencyGraph s.list = .ok order ∧ List.Sublist s1.enabled order) := by
  cases fuel with
  | zero => omega
  | succ f =>
    by_cases he : isEnabled s n = true
    · obtain ⟨x, rfl, hx⟩ := isEnabled_true he
      cases hres : resolveDependencyGraph s.list with
      | error err =>
        rw [disableFuel_enabled_error f hx hres] at h
        cases h
      | ok order =>
        rw [disableFuel_enabled f hx hres] at h
        obtain ⟨s2, hs2, hinv, _⟩ := cascade_loop f (disableFuel_ok f) hres hlen rfl
          (length_filter_erase_lt (resolve_ok hres).1 hx)
        rw [hs2] at h
        obtain ⟨h1, h2, h3, _⟩ := disableEnd_of_ok h
        refine ⟨h1.trans hinv.list_eq, ?_, ?_, ?_, ?_⟩
        rotate_left 2
        · intro hf
          rw [he] at hf
          cases hf
        · intro _
          exact ⟨order, rfl, h2 ▸ hinv.enabled_sublist⟩
        · intro m hm
          rw [h2] at hm
          have := (List.mem_filter.1 (hinv.enabled_subset hm)).2
          exact List.mem_of_mem_erase (by simpa using this)
        · rw [h3]
          exact (List.erase_sublist _ _).trans hinv.init_sublist
    · have he1 : isEnabled s n = false := by simpa using he
      rw [disableFuel_not_enabled f he1] at h
      obtain ⟨h1, h2, h3, _⟩ := disableEnd_of_ok h
      refine ⟨h1, by rw [h2]; exact List.Subset.refl _, ?_, fun _ => h2, fun hf => absurd hf he⟩
      rw [h3]
      exact List.erase_sublist _ _

theorem disable_returns {s s1 : State} {n : Option String} (h : disable s n = .ok s1) :
    s1.list = s.list ∧ s1.enabled ⊆ s.enabled ∧ List.Sublist s1.init s.init ∧
    (isEnabled s n = false → s1.enabled = s.enabled) ∧
    (isEnabled s n = true →
      ∃ order, resolveDependencyGraph s.list = .ok order ∧ List.Sublist s1.enabled order) :=
  disableFuel_returns (Nat.lt_succ_self _) h

/-- `checkDependencies` on an enabled name whose dependency status is false is
a call of `disable`. -/
theorem checkDependencies_enabled {s : State} {X : String} {e : Extension} {ds : List String}
    (hg : getExtension s.list (some X) = some e) (hds : e.dependencies = some ds)
    (hmiss : ∃ d ∈ ds, d ∉ s.enabled) (hx : X ∈ s.enabled) :
    checkDependencies s (some X) =
      match disable s (some X) with
      | .ok s1 => .ok (false, s1)
      | .error err => .error err := by
  unfold checkDependencies checkDependenciesWith disable
  rw [hg]
  simp only [hds]
  have he : isEnabled s (some X) = true := by simpa [isEnabled, getAllEnabled] using hx
  have hst : ds.all (fun dependency => isEnabled s (some dependency)) = false := by
    obtain ⟨d, hd, hd1⟩ := hmiss
    rw [Bool.eq_false_iff]
    intro hall
    rw [List.all_eq_true] at hall
    exact hd1 (by simpa [isEnabled, getAllEnabled] using hall d hd)
  rw [if_pos ⟨hst, he⟩]

/-- What `checkDependencies(X)` does for a registered `X` with descriptor `e`:
it returns true and changes nothing when `e` has no `dependencies` field or
every declared dependency is enabled; it returns false and changes nothing when
some declared dependency is not enabled and `X` is not enabled. When some
declared dependency is not enabled and `X` is enabled, it calls `disable(X)`: if
the registry resolves it returns false, `X` is no longer enabled and the enabled
list has only shrunk; if the registry does not resolve it raises the resolution
error and changes nothing. -/
theorem checkDependencies_spec (s : State) (X : String) (e : Extension)
    (hg : getExtension s.list (some X) = some e) :
    (e.dependencies = none → checkDependencies s (some X) = .ok (true, s)) ∧
    (∀ ds, e.dependencies = some ds →
      ((∀ d ∈ ds, d ∈ s.enabled) → checkDependencies s (some X) = .ok (true, s)) ∧
      ((∃ d ∈ ds, d ∉ s.enabled) → X ∉ s.enabled →
        checkDependencies s (some X) = .ok (false, s)) ∧
      ((∃ d ∈ ds, d ∉ s.enabled) → X ∈ s.enabled →
        ∀ order, resolveDependencyGraph s.list = .ok order →
          ∃ s1, checkDependencies s (some X) = .ok (false, s1) ∧ X ∉ s1.enabled ∧
            s1.enabled ⊆ s.enabled ∧ s1.list = s.list) ∧
      ((∃ d ∈ ds, d ∉ s.enabled) → X ∈ s.enabled →
        ∀ err, resolveDependencyGraph s.list = .error err →
          checkDependencies s (some X) = .error (err, s))) := by
  refine ⟨?_, ?_⟩
  · intro hnone
    unfold checkDependencies checkDependenciesWith
    rw [hg]
    simp only [hnone]
  · intro ds hds
    refine ⟨?_, ?_, ?_, ?_⟩
    · intro hall
      unfold checkDependencies checkDependenciesWith
      rw [hg]
      simp only [hds]
      have hst : ds.all (fun dependency => isEnabled s (some dependency)) = true := by
        rw [List.all_eq_true]
        intro d hd
        simpa [isEnabled, getAllEnabled] using hall d hd
      rw [hst]
      simp
    · intro hmiss hx
      have hen : isEnabled s (some X) = false := by simpa [isEnabled, getAllEnabled] using hx
      rw [checkDependencies_not_enabled hg hen]
      have : dependencyStatus s e = false := by
        rw [Bool.eq_false_iff]
        intro h
        obtain ⟨d, hd, hd1⟩ := hmiss
        have := (dependencyStatus_iff hg).1 h d
        rw [dependenciesOf, hg] at this
        simp only [hds, Option.getD_some] at this
        exact hd1 (this hd)
      rw [this]
    · intro hmiss hx order hres
      rw [checkDependencies_enabled hg hds hmiss hx]
      obtain ⟨s1, hs1, hpost⟩ := disable_ok (n := some X) hres (fun _ => by rw [hg]; simp)
      rw [hs1]
      have he : isEnabled s (some X) = true := by simpa [isEnabled, getAllEnabled] using hx
      refine ⟨s1, rfl, ?_, hpost.enabled_subset, hpost.list_eq⟩
      intro hx1
      obtain ⟨d, hd, hd1⟩ := hmiss
      have hdecl : Declares s.list X d := by
        unfold Declares dependenciesOf
        rw [hg]
        simpa [hds] using hd
      exact hd1 (hpost.enabled_subset (hpost.closed he X hx1 d hdecl))
    · intro hmiss hx err hres
      rw [checkDependencies_enabled hg hds hmiss hx]
      unfold disable
      rw [disableFuel_enabled_error _ hx hres]

/-- An example of the forced disable: `checkDependencies('X')` where the enabled
`X` depends on the registered `D`, which is not enabled, returns false and `X`
is disabled. -/
theorem checkDependencies_spec_example :
    getExtension healState.list (some "X") = some (mkExtension "X" (some ["D"])) ∧
      ∃ s1, checkDependencies healState (some "X") = .ok (false, s1) ∧ "X" ∉ s1.enabled ∧
        s1.enabled ⊆ healState.enabled ∧ s1.list = healState.list :=
  ⟨by decide,
    ((checkDependencies_spec healState "X" (mkExtension "X" (some ["D"])) (by decide)).2
      ["D"] rfl).2.2.1 (by decide) (by decide) ["D", "X"] (by decide)⟩

/-- What the guarded block of `enable` has done when it returns, for any name
for which a descriptor is found. -/
theorem enableGate_returns {s s1 : State} {n : Option String} {e : Extension}
    (hg : getExtension s.list n = some e) (h : enableGate s n n = .ok s1) :
    s1 = s ∨ (isEnabled s n = false ∧ dependencyStatus s e = true ∧ conflictStatus s e = true ∧
      ∃ order, resolveDependencyGraph s.list = .ok order ∧
        s1 = { s with enabled :=
          order.filter (fun k => decide (some k ∈ s.enabled.map some ++ [n])) }) := by
  unfold enableGate at h
  by_cases hen : isEnabled s n = true
  · rw [if_pos hen] at h
    simp only [Except.ok.injEq] at h
    exact Or.inl h.symm
  · have hen1 : isEnabled s n = false := by simpa using hen
    rw [if_neg hen, checkDependencies_not_enabled hg hen1] at h
    cases hd : dependencyStatus s e with
    | false =>
      rw [hd] at h
      simp only [Except.ok.injEq] at h
      exact Or.inl h.symm
    | true =>
      rw [hd] at h
      simp only at h
      rw [checkConflicts_registered hg] at h
      cases hc : conflictStatus s e with
      | false =>
        rw [hc] at h
        simp only [Except.ok.injEq] at h
        exact Or.inl h.symm
      | true =>
        rw [hc] at h
        simp only [reorderEnabledExtensions, getAllEnabled] at h
        cases hres : resolveDependencyGraph s.list with
        | error err => rw [hres] at h; cases h
        | ok order =>
          rw [hres] at h
          simp only [Except.ok.injEq] at h
          exact Or.inr ⟨hen1, rfl, rfl, order, rfl, h.symm⟩

/-- What a returning call of `enable` has done, for any name and flag. -/
theorem enable_returns {s s1 : State} {n : Option String} {i : Bool}
    (h : enable s n i = .ok s1) :
    ∃ e s2, getExtension s.list n = some e ∧
      (s2 = s ∨ (isEnabled s n = false ∧ conflictStatus s e = true ∧
        ∃ order, resolveDependencyGraph s.list = .ok order ∧
          s2 = { s with enabled :=
            order.filter (fun k => decide (some k ∈ s.enabled.map some ++ [n])) })) ∧
      s1 = (if i = true then (if n ∈ s.init then s2 else { s2 with init := s.init ++ [n] })
        else s2) := by
  unfold enable at h
  cases hg : getExtension s.list n with
  | none => rw [hg] at h; cases h
  | some e =>
    rw [hg] at h
    simp only [(getExtension_some hg).2] at h
    cases hgate : enableGate s n n with
    | error err => rw [hgate] at h; cases h
    | ok s2 =>
      rw [hgate] at h
      simp only at h
      have hfr := enableGate_frame s n n
      rw [hgate] at hfr
      simp only [endState] at hfr
      refine ⟨e, s2, rfl, ?_, ?_⟩
      · rcases enableGate_returns hg hgate with h1 | ⟨h1, _, h3, h4⟩
        · exact Or.inl h1
        · exact Or.inr ⟨h1, h3, h4⟩
      · cases i with
        | false =>
          simp only [Bool.false_eq_true, if_false, Except.ok.injEq] at h
          simp [h]
        | true =>
          simp only [if_true] at h ⊢
          by_cases hi : n ∈ s.init
          · rw [initializeExtension_initialized (by rw [hfr.2.1]; exact hi)] at h
            simp only [Except.ok.injEq] at h
            rw [if_pos hi, h]
          · rw [initializeExtension_fresh (e := e) (by rw [hfr.1]; exact hg)
              (by rw [hfr.2.1]; exact hi)] at h
            simp only [Except.ok.injEq] at h
            rw [if_neg hi, ← h, hfr.2.1]

theorem getExtension_append_registered {l : List Extension} {d : Extension} {k : String}
    (hk : Registered l k) : getExtension (l ++ [d]) (some k) = getExtension l (some k) := by
  obtain ⟨e, hg, _, _⟩ := getExtension_of_registered hk
  rw [getExtension_eq_find] at hg
  rw [getExtension_eq_find, getExtension_eq_find, List.find?_append, hg]
  rfl

/-- The push and reorder of `add` change neither the enabled list nor `_init`,
and every name that was registered keeps its descriptor. -/
theorem pushed_frame (s : State) (d : Extension) :
    (pushed s d).enabled = s.enabled ∧ (pushed s d).init = s.init ∧
    (pushed s d).log = s.log ∧
    ∀ k, Registered s.list k →
      getExtension (pushed s d).list (some k) = getExtension s.list (some k) := by
  unfold pushed
  cases hres : resolveDependencyGraph (s.list ++ [d]) with
  | error err =>
    rw [reorderExtensions_error (s := { s with list := s.list ++ [d] }) hres]
    exact ⟨rfl, rfl, rfl, fun k hk => getExtension_append_registered hk⟩
  | ok order =>
    obtain ⟨s1, hs1, _, h2, h3, h4, h5⟩ :=
      reorderExtensions_ok (s := { s with list := s.list ++ [d] }) hres
    rw [hs1]
    refine ⟨h2, h3, h4, fun k hk => ?_⟩
    have hk1 : Registered (s.list ++ [d]) k := by
      obtain ⟨e, he, hn⟩ := hk
      exact ⟨e, List.mem_append_left _ he, hn⟩
    rw [h5 k hk1]
    exact getExtension_append_registered hk

/-- What a returning call of `add` has done. -/
theorem add_returns {s s1 : State} {d : Extension} {enableAfter initAfter : Bool}
    (h : add s d enableAfter initAfter = .ok s1) :
    (getExtension s.list d.name ≠ none ∧ s1 = s) ∨
    (getExtension s.list d.name = none ∧
      ((enableAfter = false ∧ s1 = pushed s d) ∨
        (enableAfter = true ∧ enable (pushed s d) d.name initAfter = .ok s1))) := by
  by_cases hg : getExtension s.list d.name = none
  · right
    rw [add_fresh hg] at h
    cases enableAfter with
    | false =>
      simp only [Bool.false_eq_true, if_false, Except.ok.injEq] at h
      exact ⟨hg, Or.inl ⟨rfl, h.symm⟩⟩
    | true =>
      simp only [if_true] at h
      exact ⟨hg, Or.inr ⟨rfl, h⟩⟩
  · left
    rw [add_registered hg] at h
    simp only [Except.ok.injEq] at h
    exact ⟨hg, h.symm⟩

/-- A returning `disable` does not lengthen the enabled list, and the disabled
name is not in it any more when it was there at most once. -/
theorem disableFuel_shrinks {fuel : Nat} {s s1 : State} {n : Option String}
    (hlen : s.enabled.length < fuel) (h : disableFuel fuel s n = .ok s1) :
    s1.enabled.length ≤ s.enabled.length ∧
    (s.enabled.Nodup → s1.enabled.Nodup) ∧
    ∀ x, n = some x → s.enabled.count x ≤ 1 → x ∉ s1.enabled := by
  cases fuel with
  | zero => omega
  | succ f =>
    by_cases he : isEnabled s n = true
    · obtain ⟨x, rfl, hx⟩ := isEnabled_true he
      cases hres : resolveDependencyGraph s.list with
      | error err =>
        rw [disableFuel_enabled_error f hx hres] at h
        cases h
      | ok order =>
        rw [disableFuel_enabled f hx hres] at h
        have hlt := length_filter_erase_lt (resolve_ok hres).1 hx
        obtain ⟨s2, hs2, hinv, _⟩ := cascade_loop f (disableFuel_ok f) hres hlen rfl hlt
        rw [hs2] at h
        obtain ⟨_, h2, _, _⟩ := disableEnd_of_ok h
        rw [h2]
        refine ⟨?_, ?_, ?_⟩
        · have := hinv.enabled_length
          omega
        · intro _
          exact hinv.enabled_sublist.nodup (resolve_ok hres).1
        · intro y hy hc hy1
          cases hy
          have := (List.mem_filter.1 (hinv.enabled_subset hy1)).2
          exact not_mem_erase_of_count_le_one hc (by simpa using this)
    · have he1 : isEnabled s n = false := by simpa using he
      rw [disableFuel_not_enabled f he1] at h
      obtain ⟨_, h2, _, _⟩ := disableEnd_of_ok h
      rw [h2]
      refine ⟨le_refl _, id, ?_⟩
      intro y hy _
      subst hy
      simpa [isEnabled, getAllEnabled] using he1

theorem conflictsOf_congr {l l1 : List Extension} {k : String}
    (h : getExtension l1 (some k) = getExtension l (some k)) :
    conflictsOf l1 k = conflictsOf l k := by
  unfold conflictsOf
  rw [h]

theorem mem_enabled_filter {order E : List String} {n : Option String} {k : String}
    (h : k ∈ order.filter (fun k => decide (some k ∈ E.map some ++ [n]))) :
    k ∈ order ∧ (k ∈ E ∨ n = some k) := by
  obtain ⟨h1, h2⟩ := List.mem_filter.1 h
  refine ⟨h1, ?_⟩
  simp only [decide_eq_true_eq, List.mem_append, List.mem_map, List.mem_singleton] at h2
  rcases h2 with ⟨a, ha, hak⟩ | h2
  · cases hak
    exact Or.inl ha
  · exact Or.inr h2.symm

/-- The invariant of the gate of `enable`: enabled names are registered, and no
two distinct enabled extensions declare each other as a conflict. -/
theorem gateReachable_inv {s : State} (h : GateReachable s) :
    (∀ k ∈ s.enabled, Registered s.list k) ∧
    ∀ A B, A ∈ s.enabled → B ∈ s.enabled → A ≠ B →
      B ∈ conflictsOf s.list A → A ∉ conflictsOf s.list B := by
  induction h with
  | start s h0 =>
    rw [h0]
    exact ⟨fun k hk => absurd hk (List.not_mem_nil k), fun A _ hA => absurd hA (List.not_mem_nil A)⟩
  | @byAdd s s1 d _ hadd ih =>
    rcases add_returns hadd with ⟨_, rfl⟩ | ⟨_, ⟨_, rfl⟩ | ⟨hf, _⟩⟩
    · exact ih
    · obtain ⟨he, _, _, hget⟩ := pushed_frame s d
      have hreg : ∀ k ∈ s.enabled, Registered (pushed s d).list k := by
        intro k hk
        rw [← getExtension_ne_none_iff, hget k (ih.1 k hk)]
        exact getExtension_ne_none_iff.2 (ih.1 k hk)
      rw [he]
      refine ⟨hreg, ?_⟩
      intro A B hA hB hne
      rw [conflictsOf_congr (hget A (ih.1 A hA)), conflictsOf_congr (hget B (ih.1 B hB))]
      exact ih.2 A B hA hB hne
    · cases hf
  | @byEnable s s1 n _ hen ih =>
    obtain ⟨e, s2, hg, hs2, hs1⟩ := enable_returns hen
    simp only [Bool.false_eq_true, if_false] at hs1
    subst hs1
    rcases hs2 with rfl | ⟨hne, hc, order, hres, rfl⟩
    · exact ih
    · have hnew : ∀ X, n = some X → X ∉ s.enabled ∧ ∀ c ∈ conflictsOf s.list X, c ∉ s.enabled := by
        intro X hX
        subst hX
        exact ⟨by simpa [isEnabled, getAllEnabled] using hne, (conflictStatus_iff hg).1 hc⟩
      refine ⟨?_, ?_⟩
      · intro k hk
        exact ((resolve_ok hres).2.1 k).1 (mem_enabled_filter hk).1
      · intro A B hA hB hAB hconf
        simp only at hA hB hconf ⊢
        rcases (mem_enabled_filter hA).2 with hA1 | hA1 <;>
          rcases (mem_enabled_filter hB).2 with hB1 | hB1
        · exact ih.2 A B hA1 hB1 hAB hconf
        · exact fun hc1 => (hnew B hB1).2 A hc1 hA1
        · exact absurd hB1 ((hnew A hA1).2 B hconf)
        · rw [hA1] at hB1
          cases hB1
          exact absurd rfl hAB
  | @byDisable s s1 n _ hdis ih =>
    obtain ⟨hl, hsub, _, _, _⟩ := disable_returns hdis
    rw [hl]
    exact ⟨fun k hk => ih.1 k (hsub hk),
      fun A B hA hB => ih.2 A B (hsub hA) (hsub hB)⟩

/-- A returning step of the loop of `disable` either changes nothing or is a
call of `disable` on the name at hand. -/
theorem recheck_returns {f : Nat} {m : String} {a a1 : State} (h : recheck f m a = .ok a1) :
    a1 = a ∨ disableFuel f a (some m) = .ok a1 := by
  unfold recheck checkDependenciesWith at h
  cases hg : getExtension a.list (some m) with
  | none => rw [hg] at h; cases h
  | some e =>
    rw [hg] at h
    rcases e with ⟨nm, deps, confs, cr, de⟩
    cases deps with
    | none =>
      simp only [Except.ok.injEq] at h
      exact Or.inl h.symm
    | some ds =>
      simp only at h
      by_cases hcond : (ds.all (fun dependency => isEnabled a (some dependency))) = false ∧
          isEnabled a (some m) = true
      · rw [if_pos hcond] at h
        cases hd : disableFuel f a (some m) with
        | error err => rw [hd] at h; cases h
        | ok a2 =>
          rw [hd] at h
          simp only [Except.ok.injEq] at h
          exact Or.inr (by rw [← h])
      · rw [if_neg hcond] at h
        simp only [Except.ok.injEq] at h
        exact Or.inl h.symm

/-- A returning `disable` keeps the coupling of `_init` with the enabled list:
every name that leaves the enabled list is destroyed. -/
theorem disableFuel_coupled : ∀ (fuel : Nat) (s s1 : State) (n : Option String)
    (D : Option String → Prop), s.enabled.length < fuel →
    (∀ k ∈ s.enabled, Registered s.list k) → s.init.Nodup → Coupled D s →
    disableFuel fuel s n = .ok s1 → Coupled D s1 := by
  intro fuel
  induction fuel with
  | zero => intro s s1 n D h; omega
  | succ f ih =>
    intro s s1 n D hlen hreg hnd hc h
    have hend : ∀ s2 : State, s2.init.Nodup → Coupled (fun m => m = n ∨ D m) s2 →
        disableEnd s2 n = .ok s1 → Coupled D s1 := by
      intro s2 hnd2 hc2 h2
      obtain ⟨_, he, hi, _⟩ := disableEnd_of_ok h2
      intro m hm
      rw [hi] at hm
      rcases hc2 m (List.mem_of_mem_erase hm) with (rfl | hD) | ⟨k, hk, hk1⟩
      · exact absurd hm hnd2.not_mem_erase
      · exact Or.inl hD
      · exact Or.inr ⟨k, hk, he ▸ hk1⟩
    by_cases he : isEnabled s n = true
    · obtain ⟨x, rfl, hx⟩ := isEnabled_true he
      cases hres : resolveDependencyGraph s.list with
      | error err =>
        rw [disableFuel_enabled_error f hx hres] at h
        cases h
      | ok order =>
        rw [disableFuel_enabled f hx hres] at h
        have hlt := length_filter_erase_lt (resolve_ok hres).1 hx
        have hloop : ∀ (xs : List String) (a a1 : State),
            a.enabled.length < f → (∀ k ∈ a.enabled, Registered a.list k) → a.init.Nodup →
            Coupled (fun m => m = some x ∨ D m) a →
            forEach (recheck f) xs a = .ok a1 →
            a1.init.Nodup ∧ Coupled (fun m => m = some x ∨ D m) a1 := by
          intro xs
          induction xs with
          | nil =>
            intro a a1 _ _ h3 h4 h5
            simp only [forEach, Except.ok.injEq] at h5
            subst h5
            exact ⟨h3, h4⟩
          | cons y ys ihl =>
            intro a a1 h1 h2 h3 h4 h5
            rw [forEach] at h5
            cases hy : recheck f y a with
            | error err => rw [hy] at h5; cases h5
            | ok a2 =>
              rw [hy] at h5
              simp only at h5
              rcases recheck_returns hy with rfl | hd
              · exact ihl _ _ h1 h2 h3 h4 h5
              · obtain ⟨hl, hsub, hini, _, _⟩ := disableFuel_returns h1 hd
                have hle := (disableFuel_shrinks h1 hd).1
                refine ihl _ _ (by omega) ?_ (hini.nodup h3) (ih _ _ _ _ h1 h2 h3 h4 hd) h5
                intro k hk
                rw [hl]
                exact h2 k (hsub hk)
        cases hf : forEach (recheck f)
            (order.filter (fun e => decide (e ∈ s.enabled.erase x)))
            { s with enabled := order.filter (fun e => decide (e ∈ s.enabled.erase x)) } with
        | error err => rw [hf] at h; cases h
        | ok s2 =>
          rw [hf] at h
          simp only at h
          have hstart : Coupled (fun m => m = some x ∨ D m)
              { s with enabled := order.filter (fun e => decide (e ∈ s.enabled.erase x)) } := by
            intro m hm
            rcases hc m hm with hD | ⟨k, rfl, hk1⟩
            · exact Or.inl (Or.inr hD)
            · by_cases hkx : k = x
              · exact Or.inl (Or.inl (by rw [hkx]))
              · refine Or.inr ⟨k, rfl, List.mem_filter.2 ⟨?_, ?_⟩⟩
                · exact ((resolve_ok hres).2.1 k).2 (hreg k hk1)
                · simpa using (List.mem_erase_of_ne hkx).2 hk1
          obtain ⟨hnd2, hc2⟩ := hloop _
            { s with enabled := order.filter (fun e => decide (e ∈ s.enabled.erase x)) } s2
            (by simp only; omega)
            (fun k hk => ((resolve_ok hres).2.1 k).1 (List.mem_filter.1 hk).1) hnd hstart hf
          exact hend s2 hnd2 hc2 h
    · have he1 : isEnabled s n = false := by simpa using he
      rw [disableFuel_not_enabled f he1] at h
      exact hend s hnd (fun m hm => (hc m hm).imp (fun hD => Or.inr hD) id) h

theorem disable_consistent {s s1 : State} {n : Option String} (hc : Consistent s)
    (h : disable s n = .ok s1) : Consistent s1 := by
  obtain ⟨hl, hsub, hini, _, _⟩ := disable_returns h
  have h1 : disableFuel (s.enabled.length + 1) s n = .ok s1 := h
  have hcp := disableFuel_coupled _ s s1 n (fun _ => False) (Nat.lt_succ_self _)
    hc.enabled_registered hc.init_nodup (fun m hm => Or.inr (hc.init_enabled m hm)) h1
  refine ⟨fun m hm => (hcp m hm).resolve_left id, ?_, hini.nodup hc.init_nodup,
    (disableFuel_shrinks (Nat.lt_succ_self _) h1).2.1 hc.enabled_nodup⟩
  intro k hk
  rw [hl]
  exact hc.enabled_registered k (hsub hk)

theorem enable_consistent {s s1 : State} {n : Option String} {i : Bool} (hc : Consistent s)
    (h : enable s n i = .ok s1) (hside : i = true → isEnabled s1 n = true) :
    Consistent s1 := by
  obtain ⟨e, s2, hg, hs2, hs1⟩ := enable_returns h
  have hc2 : Consistent s2 ∧ s2.init = s.init := by
    rcases hs2 with rfl | ⟨_, _, order, hres, rfl⟩
    · exact ⟨hc, rfl⟩
    · refine ⟨⟨?_, ?_, hc.init_nodup, (resolve_ok hres).1.filter _⟩, rfl⟩
      · intro m hm
        obtain ⟨k, hk, hk1⟩ := hc.init_enabled m hm
        refine ⟨k, hk, List.mem_filter.2 ⟨?_, ?_⟩⟩
        · exact ((resolve_ok hres).2.1 k).2 (hc.enabled_registered k hk1)
        · simp only [decide_eq_true_eq, List.mem_append, List.mem_map]
          exact Or.inl ⟨k, hk1, rfl⟩
      · intro k hk
        exact ((resolve_ok hres).2.1 k).1 (List.mem_filter.1 hk).1
  obtain ⟨hc2, hi2⟩ := hc2
  cases i with
  | false =>
    simp only [Bool.false_eq_true, if_false] at hs1
    rw [hs1]
    exact hc2
  | true =>
    simp only [if_true] at hs1
    by_cases hi : n ∈ s.init
    · rw [if_pos hi] at hs1
      rw [hs1]
      exact hc2
    · rw [if_neg hi] at hs1
      have hen := hside rfl
      obtain ⟨x, rfl, hx⟩ := isEnabled_true hen
      rw [hs1] at hx ⊢
      refine ⟨?_, hc2.enabled_registered, ?_, hc2.enabled_nodup⟩
      · intro m hm
        rcases List.mem_append.1 hm with hm1 | hm1
        · exact hc2.init_enabled m (hi2 ▸ hm1)
        · rw [List.mem_singleton] at hm1
          exact ⟨x, hm1, hx⟩
      · show (s.init ++ [some x]).Nodup
        rw [List.nodup_append]
        refine ⟨hc.init_nodup, List.nodup_singleton _, ?_⟩
        intro a ha hb
        rw [List.mem_singleton] at hb
        exact hi (hb ▸ ha)

theorem pushed_consistent {s : State} (d : Extension) (hc : Consistent s) :
    Consistent (pushed s d) := by
  obtain ⟨he, hi, _, hget⟩ := pushed_frame s d
  refine ⟨?_, ?_, by rw [hi]; exact hc.init_nodup, by rw [he]; exact hc.enabled_nodup⟩
  · rw [hi, he]
    exact hc.init_enabled
  · rw [he]
    intro k hk
    rw [← getExtension_ne_none_iff, hget k (hc.enabled_registered k hk)]
    exact getExtension_ne_none_iff.2 (hc.enabled_registered k hk)

theorem add_consistent {s s1 : State} {d : Extension} {enableAfter initAfter : Bool}
    (hc : Consistent s) (h : add s d enableAfter initAfter = .ok s1)
    (hside : enableAfter = true → initAfter = true → getExtension s.list d.name = none →
      isEnabled s1 d.name = true) : Consistent s1 := by
  rcases add_returns h with ⟨_, rfl⟩ | ⟨hg, ⟨_, rfl⟩ | ⟨hf, hen⟩⟩
  · exact hc
  · exact pushed_consistent d hc
  · exact enable_consistent (pushed_consistent d hc) hen (fun hi => hside hf hi hg)

theorem registered_erase_of_ne {l : List Extension} {e : Extension} {k : String}
    (hk : Registered l k) (hne : e.name ≠ some k) : Registered (l.erase e) k := by
  obtain ⟨e1, he1, hn1⟩ := hk
  refine ⟨e1, (List.mem_erase_of_ne ?_).2 he1, hn1⟩
  intro heq
  exact hne (heq ▸ hn1)

theorem remove_consistent {s s1 : State} {n : Option String} (hc : Consistent s)
    (hg : getExtension s.list n ≠ none) (h : remove s n = .ok s1) : Consistent s1 := by
  unfold remove at h
  cases hd : disable s n with
  | error err => rw [hd] at h; cases h
  | ok s2 =>
    rw [hd] at h
    simp only at h
    have hc2 := disable_consistent hc hd
    obtain ⟨hl, _, _, _, _⟩ := disable_returns hd
    have hd1 : disableFuel (s.enabled.length + 1) s n = .ok s2 := hd
    have hgone := (disableFuel_shrinks (Nat.lt_succ_self _) hd1).2.2
    cases hge : getExtension s.list n with
    | none => exact absurd hge hg
    | some e =>
      obtain ⟨hel, hen⟩ := getExtension_some hge
      rw [hge, hl, splice1_indexOf hel] at h
      cases hres : resolveDependencyGraph (s.list.erase e) with
      | error err =>
        rw [reorderExtensions_error (s := { s2 with list := s.list.erase e }) hres] at h
        cases h
      | ok order =>
        obtain ⟨s3, hs3, _, h2, h3, _, h5⟩ :=
          reorderExtensions_ok (s := { s2 with list := s.list.erase e }) hres
        rw [hs3] at h
        simp only [Except.ok.injEq] at h
        subst h
        refine ⟨by rw [h2, h3]; exact hc2.init_enabled, ?_, by rw [h3]; exact hc2.init_nodup,
          by rw [h2]; exact hc2.enabled_nodup⟩
        rw [h2]
        intro k hk
        have hk1 : Registered s.list k := hl ▸ hc2.enabled_registered k hk
        have hne : e.name ≠ some k := by
          intro heq
          exact hgone k (hen.symm.trans heq) (count_le_one_of_nodup hc.enabled_nodup k) hk
        have hk2 : Registered (s.list.erase e) k := registered_erase_of_ne hk1 hne
        rw [← getExtension_ne_none_iff, h5 k hk2]
        exact getExtension_ne_none_iff.2 hk2

theorem init_consistent {s s1 : State} (hc : Consistent s) (h : init s = .ok s1) :
    Consistent s1 := by
  obtain ⟨fresh, hf, hnd, _, hmem, _⟩ := init_loop s.list s.enabled s rfl hc.enabled_registered
  unfold init getAllEnabled at h
  rw [hf] at h
  simp only [Except.ok.injEq] at h
  subst h
  refine ⟨?_, hc.enabled_registered, ?_, hc.enabled_nodup⟩
  · intro m hm
    rcases List.mem_append.1 hm with hm1 | hm1
    · exact hc.init_enabled m hm1
    · obtain ⟨k, hk, rfl⟩ := List.mem_map.1 ((hmem m).1 hm1).1
      exact ⟨k, rfl, hk⟩
  · show (s.init ++ fresh).Nodup
    rw [List.nodup_append]
    exact ⟨hc.init_nodup, hnd, fun a ha hb => ((hmem a).1 hb).2 ha⟩

/-- Every state reached through the module, with the force-initializing calls
and the `remove` of unregistered names left out, is consistent. -/
theorem coupledReachable_consistent {s : State} (h : CoupledReachable s) : Consistent s := by
  induction h with
  | start s h1 h2 h3 =>
    refine ⟨?_, ?_, by rw [h2]; exact List.nodup_nil, by rw [h3]; exact List.nodup_nil⟩
    · rw [h2]
      exact fun m hm => absurd hm (List.not_mem_nil m)
    · rw [h3]
      exact fun k hk => absurd hk (List.not_mem_nil k)
  | byAdd d enableAfter initAfter _ hadd hside ih => exact add_consistent ih hadd hside
  | byRemove n _ hg hrem ih => exact remove_consistent ih hg hrem
  | byEnable n initAfter _ hen hside ih => exact enable_consistent ih hen hside
  | byDisable n _ hdis ih => exact disable_consistent ih hdis
  | byInit _ hinit ih => exact init_consistent ih hinit

theorem forEach_fixed {α σ ε : Type} {f : α → σ → Except ε σ} {a : σ} :
    ∀ (xs : List α), (∀ x ∈ xs, f x a = .ok a) → forEach f xs a = .ok a := by
  intro xs
  induction xs with
  | nil => intro _; rfl
  | cons x xs ih =>
    intro h
    rw [forEach, h x (List.mem_cons_self _ _)]
    exact ih (fun y hy => h y (List.mem_cons_of_mem _ hy))

/-- A step of the loop of `disable` on a registered name whose declared
dependencies are all enabled changes nothing. -/
theorem recheck_closed (f : Nat) {m : String} {a : State} (hm : Registered a.list m)
    (hd : ∀ d ∈ dependenciesOf a.list m, d ∈ a.enabled) : recheck f m a = .ok a := by
  obtain ⟨e, hg, _, _⟩ := getExtension_of_registered hm
  have hst := (dependencyStatus_iff hg).2 hd
  unfold recheck checkDependenciesWith
  rw [hg]
  unfold dependencyStatus at hst
  rcases e with ⟨nm, deps, confs, cr, de⟩
  cases deps with
  | none => rfl
  | some ds =>
    simp only at hst ⊢
    rw [hst]
    simp

theorem dependenciesOf_congr {l l1 : List Extension} {k : String}
    (h : getExtension l1 (some k) = getExtension l (some k)) :
    dependenciesOf l1 k = dependenciesOf l k := by
  unfold dependenciesOf
  rw [h]

theorem dep_of_dependenciesOf {l : List Extension} {n d : String}
    (h : d ∈ dependenciesOf l n) : Dep l n d := by
  unfold dependenciesOf at h
  cases hg : getExtension l (some n) with
  | none => rw [hg] at h; simp at h
  | some e =>
    rw [hg] at h
    simp only at h
    obtain ⟨hel, hn⟩ := getExtension_some hg
    cases hd : e.dependencies with
    | none => rw [hd] at h; simp at h
    | some ds =>
      rw [hd] at h
      exact ⟨e, hel, hn, ds, hd, by simpa using h⟩

/-- In a sublist of a duplicate-free list, two elements stand in the order in
which they stand in the list. -/
theorem indexOf_lt_of_sublist {α : Type} [DecidableEq α] {xs ys : List α}
    (h : List.Sublist xs ys) : ys.Nodup → ∀ {a b : α}, a ∈ xs → b ∈ xs →
    ys.indexOf a < ys.indexOf b → xs.indexOf a < xs.indexOf b := by
  induction h with
  | slnil => intro _ a b ha; exact absurd ha (List.not_mem_nil a)
  | @cons xs ys x hsub ih =>
    intro hnd a b ha hb hlt
    rw [List.nodup_cons] at hnd
    have hax : a ≠ x := fun h => hnd.1 (h ▸ hsub.subset ha)
    have hbx : b ≠ x := fun h => hnd.1 (h ▸ hsub.subset hb)
    rw [List.indexOf_cons_ne _ (Ne.symm hax), List.indexOf_cons_ne _ (Ne.symm hbx)] at hlt
    exact ih hnd.2 ha hb (by omega)
  | @cons₂ xs ys x hsub ih =>
    intro hnd a b ha hb hlt
    rw [List.nodup_cons] at hnd
    by_cases hax : a = x
    · subst hax
      by_cases hba : b = a
      · subst hba
        omega
      · rw [List.indexOf_cons_self, List.indexOf_cons_ne _ (Ne.symm hba)]
        omega
    · have hbx : b ≠ x := by
        intro h
        subst h
        rw [List.indexOf_cons_self] at hlt
        omega
      rw [List.indexOf_cons_ne _ (Ne.symm hax), List.indexOf_cons_ne _ (Ne.symm hbx)] at hlt ⊢
      have := ih hnd.2 ((List.mem_cons.1 ha).resolve_left hax)
        ((List.mem_cons.1 hb).resolve_left hbx) (by omega)
      omega

/-- After a returning `disable` of an enabled name the enabled list is
dependency-closed. -/
theorem disable_returns_closed {s s1 : State} {n : Option String}
    (he : isEnabled s n = true) (h : disable s n = .ok s1) :
    DepClosed s.list s1.enabled := by
  unfold disable at h
  obtain ⟨x, rfl, hx⟩ := isEnabled_true he
  cases hres : resolveDependencyGraph s.list with
  | error err =>
    rw [disableFuel_enabled_error _ hx hres] at h
    cases h
  | ok order =>
    rw [disableFuel_enabled _ hx hres] at h
    obtain ⟨s2, hs2, _, hcl⟩ := cascade_loop _ (disableFuel_ok _) hres (Nat.lt_succ_self _) rfl
      (length_filter_erase_lt (resolve_ok hres).1 hx)
    rw [hs2] at h
    obtain ⟨_, h2, _, _⟩ := disableEnd_of_ok h
    rw [h2]
    exact hcl

/-- What a returning `enable(n, false)` has done, with the gates it passed. -/
theorem enable_false_returns_any {s s1 : State} {n : Option String}
    (h : enable s n false = .ok s1) :
    s1 = s ∨ ∃ e order, getExtension s.list n = some e ∧ isEnabled s n = false ∧
      dependencyStatus s e = true ∧ resolveDependencyGraph s.list = .ok order ∧
      s1 = { s with enabled :=
        order.filter (fun k => decide (some k ∈ s.enabled.map some ++ [n])) } := by
  unfold enable at h
  cases hg : getExtension s.list n with
  | none => rw [hg] at h; cases h
  | some e =>
    rw [hg] at h
    simp only [(getExtension_some hg).2] at h
    cases hgate : enableGate s n n with
    | error err => rw [hgate] at h; cases h
    | ok s2 =>
      rw [hgate] at h
      simp only [Bool.false_eq_true, if_false, Except.ok.injEq] at h
      subst h
      rcases enableGate_returns hg hgate with h1 | ⟨h1, h2, _, order, h4, h5⟩
      · exact Or.inl h1
      · exact Or.inr ⟨e, order, rfl, h1, h2, h4, h5⟩

/-- The invariant of the enabled list holds for a sublist of a topological
resolved order that is dependency-closed. -/
theorem enabledInv_of_sublist {s : State} {order E : List String}
    (hres : resolveDependencyGraph s.list = .ok order) (hsound : DepsFirst s.list order)
    (hsub : List.Sublist E order) (hcl : ∀ m ∈ E, ∀ d ∈ dependenciesOf s.list m, d ∈ E) :
    EnabledInv { s with enabled := E } := by
  obtain ⟨hond, hom, _⟩ := resolve_ok hres
  refine ⟨hsub.nodup hond, fun n hn => (hom n).1 (hsub.subset hn), ?_⟩
  intro m hm d hd
  have hd1 : d ∈ E := hcl m hm d hd
  exact ⟨hd1, indexOf_lt_of_sublist hsub hond hd1 hm
    (hsound m (hsub.subset hm) d (dep_of_dependenciesOf hd)).2⟩

/-- The invariant of the enabled list is kept by `add(d, false, false)`, and,
when the registered names are pairwise distinct and no declared dependency is a
property name of `Object.prototype`, by every returning `enable(X, false)` and
`disable(X)`. -/
theorem enabledInv_preserved {s : State} (hinv : EnabledInv s) :
    (∀ d s1, add s d false false = .ok s1 → EnabledInv s1) ∧
    (UniqueNames s.list → (∀ x d, Dep s.list x d → d ∉ objectPrototypeKeys) →
      (∀ n s1, enable s n false = .ok s1 → EnabledInv s1) ∧
      (∀ n s1, disable s n = .ok s1 → EnabledInv s1)) := by
  obtain ⟨hnd, hreg, hdeps⟩ := hinv
  refine ⟨?_, ?_⟩
  · intro d s1 hadd
    rcases add_returns hadd with ⟨_, rfl⟩ | ⟨_, ⟨_, rfl⟩ | ⟨hf, _⟩⟩
    · exact ⟨hnd, hreg, hdeps⟩
    · obtain ⟨he, _, _, hget⟩ := pushed_frame s d
      unfold EnabledInv
      rw [he]
      refine ⟨hnd, ?_, ?_⟩
      · intro k hk
        rw [← getExtension_ne_none_iff, hget k (hreg k hk)]
        exact getExtension_ne_none_iff.2 (hreg k hk)
      · intro m hm
        rw [dependenciesOf_congr (hget m (hreg m hm))]
        exact hdeps m hm
    · cases hf
  · intro hu hp
    refine ⟨?_, ?_⟩
    · intro n s1 hen
      rcases enable_false_returns_any hen with rfl | ⟨e, order, hg, hne, hds, hres, rfl⟩
      · exact ⟨hnd, hreg, hdeps⟩
      · refine enabledInv_of_sublist hres (resolve_sound hu hp hres) (List.filter_sublist _) ?_
        intro m hm d hd
        obtain ⟨hmo, hm1⟩ := mem_enabled_filter hm
        have hdE : d ∈ s.enabled := by
          rcases hm1 with hm1 | hm1
          · exact (hdeps m hm1 d hd).1
          · subst hm1
            exact (dependencyStatus_iff hg).1 hds d hd
        refine List.mem_filter.2 ⟨((resolve_ok hres).2.1 d).2 (hreg d hdE), ?_⟩
        simp only [decide_eq_true_eq, List.mem_append, List.mem_map]
        exact Or.inl ⟨d, hdE, rfl⟩
    · intro n s1 hdis
      obtain ⟨hl, _, _, hsame, hsubl⟩ := disable_returns hdis
      by_cases he : isEnabled s n = true
      · obtain ⟨order, hres, hsub⟩ := hsubl he
        have hcl := disable_returns_closed he hdis
        have := enabledInv_of_sublist hres (resolve_sound hu hp hres) hsub
          (fun m hm d hd => hcl m hm d hd)
        unfold EnabledInv at this ⊢
        rw [hl]
        exact this
      · have he1 : isEnabled s n = false := by simpa using he
        unfold EnabledInv
        rw [hl, hsame he1]
        exact ⟨hnd, hreg, hdeps⟩

/-- The walk keeps the order of `sorted` topological up to the property names
of `Object.prototype`. -/
theorem visit_before {l : List Extension} (hu : UniqueNames l) :
    ∀ (fuel : Nat) (ext : Option Extension) (anc : List String) (w w1 : Walk),
      visit l fuel ext anc w = .ok w1 → (∀ e, ext = some e → e ∈ l) →
      ((∀ v ∈ w.visited, v ∈ w.sorted ∨ v ∈ anc) ∧ DepsBefore l w.sorted) →
      ((∀ v ∈ w1.visited, v ∈ w1.sorted ∨ v ∈ anc) ∧ DepsBefore l w1.sorted) := by
  intro fuel
  induction fuel with
  | zero => intro ext anc w w1 h; simp [visit] at h
  | succ f ih =>
    intro ext anc w w1 h hmem hs
    cases ext with
    | none => simp [visit] at h
    | some e =>
      have hel := hmem e rfl
      cases hn : e.name with
      | none =>
        rw [visit] at h
        simp only [hn, Except.ok.injEq] at h
        subst h
        exact hs
      | some n =>
        obtain ⟨w2, hloop, hw1⟩ := visit_ok_some hn h
        have h0 : (∀ v ∈ n :: w.visited, v ∈ w.sorted ∨ v ∈ anc ++ [n]) ∧
            DepsBefore l w.sorted := by
          refine ⟨?_, hs.2⟩
          intro v hv
          rcases List.mem_cons.1 hv with rfl | hv
          · exact Or.inr (by simp)
          · exact (hs.1 v hv).imp id (fun h => List.mem_append_left _ h)
        have h2 : ((∀ v ∈ w2.visited, v ∈ w2.sorted ∨ v ∈ anc ++ [n]) ∧
              DepsBefore l w2.sorted) ∧
            ∀ ds, e.dependencies = some ds → ∀ d ∈ ds,
              d ∉ anc ++ [n] ∧ (d ∈ w2.visited ∨ d ∈ objectPrototypeKeys) := by
          cases hdeps : e.dependencies with
          | none =>
            rw [hdeps] at hloop
            simp only [Except.ok.injEq] at hloop
            subst hloop
            exact ⟨h0, by simp⟩
          | some ds =>
            rw [hdeps] at hloop
            simp only at hloop
            refine ⟨?_, ?_⟩
            · exact visitDependencies_induct
                (fun a b => ((∀ v ∈ a.visited, v ∈ a.sorted ∨ v ∈ anc ++ [n]) ∧
                    DepsBefore l a.sorted) →
                  ((∀ v ∈ b.visited, v ∈ b.sorted ∨ v ∈ anc ++ [n]) ∧
                    DepsBefore l b.sorted))
                (fun _ h => h) (fun _ _ _ h1 h2 h => h2 (h1 h)) n (anc ++ [n])
                (fun d a b hab =>
                  ih _ _ _ _ hab (fun e1 he1 => (getExtension_some he1).1))
                ds _ _ hloop h0
            · intro ds1 hds1 d hd
              cases hds1
              have := (visitDependencies_ok
                (fun ext anc w w1 h hm => visit_ok f ext anc w w1 h hm) n (anc ++ [n])
                ds _ _ hloop).2 d hd
              refine ⟨this.1, ?_⟩
              have hv := this.2
              simp only [visitedTruthy, Bool.or_eq_true, decide_eq_true_eq] at hv
              exact hv
        obtain ⟨⟨hj, hg⟩, hd⟩ := h2
        have hnin : n ∈ w1.sorted := by
          rw [hw1]; split_ifs with hin
          · exact hin
          · simp
        have hsub : w2.sorted ⊆ w1.sorted := by
          rw [hw1]; split_ifs with hin
          · exact List.Subset.refl _
          · exact List.subset_append_left _ _
        have hvis : w1.visited = w2.visited := by
          rw [hw1]; split_ifs <;> rfl
        refine ⟨?_, ?_⟩
        · intro v hv
          rw [hvis] at hv
          rcases hj v hv with h1 | h1
          · exact Or.inl (hsub h1)
          · rcases List.mem_append.1 h1 with h1 | h1
            · exact Or.inr h1
            · simp only [List.mem_singleton] at h1
              subst h1
              exact Or.inl hnin
        · rw [hw1]
          split_ifs with hin
          · exact hg
          · intro m hm d hdep
            simp only [List.mem_append, List.mem_singleton] at hm
            rcases hm with hm | hm
            · obtain ⟨hne, hd1⟩ := hg m hm d hdep
              refine ⟨hne, hd1.imp id ?_⟩
              rintro ⟨hd1, hd2⟩
              refine ⟨List.mem_append_left _ hd1, ?_⟩
              simp only
              rw [List.indexOf_append_of_mem hd1, List.indexOf_append_of_mem hm]
              exact hd2
            · subst hm
              obtain ⟨e1, he1, hn1, ds, hds, hdm⟩ := hdep
              have : e1 = e := hu.eq he1 hel (by rw [hn1, hn])
              subst this
              obtain ⟨hda, hdv⟩ := hd ds hds d hdm
              refine ⟨fun heq => hda (by rw [heq]; simp), ?_⟩
              rcases hdv with hdv | hdv
              · right
                have hds2 : d ∈ w2.sorted := by
                  rcases hj d hdv with h1 | h1
                  · exact h1
                  · exact absurd h1 hda
                refine ⟨List.mem_append_left _ hds2, ?_⟩
                simp only
                rw [List.indexOf_append_of_mem hds2, List.indexOf_append_of_not_mem hin]
                have := List.indexOf_lt_length.2 hds2
                omega
              · exact Or.inl hdv

/-- The order that a returning resolution produces on pairwise distinct names:
every declared dependency of a name stands before it or is a property name of
`Object.prototype`. -/
theorem resolve_before {l : List Extension} {order : List String} (hu : UniqueNames l)
    (h : resolveDependencyGraph l = .ok order) : DepsBefore l order := by
  unfold resolveDependencyGraph at h
  cases hf : forEach (fun extension w => visit l (l.length + 1) (some extension) [] w)
      l ⟨[], []⟩ with
  | error e => rw [hf] at h; simp at h
  | ok w =>
    rw [hf] at h
    simp only [Except.ok.injEq] at h
    subst h
    have := (forEach_ok_induct
      (fun a b : Walk => ((∀ v ∈ a.visited, v ∈ a.sorted ∨ v ∈ ([] : List String)) ∧
          DepsBefore l a.sorted) →
        ((∀ v ∈ b.visited, v ∈ b.sorted ∨ v ∈ ([] : List String)) ∧ DepsBefore l b.sorted))
      (fun (_ : Extension) (_ : Walk) => True) (fun _ h => h) (fun _ _ _ h1 h2 h => h2 (h1 h))
      (fun _ _ _ _ _ => trivial) l _ _
      (fun x hx a b hab =>
        ⟨visit_before hu _ _ _ _ _ hab (fun e he => by cases he; exact hx), trivial⟩) hf).1
    exact (this ⟨by simp, by intro n hn; simp at hn⟩).2

/-- The loop of `visit` over dependencies that all read as visited and are not
on the path changes nothing. -/
theorem visitDependencies_skip
    {recurse : Option Extension → List String → Walk → Except JsError Walk}
    {l : List Extension} {name : String} {anc : List String} {w : Walk} :
    ∀ (ds : List String), (∀ d ∈ ds, d ∉ anc ∧ visitedTruthy w.visited d = true) →
      visitDependencies recurse l name anc ds w = .ok w := by
  intro ds
  induction ds with
  | nil => intro _; rfl
  | cons d rest ih =>
    intro h
    obtain ⟨h1, h2⟩ := h d (List.mem_cons_self _ _)
    rw [visitDependencies, if_neg h1, if_pos h2]
    exact ih (fun x hx => h x (List.mem_cons_of_mem _ hx))

/-- The walk over a registry in dependency order sorts the names in the order
of the registry. -/
theorem forEach_visit_inOrder (l : List Extension) (f : Nat) :
    ∀ (suf : List Extension) (P V : List String), InOrder P suf → (∀ d ∈ P, d ∈ V) →
      ∃ V1, forEach (fun extension w => visit l (f + 1) (some extension) [] w) suf ⟨P, V⟩ =
        .ok ⟨P ++ suf.filterMap (fun e => e.name), V1⟩ := by
  intro suf
  induction suf with
  | nil =>
    intro P V _ _
    exact ⟨V, by simp [forEach]⟩
  | cons e rest ih =>
    intro P V hin hPV
    obtain ⟨n, hn, hnP, hdeps, hrest⟩ := hin
    have hstep : visit l (f + 1) (some e) [] ⟨P, V⟩ = .ok ⟨P ++ [n], n :: V⟩ := by
      rcases e with ⟨nm, deps, confs, cr, de⟩
      simp only at hn hdeps
      subst hn
      rw [visit]
      simp only [List.nil_append]
      cases deps with
      | none => simp only [if_neg hnP]
      | some ds =>
        simp only
        rw [visitDependencies_skip ds]
        · simp only [if_neg hnP]
        · intro d hdm
          obtain ⟨hne, hd1⟩ := hdeps ds rfl d hdm
          refine ⟨by simpa using hne, ?_⟩
          simp only [visitedTruthy, Bool.or_eq_true, decide_eq_true_eq, List.mem_cons]
          rcases hd1 with hd1 | hd1
          · exact Or.inl (Or.inr (hPV d hd1))
          · exact Or.inr hd1
    obtain ⟨V1, hV1⟩ := ih (P ++ [n]) (n :: V) hrest (by
      intro d hd
      rcases List.mem_append.1 hd with hd | hd
      · exact List.mem_cons_of_mem _ (hPV d hd)
      · rw [List.mem_singleton] at hd
        rw [hd]
        exact List.mem_cons_self _ _)
    refine ⟨V1, ?_⟩
    rw [forEach, hstep]
    simp only
    rw [hV1, List.filterMap_cons_some hn, List.append_assoc]
    rfl

/-- The resolution of a registry in dependency order returns the names in the
order of the registry. -/
theorem resolve_inOrder {l : List Extension} (h : InOrder [] l) :
    resolveDependencyGraph l = .ok (l.filterMap (fun e => e.name)) := by
  obtain ⟨V1, hV1⟩ := forEach_visit_inOrder l l.length l [] [] h
    (fun d hd => absurd hd (List.not_mem_nil d))
  unfold resolveDependencyGraph
  rw [hV1]
  rfl

/-- The descriptors of a resolved order, taken in that order, form a registry in
dependency order. -/
theorem inOrder_filterMap {l : List Extension} {order : List String}
    (hnd : order.Nodup) (hreg : ∀ n ∈ order, Registered l n) (hb : DepsBefore l order) :
    ∀ (suf pre : List String), order = pre ++ suf →
      InOrder pre (suf.filterMap (fun n => getExtension l (some n))) := by
  intro suf
  induction suf with
  | nil => intro pre _; exact trivial
  | cons n rest ih =>
    intro pre hsplit
    have hn : n ∈ order := by rw [hsplit]; simp
    obtain ⟨e, hg, hel, hname⟩ := getExtension_of_registered (hreg n hn)
    rw [List.filterMap_cons_some (f := fun n => getExtension l (some n)) hg]
    have hnpre : n ∉ pre := by
      rw [hsplit] at hnd
      exact fun h => (List.disjoint_of_nodup_append hnd) h (List.mem_cons_self _ _)
    refine ⟨n, hname, hnpre, ?_, ih (pre ++ [n]) (by rw [hsplit]; simp)⟩
    intro ds hds d hd
    obtain ⟨hne, hd1⟩ := hb n hn d ⟨e, hel, hname, ds, hds, hd⟩
    refine ⟨hne, hd1.symm.imp ?_ id⟩
    rintro ⟨_, hlt⟩
    by_contra hdpre
    rw [hsplit, List.indexOf_append_of_not_mem hdpre, List.indexOf_append_of_not_mem hnpre,
      List.indexOf_cons_self] at hlt
    omega

theorem filterMap_name_filterMap {l : List Extension} :
    ∀ (order : List String), (∀ n ∈ order, Registered l n) →
      (order.filterMap (fun n => getExtension l (some n))).filterMap (fun e => e.name) =
        order := by
  intro order
  induction order with
  | nil => intro _; rfl
  | cons n rest ih =>
    intro hreg
    obtain ⟨e, hg, _, hname⟩ := getExtension_of_registered (hreg n (List.mem_cons_self _ _))
    rw [List.filterMap_cons_some (f := fun n => getExtension l (some n)) hg,
      List.filterMap_cons_some hname,
      ih (fun k hk => hreg k (List.mem_cons_of_mem _ hk))]

/-- A registry in dependency order has defined, pairwise distinct names. -/
theorem inOrder_names : ∀ (suf : List Extension) (P : List String), InOrder P suf →
    (suf.map (fun e => e.name)).Nodup ∧ ∀ e ∈ suf, ∃ n, e.name = some n ∧ n ∉ P := by
  intro suf
  induction suf with
  | nil => intro P _; exact ⟨List.nodup_nil, fun e he => absurd he (List.not_mem_nil e)⟩
  | cons e rest ih =>
    intro P h
    obtain ⟨n, hn, hnP, _, hrest⟩ := h
    obtain ⟨hnd, hall⟩ := ih (P ++ [n]) hrest
    refine ⟨?_, ?_⟩
    · rw [List.map_cons, List.nodup_cons]
      refine ⟨?_, hnd⟩
      intro hmem
      obtain ⟨e1, he1, hname1⟩ := List.mem_map.1 hmem
      obtain ⟨n1, hn1, hn1P⟩ := hall e1 he1
      apply hn1P
      have : n1 = n := by
        rw [hn1, hn] at hname1
        exact Option.some.inj hname1
      rw [this]
      simp
    · intro e1 he1
      rcases List.mem_cons.1 he1 with rfl | he1
      · exact ⟨n, hn, hnP⟩
      · obtain ⟨n1, hn1, hn1P⟩ := hall e1 he1
        exact ⟨n1, hn1, fun h => hn1P (List.mem_append_left _ h)⟩

theorem getExtension_of_mem_unique {l : List Extension} (hu : UniqueNames l) {e : Extension}
    {n : String} (he : e ∈ l) (hn : e.name = some n) : getExtension l (some n) = some e := by
  obtain ⟨e1, hg, he1, hn1⟩ := getExtension_of_registered ⟨e, he, hn⟩
  rw [hg, hu.eq he1 he (hn1.trans hn.symm)]

theorem filterMap_getExtension_self {l : List Extension} (hu : UniqueNames l) :
    ∀ (suf : List Extension), (∀ e ∈ suf, e ∈ l ∧ ∃ n, e.name = some n) →
      (suf.filterMap (fun e => e.name)).filterMap (fun n => getExtension l (some n)) =
        suf := by
  intro suf
  induction suf with
  | nil => intro _; rfl
  | cons e rest ih =>
    intro h
    obtain ⟨hel, n, hn⟩ := h e (List.mem_cons_self _ _)
    rw [List.filterMap_cons_some hn,
      List.filterMap_cons_some (f := fun n => getExtension l (some n))
        (getExtension_of_mem_unique hu hel hn),
      ih (fun e1 he1 => h e1 (List.mem_cons_of_mem _ he1))]

/-- On a registry in dependency order, `reorderExtensions` changes nothing. -/
theorem reorderExtensions_inOrder {s : State} (h : InOrder [] s.list) :
    reorderExtensions s = .ok s := by
  obtain ⟨hu, hall⟩ := inOrder_names s.list [] h
  unfold reorderExtensions
  rw [resolve_inOrder h]
  simp only
  rw [filterMap_getExtension_self hu s.list
    (fun e he => ⟨he, (hall e he).imp (fun _ h => h.1)⟩)]

/-- `checkDependencies` calls `disable` only on a name that is enabled: on a
name that is not, its result does not depend on the function it would call. -/
theorem checkDependenciesWith_not_enabled (d1 d2 : State → Option String → Outcome State)
    {s : State} {n : Option String} (h : isEnabled s n = false) :
    checkDependenciesWith d1 s n = checkDependenciesWith d2 s n := by
  unfold checkDependenciesWith
  cases getExtension s.list n with
  | none => rfl
  | some e =>
    rcases e with ⟨nm, deps, confs, cr, de⟩
    cases deps with
    | none => rfl
    | some ds => simp [h]

theorem recheck_congr {f1 f2 : Nat} {y : String} {a : State}
    (h : disableFuel f1 a (some y) = disableFuel f2 a (some y)) :
    recheck f1 y a = recheck f2 y a := by
  unfold recheck checkDependenciesWith
  cases getExtension a.list (some y) with
  | none => rfl
  | some e =>
    rcases e with ⟨nm, deps, confs, cr, de⟩
    cases deps with
    | none => rfl
    | some ds =>
      simp only
      by_cases hcond : (ds.all (fun dependency => isEnabled a (some dependency))) = false ∧
          isEnabled a (some y) = true
      · rw [if_pos hcond, if_pos hcond, h]
      · rw [if_neg hcond, if_neg hcond]

/-- One more unit of fuel does not change the result of `disable` once the fuel
exceeds the length of the enabled list. -/
theorem disableFuel_succ : ∀ (f : Nat) (s : State) (n : Option String),
    s.enabled.length < f → disableFuel (f + 1) s n = disableFuel f s n := by
  intro f
  induction f with
  | zero => intro s n h; omega
  | succ g ih =>
    intro s n hlen
    by_cases he : isEnabled s n = true
    · obtain ⟨x, rfl, hx⟩ := isEnabled_true he
      cases hres : resolveDependencyGraph s.list with
      | error err =>
        rw [disableFuel_enabled_error _ hx hres, disableFuel_enabled_error _ hx hres]
      | ok order =>
        rw [disableFuel_enabled _ hx hres, disableFuel_enabled _ hx hres]
        have hlt := length_filter_erase_lt (resolve_ok hres).1 hx
        have hloop : ∀ (xs : List String) (a : State), a.enabled.length < g →
            forEach (recheck (g + 1)) xs a = forEach (recheck g) xs a := by
          intro xs
          induction xs with
          | nil => intro a _; rfl
          | cons y ys ihl =>
            intro a ha
            rw [forEach, forEach, recheck_congr (ih a (some y) ha)]
            cases hy : recheck g y a with
            | error err => rfl
            | ok a1 =>
              simp only
              apply ihl
              rcases recheck_returns hy with rfl | hd
              · exact ha
              · have := (disableFuel_shrinks ha hd).1
                omega
        rw [hloop _ _ (by simp only; omega)]
    · have he1 : isEnabled s n = false := by simpa using he
      rw [disableFuel_not_enabled _ he1, disableFuel_not_enabled _ he1]

/-- Every fuel above the length of the enabled list gives the result of
`disable`. -/
theorem disableFuel_stable (s : State) (n : Option String) :
    ∀ (fuel : Nat), s.enabled.length < fuel → disableFuel fuel s n = disable s n := by
  intro fuel hlen
  unfold disable
  induction fuel with
  | zero => omega
  | succ f ih =>
    by_cases h : s.enabled.length < f
    · rw [disableFuel_succ f s n h]
      exact ih h
    · have : f = s.enabled.length := by omega
      rw [this]

/-- A returning `disable` of an enabled name shortens the enabled list. -/
theorem disableFuel_shortens {fuel : Nat} {s s1 : State} {n : Option String}
    (hlen : s.enabled.length < fuel) (he : isEnabled s n = true)
    (h : disableFuel fuel s n = .ok s1) : s1.enabled.length < s.enabled.length := by
  cases fuel with
  | zero => omega
  | succ f =>
    obtain ⟨x, rfl, hx⟩ := isEnabled_true he
    cases hres : resolveDependencyGraph s.list with
    | error err =>
      rw [disableFuel_enabled_error f hx hres] at h
      cases h
    | ok order =>
      rw [disableFuel_enabled f hx hres] at h
      have hlt := length_filter_erase_lt (resolve_ok hres).1 hx
      obtain ⟨s2, hs2, hinv, _⟩ := cascade_loop f (disableFuel_ok f) hres hlen rfl hlt
      rw [hs2] at h
      obtain ⟨_, h2, _, _⟩ := disableEnd_of_ok h
      rw [h2]
      have := hinv.enabled_length
      omega

theorem getAllEnabledCount_present {t : Stored} (h : t.present = true) :
    getAllEnabledCount t = (t.state.enabled, t) := by
  unfold getAllEnabledCount
  rw [if_pos h]

theorem isEnabledCount_present {t : Stored} (h : t.present = true) (n : Option String) :
    isEnabledCount t n = (isEnabled t.state n, t) := by
  unfold isEnabledCount
  rw [getAllEnabledCount_present h]
  cases n <;> rfl

theorem everyEnabledCount_present {t : Stored} (h : t.present = true) :
    ∀ (ds : List String),
      everyEnabledCount ds t = (ds.all (fun d => isEnabled t.state (some d)), t) := by
  intro ds
  induction ds with
  | nil => rfl
  | cons d rest ih =>
    rw [everyEnabledCount, isEnabledCount_present h]
    simp only [List.all_cons]
    cases hd : isEnabled t.state (some d) with
    | false => simp
    | true => simpa using ih

theorem disableCount_not_enabled (fuel : Nat) {t : Stored} {n : Option String}
    (hp : t.present = true) (h : isEnabled t.state n = false) :
    disableCount (fuel + 1) t n = disableEndCount t n := by
  rw [disableCount]
  simp only [getAllEnabledCount_present hp, isEnabledCount_present hp, h]
  rfl

theorem disableCount_enabled_error (fuel : Nat) {t : Stored} {x : String} {err : JsError}
    (hp : t.present = true) (h : x ∈ t.state.enabled)
    (hr : resolveDependencyGraph t.state.list = .error err) :
    disableCount (fuel + 1) t (some x) = .error (err, t) := by
  rw [disableCount]
  have he : isEnabled t.state (some x) = true := by simpa [isEnabled, getAllEnabled] using h
  simp only [getAllEnabledCount_present hp, isEnabledCount_present hp, he, if_true,
    reorderEnabledExtensions, hr]

theorem disableCount_enabled (fuel : Nat) {t : Stored} {x : String} {order : List String}
    (hp : t.present = true) (h : x ∈ t.state.enabled)
    (hr : resolveDependencyGraph t.state.list = .ok order) :
    disableCount (fuel + 1) t (some x) =
      match forEach (recheckCount fuel)
          (order.filter (fun e => decide (e ∈ t.state.enabled.erase x)))
          (setItem t (order.filter (fun e => decide (e ∈ t.state.enabled.erase x)))) with
      | .error e => .error e
      | .ok t1 => disableEndCount t1 (some x) := by
  rw [disableCount]
  have he : isEnabled t.state (some x) = true := by simpa [isEnabled, getAllEnabled] using h
  simp only [getAllEnabledCount_present hp, isEnabledCount_present hp, he, if_true,
    reorderEnabledExtensions, hr, mem_erase_map_some]
  rfl

/-- A call on a store without the key starts with the write of `[]`. -/
theorem disableCount_absent (fuel : Nat) {t : Stored} (n : Option String)
    (hp : t.present = false) :
    disableCount (fuel + 1) t n = disableCount (fuel + 1) (setItem t []) n := by
  have h1 : getAllEnabledCount t = ([], setItem t []) := by
    unfold getAllEnabledCount
    rw [hp]
    rfl
  have h2 : getAllEnabledCount (setItem t []) = ([], setItem t []) :=
    getAllEnabledCount_present rfl
  rw [disableCount, disableCount, h1, h2]

/-- The end of `disable` on the store is the end of `disable`; it writes
nothing. -/
theorem disableEndCount_sim (t : Stored) (n : Option String) :
    erased (disableEndCount t n) = disableEnd t.state n ∧
    (endStore (disableEndCount t n)).present = t.present ∧
    (endStore (disableEndCount t n)).writes = t.writes ∧
    (endStore (disableEndCount t n)).state.enabled = t.state.enabled := by
  unfold disableEndCount disableEnd
  by_cases hi : isInitialized t.state n = true
  · rw [if_pos hi, if_pos hi]
    unfold destroyExtension
    rw [if_pos hi]
    cases getExtension t.state.list n with
    | none => exact ⟨rfl, rfl, rfl, rfl⟩
    | some e => exact ⟨rfl, rfl, rfl, rfl⟩
  · rw [if_neg hi, if_neg hi]
    exact ⟨rfl, rfl, rfl, rfl⟩

/-- The loop of `disable` on a store that holds the key is the loop of
`disable`, keeps the key and does not raise the sum of the count of writes and
the length of the enabled list, when its steps do so. -/
theorem forEach_sim {f : Nat}
    (hstep : ∀ y t, t.present = true →
      erased (recheckCount f y t) = recheck f y t.state ∧
      (endStore (recheckCount f y t)).present = true ∧
      writes (recheckCount f y t) + (endStore (recheckCount f y t)).state.enabled.length ≤
        t.writes + t.state.enabled.length) :
    ∀ (xs : List String) (t : Stored), t.present = true →
      erased (forEach (recheckCount f) xs t) = forEach (recheck f) xs t.state ∧
      (endStore (forEach (recheckCount f) xs t)).present = true ∧
      writes (forEach (recheckCount f) xs t) +
          (endStore (forEach (recheckCount f) xs t)).state.enabled.length ≤
        t.writes + t.state.enabled.length := by
  intro xs
  induction xs with
  | nil => intro t hp; exact ⟨rfl, hp, le_refl _⟩
  | cons y ys ih =>
    intro t hp
    obtain ⟨h1, h2, h3⟩ := hstep y t hp
    rw [forEach, forEach]
    cases hy : recheckCount f y t with
    | error e =>
      rw [hy] at h1 h2 h3
      rw [← h1]
      exact ⟨rfl, h2, h3⟩
    | ok t1 =>
      rw [hy] at h1 h2 h3
      rw [← h1]
      obtain ⟨k1, k2, k3⟩ := ih t1 h2
      refine ⟨k1, k2, le_trans k3 h3⟩

theorem recheckCount_sim {f : Nat}
    (ih : ∀ t n, t.present = true →
      erased (disableCount f t n) = disableFuel f t.state n ∧
      (endStore (disableCount f t n)).present = true ∧
      writes (disableCount f t n) + (endStore (disableCount f t n)).state.enabled.length ≤
        t.writes + t.state.enabled.length)
    (y : String) (t : Stored) (hp : t.present = true) :
    erased (recheckCount f y t) = recheck f y t.state ∧
    (endStore (recheckCount f y t)).present = true ∧
    writes (recheckCount f y t) + (endStore (recheckCount f y t)).state.enabled.length ≤
      t.writes + t.state.enabled.length := by
  unfold recheckCount recheck checkDependenciesCount checkDependenciesWith
  cases getExtension t.state.list (some y) with
  | none => exact ⟨rfl, hp, le_refl _⟩
  | some e =>
    rcases e with ⟨nm, deps, confs, cr, de⟩
    cases deps with
    | none => exact ⟨rfl, hp, le_refl _⟩
    | some ds =>
      simp only [everyEnabledCount_present hp, isEnabledCount_present hp]
      cases hst : ds.all (fun d => isEnabled t.state (some d)) with
      | true =>
        simp only [Bool.true_eq_false, if_false, false_and]
        exact ⟨rfl, hp, le_refl _⟩
      | false =>
        simp only [if_true, true_and]
        cases hen : isEnabled t.state (some y) with
        | false =>
          simp only [Bool.false_eq_true, if_false]
          exact ⟨rfl, hp, le_refl _⟩
        | true =>
          simp only [if_true]
          obtain ⟨h1, h2, h3⟩ := ih t (some y) hp
          rw [← h1]
          cases hd : disableCount f t (some y) with
          | error e =>
            rw [hd] at h2 h3
            exact ⟨rfl, h2, h3⟩
          | ok t1 =>
            rw [hd] at h2 h3
            exact ⟨rfl, h2, h3⟩

/-- `disable` on a store that holds the key is `disable`: it has the same
outcome for every fuel, it keeps the key, and the count of writes and the length
of the enabled list at its end sum up to at most what they were at the start. -/
theorem disableCount_sim : ∀ (f : Nat) (t : Stored) (n : Option String), t.present = true →
    erased (disableCount f t n) = disableFuel f t.state n ∧
    (endStore (disableCount f t n)).present = true ∧
    writes (disableCount f t n) + (endStore (disableCount f t n)).state.enabled.length ≤
      t.writes + t.state.enabled.length := by
  intro f
  induction f with
  | zero => intro t n hp; exact ⟨rfl, hp, le_refl _⟩
  | succ g ih =>
    intro t n hp
    by_cases he : isEnabled t.state n = true
    · obtain ⟨x, rfl, hx⟩ := isEnabled_true he
      cases hres : resolveDependencyGraph t.state.list with
      | error err =>
        rw [disableCount_enabled_error _ hp hx hres, disableFuel_enabled_error _ hx hres]
        exact ⟨rfl, hp, le_refl _⟩
      | ok order =>
        rw [disableCount_enabled _ hp hx hres, disableFuel_enabled _ hx hres]
        have hlt := length_filter_erase_lt (resolve_ok hres).1 hx
        obtain ⟨k1, k2, k3⟩ := forEach_sim (recheckCount_sim ih)
          (order.filter (fun e => decide (e ∈ t.state.enabled.erase x)))
          (setItem t (order.filter (fun e => decide (e ∈ t.state.enabled.erase x)))) rfl
        have hstart : (setItem t (order.filter (fun e =>
            decide (e ∈ t.state.enabled.erase x)))).writes +
            (setItem t (order.filter (fun e =>
              decide (e ∈ t.state.enabled.erase x)))).state.enabled.length ≤
            t.writes + t.state.enabled.length := by
          simp only [setItem]
          omega
        have hst : (setItem t (order.filter (fun e =>
            decide (e ∈ t.state.enabled.erase x)))).state =
            { t.state with enabled := order.filter (fun e =>
              decide (e ∈ t.state.enabled.erase x)) } := rfl
        rw [hst] at k1
        rw [← k1]
        cases hf : forEach (recheckCount g)
            (order.filter (fun e => decide (e ∈ t.state.enabled.erase x)))
            (setItem t (order.filter (fun e => decide (e ∈ t.state.enabled.erase x)))) with
        | error e =>
          rw [hf] at k2 k3
          exact ⟨rfl, k2, le_trans k3 hstart⟩
        | ok t1 =>
          rw [hf] at k2 k3
          obtain ⟨e1, e2, e3, e4⟩ := disableEndCount_sim t1 (some x)
          refine ⟨e1, e2.trans k2, ?_⟩
          unfold writes at k3 ⊢
          rw [e3, e4]
          exact le_trans k3 hstart
    · have he1 : isEnabled t.state n = false := by simpa using he
      rw [disableCount_not_enabled _ hp he1, disableFuel_not_enabled _ he1]
      obtain ⟨e1, e2, e3, e4⟩ := disableEndCount_sim t n
      refine ⟨e1, e2.trans hp, ?_⟩
      unfold writes
      rw [e3, e4]

theorem isEnabled_of_nil {s : State} (h : s.enabled = []) (n : Option String) :
    isEnabled s n = false := by
  cases n with
  | none => rfl
  | some x => simp [isEnabled, getAllEnabled, h]

/-- `disable` on a store without the key, the enabled list being read as `[]`:
the outcome is that of `disable`, and exactly one write is made, the write of
`[]` by `getAllEnabled`. -/
theorem disableCount_cold (fuel : Nat) {t : Stored} (n : Option String)
    (hp : t.present = false) (he : t.state.enabled = []) :
    erased (disableCount (fuel + 1) t n) = disableFuel (fuel + 1) t.state n ∧
    (endStore (disableCount (fuel + 1) t n)).present = true ∧
    writes (disableCount (fuel + 1) t n) = t.writes + 1 := by
  have hst : (setItem t []).state = t.state := by
    rcases t with ⟨⟨l, i, e, lg⟩, p, w⟩
    simp only at he
    subst he
    rfl
  have hen : isEnabled (setItem t []).state n = false := by
    rw [hst]
    exact isEnabled_of_nil he n
  rw [disableCount_absent fuel n hp, disableCount_not_enabled fuel rfl hen,
    disableFuel_not_enabled fuel (isEnabled_of_nil he n)]
  obtain ⟨e1, e2, e3, _⟩ := disableEndCount_sim (setItem t []) n
  rw [hst] at e1
  exact ⟨e1, e2, e3⟩

/-- The count of writes on an example: `B`, `A` (which depends on `B`) and `C`
are enabled and the key is there; `disable('B')` writes the enabled list twice,
once for `B` and once for `A` in the cascade, and ends with `['C']`. -/
theorem disableCount_cascade_example :
    disableCount (cascadeState.enabled.length + 1) ⟨cascadeState, true, 0⟩ (some "B") =
      .ok ⟨{ cascadeState with enabled := ["C"] }, true, 2⟩ := by
  decide

/-! ## Names without a descriptor during `disable` -/

/-- The end of `disable` leaves the enabled list and the registry as they are,
whether it returns or raises. -/
theorem endState_disableEnd (s : State) (n : Option String) :
    (endState (disableEnd s n)).enabled = s.enabled ∧
    (endState (disableEnd s n)).list = s.list := by
  unfold disableEnd destroyExtension
  by_cases hi : isInitialized s n = true
  · rw [if_pos hi, if_pos hi]
    cases getExtension s.list n with
    | none => exact ⟨rfl, rfl⟩
    | some e => exact ⟨rfl, rfl⟩
  · rw [if_neg hi]
    exact ⟨rfl, rfl⟩

/-- The loop of `disable` keeps in `_init` a name for which no descriptor is
registered, when the nested calls of `disable` do. -/
theorem forEach_recheck_keeps {f : Nat} {l : List Extension} {y : String}
    (hd : ∀ (a a1 : State) (m : String), a.list = l → a.enabled.length < f → Registered l m →
      some y ∈ a.init → disableFuel f a (some m) = .ok a1 → some y ∈ a1.init) :
    ∀ (xs : List String) (a a1 : State), (∀ m ∈ xs, Registered l m) → a.list = l →
      a.enabled.length < f → some y ∈ a.init → forEach (recheck f) xs a = .ok a1 →
      some y ∈ a1.init ∧ a1.list = l := by
  intro xs
  induction xs with
  | nil =>
    intro a a1 _ hl _ hi h
    simp only [forEach, Except.ok.injEq] at h
    subst h
    exact ⟨hi, hl⟩
  | cons m ms ih =>
    intro a a1 hreg hl hlen hi h
    rw [forEach] at h
    cases hm : recheck f m a with
    | error err => rw [hm] at h; cases h
    | ok a2 =>
      rw [hm] at h
      simp only at h
      have hreg1 : ∀ k ∈ ms, Registered l k := fun k hk => hreg k (List.mem_cons_of_mem _ hk)
      rcases recheck_returns hm with rfl | hdis
      · exact ih _ _ hreg1 hl hlen hi h
      · obtain ⟨hl2, _, _, _, _⟩ := disableFuel_returns hlen hdis
        have hle := (disableFuel_shrinks hlen hdis).1
        exact ih _ _ hreg1 (hl2.trans hl) (by omega)
          (hd a a2 m hl hlen (hreg m (List.mem_cons_self _ _)) hi hdis) h

/-- A returning `disable` of a registered name keeps in `_init` every name for
which no descriptor is registered. -/
theorem disableFuel_keeps : ∀ (fuel : Nat) (s s1 : State) (m y : String),
    s.enabled.length < fuel → ¬ Registered s.list y → Registered s.list m →
    some y ∈ s.init → disableFuel fuel s (some m) = .ok s1 → some y ∈ s1.init := by
  intro fuel
  induction fuel with
  | zero => intro s s1 m y h; omega
  | succ f ih =>
    intro s s1 m y hlen hy hm hi h
    have hne : some y ≠ some m := by
      intro heq
      cases heq
      exact hy hm
    have hend : ∀ s2 : State, some y ∈ s2.init → disableEnd s2 (some m) = .ok s1 →
        some y ∈ s1.init := by
      intro s2 hi2 h2
      obtain ⟨_, _, h3, _⟩ := disableEnd_of_ok h2
      rw [h3]
      exact (List.mem_erase_of_ne hne).2 hi2
    by_cases he : isEnabled s (some m) = true
    · have hx : m ∈ s.enabled := by simpa [isEnabled, getAllEnabled] using he
      cases hres : resolveDependencyGraph s.list with
      | error err =>
        rw [disableFuel_enabled_error f hx hres] at h
        cases h
      | ok order =>
        rw [disableFuel_enabled f hx hres] at h
        have hlt := length_filter_erase_lt (resolve_ok hres).1 hx
        cases hf : forEach (recheck f)
            (order.filter (fun e => decide (e ∈ s.enabled.erase m)))
            { s with enabled := order.filter (fun e => decide (e ∈ s.enabled.erase m)) } with
        | error err => rw [hf] at h; cases h
        | ok s2 =>
          rw [hf] at h
          simp only at h
          have := forEach_recheck_keeps (l := s.list) (y := y)
            (fun a a1 k hl hlen1 hk hi1 hdis =>
              ih a a1 k y hlen1 (by rw [hl]; exact hy) (by rw [hl]; exact hk) hi1 hdis)
            _ { s with enabled := order.filter (fun e => decide (e ∈ s.enabled.erase m)) } s2
            (fun k hk => ((resolve_ok hres).2.1 k).1 (List.mem_filter.1 hk).1) rfl
            (by simp only; omega) hi hf
          exact hend s2 this.1 h
    · have he1 : isEnabled s (some m) = false := by simpa using he
      rw [disableFuel_not_enabled f he1] at h
      exact hend s hi h

/-- The shape of `disable` of an enabled name when the registry resolves: the
loop returns with a sublist of the resolved order as the enabled list, and the
outcome is that of the end of `disable` in that state. An initialized name for
which no descriptor is registered is still in `_init` there. -/
theorem disable_enabled_shape {s : State} {x : String} {order : List String}
    (hx : x ∈ s.enabled) (hres : resolveDependencyGraph s.list = .ok order) :
    ∃ s2, disable s (some x) = disableEnd s2 (some x) ∧ List.Sublist s2.enabled order ∧
      s2.list = s.list ∧
      ∀ y, ¬ Registered s.list y → some y ∈ s.init → some y ∈ s2.init := by
  have hlt := length_filter_erase_lt (resolve_ok hres).1 hx
  obtain ⟨s2, hs2, hinv, _⟩ := cascade_loop s.enabled.length (disableFuel_ok _) hres
    (Nat.lt_succ_self _) rfl hlt
  refine ⟨s2, ?_, hinv.enabled_sublist, hinv.list_eq, ?_⟩
  · unfold disable
    rw [disableFuel_enabled _ hx hres, hs2]
  · intro y hy hi
    exact (forEach_recheck_keeps (l := s.list) (y := y)
      (fun a a1 k hl hlen1 hk hi1 hdis =>
        disableFuel_keeps _ a a1 k y hlen1 (by rw [hl]; exact hy) (by rw [hl]; exact hk) hi1 hdis)
      _ { s with enabled := order.filter (fun e => decide (e ∈ s.enabled.erase x)) } s2
      (fun k hk => ((resolve_ok hres).2.1 k).1 (List.mem_filter.1 hk).1) rfl
      (by simp only; omega) hi hs2).1

/-- An example of a `disable` that rewrites the enabled list and then raises:
`S` is enabled and initialized and has no descriptor; `disable('S')` stores the
empty list and raises a `TypeError` at `extension.destroy()`. -/
theorem disable_stale_initialized_example :
    disable ⟨[mkExtension "A" none], [some "S"], ["S"], []⟩ (some "S") =
      .error (.typeError, ⟨[mkExtension "A" none], [some "S"], [], []⟩) := by
  decide

/-! ## The claims -/

/-- C1 (failing input): in the registry `[X (dependencies [constructor]),
constructor]`, which two calls of `add` build from the empty registry, the names
are distinct and the resolution returns, but the dependency `constructor` of
`X` stands after `X` in the returned order, because `visited['constructor']`
reads the inherited `Object.prototype.constructor`. -/
theorem resolveDependencyGraph_prototype_name_order :
    UniqueNames prototypeRegistry ∧
    resolveDependencyGraph prototypeRegistry = .ok ["X", "constructor"] ∧
    Dep prototypeRegistry "X" "constructor" ∧
    ¬ (List.indexOf "constructor" ["X", "constructor"] <
        List.indexOf "X" ["X", "constructor"]) ∧
    (∃ s1, add ⟨[], [], [], []⟩ (mkExtension "X" (some ["constructor"])) false false = .ok s1 ∧
      add s1 (mkExtension "constructor" none) false false =
        .ok ⟨prototypeRegistry, [], [], []⟩) := by
  refine ⟨by decide, by decide, ?_, by decide,
    ⟨[mkExtension "X" (some ["constructor"])], [], [], []⟩, by decide, by decide⟩
  exact ⟨mkExtension "X" (some ["constructor"]), by simp [prototypeRegistry], rfl,
    ["constructor"], rfl, by simp⟩

/-- C2 (failing input): the registry `[constructor (dependencies [toString]),
toString (dependencies [constructor])]`, which two calls of `add` build from the
empty registry, has distinct names, every declared dependency registered and a
cycle, and the resolution returns a list. -/
theorem resolveDependencyGraph_prototype_name_cycle :
    UniqueNames prototypeCycle ∧
    (∀ x d, Dep prototypeCycle x d → Registered prototypeCycle d) ∧
    Relation.TransGen (Dep prototypeCycle) "constructor" "constructor" ∧
    resolveDependencyGraph prototypeCycle = .ok ["constructor", "toString"] ∧
    (∃ s1, add ⟨[], [], [], []⟩ (mkExtension "constructor" (some ["toString"])) false false =
        .ok s1 ∧
      add s1 (mkExtension "toString" (some ["constructor"])) false false =
        .ok ⟨prototypeCycle, [], [], []⟩) := by
  have h1 : Dep prototypeCycle "constructor" "toString" :=
    ⟨mkExtension "constructor" (some ["toString"]), by simp [prototypeCycle], rfl,
      ["toString"], rfl, by simp⟩
  have h2 : Dep prototypeCycle "toString" "constructor" :=
    ⟨mkExtension "toString" (some ["constructor"]), by simp [prototypeCycle], rfl,
      ["constructor"], rfl, by simp⟩
  refine ⟨by decide, ?_, Relation.TransGen.tail (Relation.TransGen.single h1) h2, by decide,
    ⟨[mkExtension "constructor" (some ["toString"])], [], [], []⟩, by decide, by decide⟩
  rintro x d ⟨e, he, hn, ds, hds, hd⟩
  simp only [prototypeCycle, mkExtension, List.mem_cons, List.mem_singleton, List.not_mem_nil,
    or_false] at he
  rcases he with rfl | rfl
  · simp only [Option.some.injEq] at hds
    subst hds
    simp only [List.mem_singleton] at hd
    subst hd
    exact ⟨mkExtension "toString" (some ["constructor"]), by simp [prototypeCycle], rfl⟩
  · simp only [Option.some.injEq] at hds
    subst hds
    simp only [List.mem_singleton] at hd
    subst hd
    exact ⟨mkExtension "constructor" (some ["toString"]), by simp [prototypeCycle], rfl⟩

/-- C3: in a registry whose descriptors have defined, pairwise distinct names,
in which every declared dependency is registered and the dependency relation is
acyclic, `resolveDependencyGraph` returns a list, and the list is a permutation
of `getAll()`. -/
theorem resolveDependencyGraph_complete (s : State)
    (hdef : ∀ e ∈ s.list, e.name ≠ none) (huniq : UniqueNames s.list)
    (hreg : ∀ x d, Dep s.list x d → Registered s.list d) (hacyc : Acyclic s.list) :
    ∃ order, resolveDependencyGraph s.list = .ok order ∧
      (order.map some).Perm (getAll s) := by
  obtain ⟨order, h⟩ := resolve_returns hreg hacyc
  refine ⟨order, h, ?_⟩
  obtain ⟨hnd, hmem, _⟩ := resolve_ok h
  unfold getAll
  rw [List.perm_ext_iff_of_nodup (hnd.map (Option.some_injective _)) huniq]
  intro a
  cases a with
  | none =>
    simp only [List.mem_map, reduceCtorEq, and_false, exists_false, false_iff,
      not_exists, not_and]
    intro e he
    exact hdef e he
  | some n =>
    simp only [List.mem_map, Option.some.injEq, exists_eq_right]
    rw [hmem]
    rfl

/-- C3 (witness): the registry `[A (dependencies [B]), B]`. -/
theorem resolveDependencyGraph_complete_witness :
    ∃ order, resolveDependencyGraph chainRegistry = .ok order ∧
      (order.map some).Perm (getAll ⟨chainRegistry, [], [], []⟩) :=
  resolveDependencyGraph_complete ⟨chainRegistry, [], [], []⟩ (by decide) (by decide)
    (by
      intro x d h
      obtain ⟨rfl, rfl⟩ := dep_chainRegistry h
      exact ⟨mkExtension "B" none, by simp [chainRegistry], rfl⟩)
    acyclic_chainRegistry

/-- C4 (counterexample): the registry `[A (dependencies [B])]` (the state after
`add(A)`) has no cycle and `B` is not registered; the resolution raises a
`TypeError` instead of returning a list. -/
theorem resolveDependencyGraph_dangling_raises :
    Acyclic danglingRegistry ∧ Dep danglingRegistry "A" "B" ∧
    ¬ Registered danglingRegistry "B" ∧
    resolveDependencyGraph danglingRegistry = .error .typeError ∧
    add ⟨[], [], [], []⟩ (mkExtension "A" (some ["B"])) false false =
      .ok ⟨danglingRegistry, [], [], []⟩ := by
  refine ⟨acyclic_danglingRegistry, ?_, ?_, by decide, by decide⟩
  · exact ⟨mkExtension "A" (some ["B"]), by simp [danglingRegistry], rfl, ["B"], rfl, by simp⟩
  · rintro ⟨e, he, hn⟩
    simp only [danglingRegistry, List.mem_singleton] at he
    subst he
    simp [mkExtension] at hn

/-- C4 (amended): in a registry without cycles in which a registered extension
declares a dependency that is not registered and is not a property name of
`Object.prototype`, `resolveDependencyGraph` raises a `TypeError`: the recursive
visit reads `name` on the missing descriptor. -/
theorem resolveDependencyGraph_dangling (l : List Extension) (hacyc : Acyclic l)
    (hdangling : ∃ x d, Dep l x d ∧ ¬ Registered l d ∧ d ∉ objectPrototypeKeys) :
    resolveDependencyGraph l = .error .typeError := by
  obtain ⟨x, d, ⟨e, he, hn, ds, hds, hd⟩, hnr, hnp⟩ := hdangling
  cases h : resolveDependencyGraph l with
  | error err =>
    cases err with
    | fuel => exact absurd h (resolveDependencyGraph_ne_fuel _)
    | typeError => rfl
    | error msg =>
      obtain ⟨y, hy⟩ := resolve_cycleError h
      exact absurd hy (hacyc y)
  | ok order =>
    rcases (resolve_ok h).2.2 e he x ds d hn hds hd with h1 | h1
    · exact absurd h1 hnp
    · exact absurd h1 hnr

/-- C4 (amended, witness): the registry `[A (dependencies [B])]`. -/
theorem resolveDependencyGraph_dangling_witness :
    resolveDependencyGraph danglingRegistry = .error .typeError :=
  resolveDependencyGraph_dangling danglingRegistry acyclic_danglingRegistry
    ⟨"A", "B", ⟨mkExtension "A" (some ["B"]), by simp [danglingRegistry], rfl, ["B"], rfl,
      by simp⟩, by
        rintro ⟨e, he, hn⟩
        simp only [danglingRegistry, List.mem_singleton] at he
        subst he
        simp [mkExtension] at hn, by decide⟩

/-- C5: when the registry resolves, the enabled list is duplicate-free, holds
registered names only and is dependency-closed, `disable(X)` of an enabled `X`
returns, and afterwards the enabled names are exactly the old ones other than
`X` and the extensions that depend on `X` directly or transitively; the list is
duplicate-free and in resolved order, `X` is not in it, and no extension that
declares `X` as a dependency is in it. -/
theorem disable_cascade (s : State) (X : String) (order : List String)
    (hres : resolveDependencyGraph s.list = .ok order) (hnodup : s.enabled.Nodup)
    (hreg : ∀ m ∈ s.enabled, Registered s.list m) (hclosed : DepClosed s.list s.enabled)
    (hX : X ∈ s.enabled) :
    ∃ s1, disable s (some X) = .ok s1 ∧
      (∀ m, m ∈ s1.enabled ↔
        m ∈ s.enabled ∧ m ≠ X ∧ ¬ Relation.TransGen (Declares s.list) m X) ∧
      s1.enabled.Nodup ∧ List.Sublist s1.enabled order ∧ X ∉ s1.enabled ∧
      (∀ A, Declares s.list A X → A ∉ s1.enabled) ∧ s1.list = s.list := by
  have hXreg := getExtension_ne_none_iff.2 (hreg X hX)
  obtain ⟨s1, hs1, hpost⟩ := disable_ok (n := some X) hres (fun _ => hXreg)
  have hen : isEnabled s (some X) = true := by simpa [isEnabled, getAllEnabled] using hX
  have hnd := resolve_ok hres
  have hXn : X ∉ s1.enabled :=
    hpost.not_enabled X rfl (List.nodup_iff_count_le_one.1 hnodup X)
  have hcl := hpost.closed hen
  have hiff : ∀ m, m ∈ s1.enabled ↔
      m ∈ s.enabled ∧ m ≠ X ∧ ¬ Relation.TransGen (Declares s.list) m X := by
    intro m
    constructor
    · intro hm
      refine ⟨hpost.enabled_subset hm, fun h => hXn (h ▸ hm), fun hr => hXn (depClosed_reach hcl hm hr)⟩
    · rintro ⟨hm, hne, htr⟩
      by_contra hmn
      rcases blame_reach hreg hclosed (hpost.blame X rfl m hm hmn) hm with h1 | h1
      · exact hne h1
      · exact htr h1
  refine ⟨s1, hs1, hiff, (hpost.enabled_sublist hen).nodup hnd.1, hpost.enabled_sublist hen,
    hXn, ?_, hpost.list_eq⟩
  intro A hA hmem
  exact ((hiff A).1 hmem).2.2 (Relation.TransGen.single hA)

/-- C5 (witness): `A` depends on `B`, and `A`, `B`, `C` are enabled; after
`disable('B')` neither `A` nor `B` is enabled. -/
theorem disable_cascade_witness :
    ∃ s1, disable cascadeState (some "B") = .ok s1 ∧
      (∀ m, m ∈ s1.enabled ↔
        m ∈ cascadeState.enabled ∧ m ≠ "B" ∧
          ¬ Relation.TransGen (Declares cascadeState.list) m "B") ∧
      s1.enabled.Nodup ∧ List.Sublist s1.enabled ["B", "A", "C"] ∧ "B" ∉ s1.enabled ∧
      (∀ A, Declares cascadeState.list A "B" → A ∉ s1.enabled) ∧
      s1.list = cascadeState.list :=
  disable_cascade cascadeState "B" ["B", "A", "C"] (by decide) (by decide) (by decide)
    (by decide) (by decide)

/-- C6 (counterexample): `A` declares a conflict with `B`, both are registered,
the registry resolves and `B` is enabled, yet `A` is enabled after
`enable('A', false)`: it was enabled before, and the call changes nothing.  The
state is reached from the empty one by `add(A)`, `add(B)`, `enable('A')`,
`enable('B')`. -/
theorem enable_conflict_already_enabled :
    resolveDependencyGraph conflictState.list = .ok ["A", "B"] ∧
    Registered conflictState.list "A" ∧ "B" ∈ conflictsOf conflictState.list "A" ∧
    "B" ∈ conflictState.enabled ∧
    (∃ s1, enable conflictState (some "A") false = .ok s1 ∧ "A" ∈ s1.enabled) ∧
    ∃ s1 s2 s3,
      add ⟨[], [], [], []⟩ conflictingA false false = .ok s1 ∧
      add s1 (mkExtension "B" none) false false = .ok s2 ∧
      enable s2 (some "A") false = .ok s3 ∧
      enable s3 (some "B") false = .ok conflictState := by
  refine ⟨by decide, by decide, by decide, by decide, ⟨conflictState, by decide, by decide⟩,
    ⟨[conflictingA], [], [], []⟩, ⟨[conflictingA, mkExtension "B" none], [], [], []⟩,
    ⟨[conflictingA, mkExtension "B" none], [], ["A"], []⟩,
    by decide, by decide, by decide, by decide⟩

/-- C6 (amended): for a registered `X` in a registry that resolves,
`enable(X, false)` returns and changes at most the enabled list.  If `X` was not
enabled, every declared dependency of `X` was enabled and no declared conflict
of `X` was enabled, the new enabled list is the resolved order filtered to the
previously enabled names and `X`, and `X` occurs in it exactly once; in every
other case the enabled list is unchanged.  In particular, if `X` declares a
conflict with an enabled `B` and `X` is not enabled, `X` is not enabled
afterwards. -/
theorem enable_postcondition (s : State) (X : String) (order : List String)
    (hres : resolveDependencyGraph s.list = .ok order) (hX : Registered s.list X) :
    ∃ s1, enable s (some X) false = .ok s1 ∧
      s1.list = s.list ∧ s1.init = s.init ∧ s1.log = s.log ∧
      (Enablable s X →
        s1.enabled = order.filter (fun n => decide (n ∈ s.enabled ++ [X])) ∧
        s1.enabled.count X = 1) ∧
      (¬ Enablable s X → s1.enabled = s.enabled) ∧
      (∀ B, B ∈ conflictsOf s.list X → B ∈ s.enabled → X ∉ s.enabled → X ∉ s1.enabled) := by
  rw [enable_registered hres hX]
  obtain ⟨hnd, hord, _⟩ := resolve_ok hres
  by_cases he : Enablable s X
  · rw [if_pos he]
    refine ⟨_, rfl, rfl, rfl, rfl, fun _ => ⟨rfl, ?_⟩, fun h => absurd he h, ?_⟩
    · apply List.count_eq_one_of_mem (hnd.filter _)
      exact List.mem_filter.2 ⟨(hord X).2 hX, by simp⟩
    · intro B hB hBe _
      exact absurd hBe (he.2.2 B hB)
  · rw [if_neg he]
    exact ⟨s, rfl, rfl, rfl, rfl, fun h => absurd h he, fun _ => rfl, fun _ _ _ hx => hx⟩

/-- C6 (amended, witness): `B` depends on the enabled `A`; `enable('B', false)`
makes the enabled list `['A', 'B']`. -/
theorem enable_postcondition_witness :
    ∃ s1, enable enableState (some "B") false = .ok s1 ∧
      s1.list = enableState.list ∧ s1.init = enableState.init ∧ s1.log = enableState.log ∧
      (Enablable enableState "B" →
        s1.enabled = ["A", "B"].filter (fun n => decide (n ∈ enableState.enabled ++ ["B"])) ∧
        s1.enabled.count "B" = 1) ∧
      (¬ Enablable enableState "B" → s1.enabled = enableState.enabled) ∧
      (∀ B, B ∈ conflictsOf enableState.list "B" → B ∈ enableState.enabled →
        "B" ∉ enableState.enabled → "B" ∉ s1.enabled) :=
  enable_postcondition enableState "B" ["A", "B"] (by decide) (by decide)

/-- C7: `add` of a descriptor whose name is registered returns and leaves the
state as it is; hence after a first `add` of a descriptor named `n` (whether
the call returns or raises), a second `add` of a descriptor named `n` changes
nothing, and when `n` was not registered before, exactly one registered entry
has the name `n`, and it is the first descriptor. -/
theorem add_idempotent (s : State) (d1 d2 : Extension) (n : String)
    (enable1 init1 enable2 init2 : Bool) (h1 : d1.name = some n) (h2 : d2.name = some n) :
    (getExtension s.list (some n) ≠ none → add s d2 enable2 init2 = .ok s) ∧
    add (endState (add s d1 enable1 init1)) d2 enable2 init2 =
      .ok (endState (add s d1 enable1 init1)) ∧
    (getExtension s.list (some n) = none →
      ((endState (add s d1 enable1 init1)).list.filter
        (fun e => decide (e.name = some n))).length = 1 ∧
      getExtension (endState (add s d1 enable1 init1)).list (some n) = some d1) := by
  have hfirst : getExtension s.list (some n) ≠ none → add s d2 enable2 init2 = .ok s :=
    fun h => add_registered (by rw [h2]; exact h) _ _
  by_cases hreg : getExtension s.list (some n) = none
  · have hp := pushed_spec h1 hreg
    have hlist : (endState (add s d1 enable1 init1)).list = (pushed s d1).list := by
      rw [add_fresh (by rw [h1]; exact hreg)]
      cases enable1 with
      | false => rfl
      | true => exact enable_list _ _ _
    have hget : getExtension (endState (add s d1 enable1 init1)).list (some n) = some d1 := by
      rw [hlist]; exact hp.2.2.2.1
    refine ⟨hfirst, ?_, fun _ => ⟨?_, hget⟩⟩
    · apply add_registered
      rw [h2, hget]
      simp
    · rw [hlist]
      exact hp.2.2.2.2.1
  · have hs : add s d1 enable1 init1 = .ok s := add_registered (by rw [h1]; exact hreg) _ _
    rw [hs]
    exact ⟨hfirst, hfirst hreg, fun h => absurd h hreg⟩

/-- C7 (witness): two descriptors named `A`, added to the empty registry. -/
theorem add_idempotent_witness :
    (getExtension ([] : List Extension) (some "A") ≠ none →
      add ⟨[], [], [], []⟩ (mkExtension "A" (some [])) true true = .ok ⟨[], [], [], []⟩) ∧
    add (endState (add ⟨[], [], [], []⟩ (mkExtension "A" none) true false))
        (mkExtension "A" (some [])) true true =
      .ok (endState (add ⟨[], [], [], []⟩ (mkExtension "A" none) true false)) ∧
    (getExtension ([] : List Extension) (some "A") = none →
      ((endState (add ⟨[], [], [], []⟩ (mkExtension "A" none) true false)).list.filter
        (fun e => decide (e.name = some "A"))).length = 1 ∧
      getExtension (endState (add ⟨[], [], [], []⟩ (mkExtension "A" none) true false)).list
        (some "A") = some (mkExtension "A" none)) :=
  add_idempotent ⟨[], [], [], []⟩ (mkExtension "A" none) (mkExtension "A" (some [])) "A"
    true false true true rfl rfl

/-- C8: `add(d, false, init)` of a descriptor with a defined name that is not
registered returns, changes neither the enabled list, nor `_init`, nor the
callbacks invoked, and the name is in `getAll()` afterwards; when the resolution
of the extended registry raises, `getAll()` is the previous sequence followed by
the name, and when it returns, `getAll()` is the resolved order. -/
theorem add_swallows_failed_reorder (s : State) (d : Extension) (n : String) (init : Bool)
    (hn : d.name = some n) (hfresh : getExtension s.list (some n) = none) :
    ∃ s1, add s d false init = .ok s1 ∧ some n ∈ getAll s1 ∧
      s1.enabled = s.enabled ∧ s1.init = s.init ∧ s1.log = s.log ∧
      (∀ err, resolveDependencyGraph (s.list ++ [d]) = .error err →
        getAll s1 = getAll s ++ [some n]) ∧
      (∀ order, resolveDependencyGraph (s.list ++ [d]) = .ok order →
        getAll s1 = order.map some) := by
  have hp := pushed_spec hn hfresh
  refine ⟨pushed s d, ?_, ?_, hp.1, hp.2.1, hp.2.2.1, ?_, hp.2.2.2.2.2.2⟩
  · rw [add_fresh (by rw [hn]; exact hfresh)]
    rfl
  · exact mem_getAll_of_filter hp.2.2.2.2.1
  · intro err herr
    unfold getAll
    rw [hp.2.2.2.2.2.1 err herr]
    simp [hn]

/-- C8 (witness): `C`, which depends on the unregistered `B`, is added to the
registry `[A]`; the reorder raises and `getAll()` becomes `['A', 'C']`. -/
theorem add_swallows_failed_reorder_witness :
    ∃ s1, add singleState (mkExtension "C" (some ["B"])) false true = .ok s1 ∧
      some "C" ∈ getAll s1 ∧
      s1.enabled = singleState.enabled ∧ s1.init = singleState.init ∧
      s1.log = singleState.log ∧
      (∀ err, resolveDependencyGraph (singleState.list ++ [mkExtension "C" (some ["B"])]) =
          .error err → getAll s1 = getAll singleState ++ [some "C"]) ∧
      (∀ order, resolveDependencyGraph (singleState.list ++ [mkExtension "C" (some ["B"])]) =
          .ok order → getAll s1 = order.map some) :=
  add_swallows_failed_reorder singleState (mkExtension "C" (some ["B"])) "C" true rfl
    (by decide)

/-- C9 (failing input): in the registry `[A]` (the state after `add(A)`) with
nothing enabled and nothing initialized, `remove('B')` of the unregistered name
`B` returns and deletes the registered extension `A`: `_list.indexOf(undefined)`
is `-1`, and `_list.splice(-1, 1)` removes the last element. -/
theorem remove_unregistered_deletes_last :
    add ⟨[], [], [], []⟩ (mkExtension "A" none) false false = .ok singleState ∧
    ¬ Registered singleState.list "B" ∧ "B" ∉ singleState.enabled ∧
    some "B" ∉ singleState.init ∧
    remove singleState (some "B") = .ok { singleState with list := [] } ∧
    getAll singleState = [some "A"] ∧ getAll { singleState with list := [] } = [] := by
  decide

/-- C10 (counterexample): in the registry `[A, B (dependencies [A])]` (the
state after `add(A)` and `add(B)`) the names are defined and distinct, every
declared dependency is registered and there is no cycle, yet `remove('A')`
raises a `TypeError`: the final `reorderExtensions()` meets the dependency `A`
of `B`, which is no longer registered. -/
theorem remove_with_dependent_raises :
    (∀ e ∈ dependentState.list, e.name ≠ none) ∧ UniqueNames dependentState.list ∧
    (∀ x d, Dep dependentState.list x d → Registered dependentState.list d) ∧
    Acyclic dependentState.list ∧ Registered dependentState.list "A" ∧
    remove dependentState (some "A") =
      .error (.typeError, { dependentState with list := [mkExtension "B" (some ["A"])] }) ∧
    (∃ s1, add ⟨[], [], [], []⟩ (mkExtension "A" none) false false = .ok s1 ∧
      add s1 (mkExtension "B" (some ["A"])) false false = .ok dependentState) := by
  have hdep : ∀ x d, Dep dependentState.list x d → x = "B" ∧ d = "A" := by
    rintro x d ⟨e, he, hn, ds, hds, hd⟩
    simp only [dependentState, mkExtension, List.mem_cons, List.mem_singleton,
      List.not_mem_nil, or_false] at he
    rcases he with rfl | rfl
    · simp at hds
    · simp only [Option.some.injEq] at hn hds
      subst hn hds
      simp only [List.mem_singleton] at hd
      exact ⟨rfl, hd⟩
  refine ⟨by decide, by decide, ?_, ?_, by decide, by decide,
    ⟨[mkExtension "A" none], [], [], []⟩, by decide, by decide⟩
  · intro x d h
    obtain ⟨_, rfl⟩ := hdep x d h
    decide
  · apply acyclic_of_rank (fun s => if s = "B" then 1 else 0)
    intro x y h
    obtain ⟨rfl, rfl⟩ := hdep x y h
    decide

/-- C10 (amended): in a registry with pairwise distinct names, every
declared dependency registered and no cycle, with duplicate-free enabled and
initialized lists, `remove(X)` of a registered `X` that no registered extension
declares as a dependency returns; afterwards `X` is absent from `getAll()`,
every other registered name is still in `getAll()`, and `X` is neither enabled
nor initialized. -/
theorem remove_registered (s : State) (X : String) (huniq : UniqueNames s.list)
    (hreg : ∀ x d, Dep s.list x d → Registered s.list d) (hacyc : Acyclic s.list)
    (hX : Registered s.list X) (hnodep : ∀ x, ¬ Dep s.list x X)
    (henabled : s.enabled.Nodup) (hinit : s.init.Nodup) :
    ∃ s1, remove s (some X) = .ok s1 ∧ some X ∉ getAll s1 ∧
      (∀ Y, Y ≠ X → Registered s.list Y → some Y ∈ getAll s1) ∧
      X ∉ s1.enabled ∧ some X ∉ s1.init := by
  obtain ⟨e, hg, hel, hname⟩ := getExtension_of_registered hX
  obtain ⟨order, hres⟩ := resolve_returns hreg hacyc
  obtain ⟨s1, hs1, hpost⟩ := disable_ok (n := some X) hres (fun _ => by rw [hg]; simp)
  -- the registry without the descriptor
  have hreg2 : ∀ x d, Dep (s.list.erase e) x d → Registered (s.list.erase e) d := by
    intro x d h
    have h1 := h.of_erase
    exact (hreg x d h1).erase hname (fun hd => hnodep x (hd ▸ h1))
  have hacyc2 : Acyclic (s.list.erase e) := by
    intro x hx
    exact hacyc x (Relation.TransGen.mono (fun _ _ h => Dep.of_erase h) hx)
  obtain ⟨order2, hres2⟩ := resolve_returns hreg2 hacyc2
  obtain ⟨s2, hs2, hall, hen2, hin2, _, _⟩ :=
    reorderExtensions_ok (s := { s1 with list := s.list.erase e }) hres2
  have hord2 := (resolve_ok hres2).2.1
  refine ⟨s2, ?_, ?_, ?_, ?_, ?_⟩
  · unfold remove
    rw [hs1, hg]
    simp only
    rw [hpost.list_eq, splice1_indexOf hel]
    exact hs2
  · rw [hall]
    intro hm
    obtain ⟨n, hn, hnx⟩ := List.mem_map.1 hm
    cases hnx
    obtain ⟨e1, he1, hn1⟩ := (hord2 X).1 hn
    have : e1 = e := huniq.eq (List.mem_of_mem_erase he1) hel (by rw [hn1, hname])
    subst this
    exact (List.Nodup.of_map _ huniq).not_mem_erase he1
  · intro Y hY hYreg
    rw [hall]
    exact List.mem_map.2 ⟨Y, (hord2 Y).2 (hYreg.erase hname hY), rfl⟩
  · rw [hen2]
    exact hpost.not_enabled X rfl (List.nodup_iff_count_le_one.1 henabled X)
  · rw [hin2]
    exact hpost.not_init (count_le_one_of_nodup hinit _)

/-- C10 (amended, witness): `remove('A')` in the registry `[B, A]` with `A`
enabled and initialized. -/
theorem remove_registered_witness :
    ∃ s1, remove removeState (some "A") = .ok s1 ∧ some "A" ∉ getAll s1 ∧
      (∀ Y, Y ≠ "A" → Registered removeState.list Y → some Y ∈ getAll s1) ∧
      "A" ∉ s1.enabled ∧ some "A" ∉ s1.init :=
  remove_registered removeState "A" (by decide)
    (by
      rintro x d ⟨e, he, hn, ds, hds, hd⟩
      simp only [removeState, mkExtension, List.mem_cons, List.mem_singleton,
        List.not_mem_nil, or_false] at he
      rcases he with rfl | rfl <;> simp at hds)
    (by
      apply acyclic_of_rank (fun _ => 0)
      rintro x d ⟨e, he, hn, ds, hds, hd⟩
      simp only [removeState, mkExtension, List.mem_cons, List.mem_singleton,
        List.not_mem_nil, or_false] at he
      rcases he with rfl | rfl <;> simp at hds)
    (by decide)
    (by
      rintro x ⟨e, he, hn, ds, hds, hd⟩
      simp only [removeState, mkExtension, List.mem_cons, List.mem_singleton,
        List.not_mem_nil, or_false] at he
      rcases he with rfl | rfl <;> simp at hds)
    (by decide) (by decide)

/-- C11 (failing input): in the registry `[A]` with nothing initialized,
`initializeExtension('A')` returns with `A` appended to `_init`, and a second
call changes nothing, but no callback has been invoked: the record of invoked
callbacks is still empty.  The function evaluates `Object.create(extension)`,
which builds an object and calls nothing, where `extension.create()` was meant. -/
theorem initializeExtension_invokes_no_create :
    Registered singleState.list "A" ∧ some "A" ∉ singleState.init ∧
    singleState.log = [] ∧
    initializeExtension singleState (some "A") =
      .ok { singleState with init := [some "A"] } ∧
    ({ singleState with init := [some "A"] } : State).log = [] ∧
    initializeExtension { singleState with init := [some "A"] } (some "A") =
      .ok { singleState with init := [some "A"] } := by
  decide

/-- C12: for a registered `X` with descriptor `e`: when `X` is not initialized,
`destroyExtension(X)` returns the state as it is; when `X` is in the
duplicate-free `_init`, it returns, has invoked the `destroy` callback of `e`
once (one event appended to the record of callbacks), has removed `X` from
`_init` and kept the other entries in their order, and changes nothing else;
a further `destroyExtension(X)` then changes nothing. -/
theorem destroyExtension_once (s : State) (X : String) (e : Extension)
    (hg : getExtension s.list (some X) = some e) :
    (some X ∉ s.init → destroyExtension s (some X) = .ok s) ∧
    (some X ∈ s.init → s.init.Nodup →
      ∃ s1, destroyExtension s (some X) = .ok s1 ∧
        s1.log = s.log ++ [Event.destroy e.destroy] ∧
        s1.init = s.init.filter (fun m => decide (m ≠ some X)) ∧ some X ∉ s1.init ∧
        s1.list = s.list ∧ s1.enabled = s.enabled ∧
        destroyExtension s1 (some X) = .ok s1) := by
  refine ⟨destroyExtension_not_initialized, ?_⟩
  intro hi hnd
  have hni : some X ∉ s.init.erase (some X) := hnd.not_mem_erase
  refine ⟨_, destroyExtension_initialized hg hi, rfl, erase_eq_filter_of_nodup _ hnd, hni,
    rfl, rfl, ?_⟩
  exact destroyExtension_not_initialized hni

/-- C12 (witness): `destroyExtension('A')` in a state whose `_init` is
`['B', 'A']`. -/
theorem destroyExtension_once_witness :
    (some "A" ∉ initializedState.init →
      destroyExtension initializedState (some "A") = .ok initializedState) ∧
    (some "A" ∈ initializedState.init → initializedState.init.Nodup →
      ∃ s1, destroyExtension initializedState (some "A") = .ok s1 ∧
        s1.log = initializedState.log ++ [Event.destroy (mkExtension "A" none).destroy] ∧
        s1.init = initializedState.init.filter (fun m => decide (m ≠ some "A")) ∧
        some "A" ∉ s1.init ∧
        s1.list = initializedState.list ∧ s1.enabled = initializedState.enabled ∧
        destroyExtension s1 (some "A") = .ok s1) :=
  destroyExtension_once initializedState "A" (mkExtension "A" none) (by decide)

/-- C13: when every enabled name is registered, `init()` returns and changes
only `_init`: the new `_init` is the old one followed by the enabled names that
were not initialized, once each and in the order of the enabled list (exactly
the not yet initialized entries of the enabled list when it is duplicate-free);
every enabled name is initialized afterwards. -/
theorem init_initializes_enabled (s : State) (hreg : ∀ n ∈ s.enabled, Registered s.list n) :
    ∃ s1 fresh, init s = .ok s1 ∧ s1.enabled = s.enabled ∧ s1.list = s.list ∧
      s1.log = s.log ∧ s1.init = s.init ++ fresh ∧
      fresh.Nodup ∧ List.Sublist fresh (s.enabled.map some) ∧
      (∀ m, m ∈ fresh ↔ m ∈ s.enabled.map some ∧ m ∉ s.init) ∧
      (s.enabled.Nodup →
        fresh = (s.enabled.map some).filter (fun m => decide (m ∉ s.init))) ∧
      (∀ n ∈ s.enabled, some n ∈ s1.init) := by
  obtain ⟨fresh, hf, hnd, hsub, hmem, heq⟩ := init_loop s.list s.enabled s rfl hreg
  refine ⟨_, fresh, hf, rfl, rfl, rfl, rfl, hnd, hsub, hmem, heq, ?_⟩
  intro n hn
  simp only [List.mem_append]
  by_cases hi : some n ∈ s.init
  · exact Or.inl hi
  · exact Or.inr ((hmem _).2 ⟨List.mem_map.2 ⟨n, hn, rfl⟩, hi⟩)

/-- C13 (witness): `A` and `B` are enabled and `B` is initialized; `init()`
makes `_init` equal to `['B', 'A']`. -/
theorem init_initializes_enabled_witness :
    ∃ s1 fresh, init initState = .ok s1 ∧ s1.enabled = initState.enabled ∧
      s1.list = initState.list ∧ s1.log = initState.log ∧
      s1.init = initState.init ++ fresh ∧
      fresh.Nodup ∧ List.Sublist fresh (initState.enabled.map some) ∧
      (∀ m, m ∈ fresh ↔ m ∈ initState.enabled.map some ∧ m ∉ initState.init) ∧
      (initState.enabled.Nodup →
        fresh = (initState.enabled.map some).filter (fun m => decide (m ∉ initState.init))) ∧
      (∀ n ∈ initState.enabled, some n ∈ s1.init) :=
  init_initializes_enabled initState (by decide)

/-- C14 (counterexample): `A` is registered and not initialized, all three
gates of `enable` pass for it, and `enable('A', true)` raises from the reordering
of the enabled list, because the registry (reached by adding `A` and then `C`,
which depends on the unregistered `B`) does not resolve. The call ends with `A`
neither enabled nor initialized. -/
theorem enable_initAfter_raises :
    add (pushed { list := [], init := [], enabled := [], log := [] } (mkExtension "A" none))
        (mkExtension "C" (some ["B"])) false false = .ok unresolvedState ∧
      Registered unresolvedState.list "A" ∧ some "A" ∉ unresolvedState.init ∧
      Enablable unresolvedState "A" ∧
      enable unresolvedState (some "A") true = .error (.typeError, unresolvedState) ∧
      some "A" ∉ (endState (enable unresolvedState (some "A") true)).init ∧
      isInitialized (endState (enable unresolvedState (some "A") true)) (some "A") = false := by
  decide

/-- C14 (amended): for a registered `X` that is not initialized,
`enable(X, true)` returns with `X` appended to `_init` whenever a gate fails or
the registry resolves. When a gate fails (`X` is enabled already, a declared
dependency is not enabled, or a declared conflict is enabled) the enabled list
is unchanged; when all gates pass and the registry resolves, the enabled list
becomes the resolved order restricted to the old list and `X`. When all gates
pass and the registry does not resolve, the call raises and changes nothing. -/
theorem enable_initAfter (s : State) (X : String) (hX : Registered s.list X)
    (hni : some X ∉ s.init) :
    (¬ Enablable s X →
      enable s (some X) true = .ok { s with init := s.init ++ [some X] }) ∧
    (X ∈ s.enabled →
      ∃ s1, enable s (some X) true = .ok s1 ∧ s1.enabled = s.enabled ∧ some X ∈ s1.init) ∧
    (X ∉ s.enabled →
      ((∃ d ∈ dependenciesOf s.list X, d ∉ s.enabled) ∨
        (∃ c ∈ conflictsOf s.list X, c ∈ s.enabled)) →
      ∃ s1, enable s (some X) true = .ok s1 ∧ s1.enabled = s.enabled ∧ X ∉ s1.enabled ∧
        some X ∈ s1.init) ∧
    (∀ order, resolveDependencyGraph s.list = .ok order →
      ∃ s1, enable s (some X) true = .ok s1 ∧ s1.init = s.init ++ [some X] ∧
        some X ∈ s1.init ∧ s1.list = s.list ∧
        (Enablable s X →
          s1.enabled = order.filter (fun n => decide (n ∈ s.enabled ++ [X])))) ∧
    (Enablable s X → ∀ err, resolveDependencyGraph s.list = .error err →
      enable s (some X) true = .error (err, s)) := by
  obtain ⟨e, hg, _, _⟩ := getExtension_of_registered hX
  have hfail : ¬ Enablable s X →
      enable s (some X) true = .ok { s with init := s.init ++ [some X] } := by
    intro hne
    rw [enable_eq hg, enableGate_not_enablable hg hne]
    simp only [if_true]
    exact initializeExtension_fresh hg hni
  refine ⟨hfail, ?_, ?_, ?_, ?_⟩
  · intro hx
    exact ⟨_, hfail (fun h => h.1 hx), rfl, by simp⟩
  · intro hx hgate
    refine ⟨_, hfail ?_, rfl, hx, by simp⟩
    rintro ⟨_, hd, hc⟩
    rcases hgate with ⟨d, hd1, hd2⟩ | ⟨c, hc1, hc2⟩
    · exact hd2 (hd d hd1)
    · exact hc c hc1 hc2
  · intro order hres
    by_cases he : Enablable s X
    · rw [enable_eq hg, enableGate_enablable hg he, hres]
      simp only [if_true]
      exact ⟨_, initializeExtension_fresh
        (s := { s with enabled := order.filter (fun n => decide (n ∈ s.enabled ++ [X])) }) hg hni,
        rfl, by simp, rfl, fun _ => rfl⟩
    · exact ⟨_, hfail he, rfl, by simp, rfl, fun h => absurd h he⟩
  · intro he err hres
    rw [enable_eq hg, enableGate_enablable hg he, hres]

/-- C14 (witness): `enable('B', true)` where `B` is registered and not
initialized and its dependency `A` is not enabled: `B` is initialized and the
enabled list stays empty. -/
theorem enable_initAfter_witness :
    Registered dependentState.list "B" ∧ some "B" ∉ dependentState.init ∧
      enable dependentState (some "B") true =
        .ok { dependentState with init := dependentState.init ++ [some "B"] } :=
  ⟨by decide, by decide,
    (enable_initAfter dependentState "B" (by decide) (by decide)).1 (by decide)⟩

/-- C15: for a registered `X` with descriptor `e` that is not enabled,
`disable(X)` returns and leaves the enabled list and the registry as they are.
When `X` is not initialized nothing changes at all; when `X` is initialized, the
`destroy` callback of `e` is invoked once and the entry `X` is removed from
`_init`, the other entries staying as they are (so that `X` is no longer
initialized when `_init` is duplicate-free). -/
theorem disable_not_enabled (s : State) (X : String) (e : Extension)
    (hg : getExtension s.list (some X) = some e) (hne : X ∉ s.enabled) :
    ∃ s1, disable s (some X) = .ok s1 ∧ s1.enabled = s.enabled ∧ s1.list = s.list ∧
      (some X ∉ s.init → s1 = s) ∧
      (some X ∈ s.init →
        s1.log = s.log ++ [Event.destroy e.destroy] ∧ s1.init = s.init.erase (some X) ∧
        (s.init.Nodup →
          s1.init = s.init.filter (fun m => decide (m ≠ some X)) ∧ some X ∉ s1.init)) := by
  have hen : isEnabled s (some X) = false := by simpa [isEnabled, getAllEnabled] using hne
  unfold disable
  rw [disableFuel_not_enabled _ hen]
  unfold disableEnd
  by_cases hi : some X ∈ s.init
  · rw [if_pos ((isInitialized_iff s _).2 hi), destroyExtension_initialized hg hi]
    refine ⟨_, rfl, rfl, rfl, fun h => absurd hi h, fun _ => ⟨rfl, rfl, fun hnd => ?_⟩⟩
    exact ⟨erase_eq_filter_of_nodup _ hnd, hnd.not_mem_erase⟩
  · have : ¬ isInitialized s (some X) = true := fun h => hi ((isInitialized_iff s _).1 h)
    rw [if_neg this]
    exact ⟨s, rfl, rfl, rfl, fun _ => rfl, fun h => absurd h hi⟩

/-- C15 (witness): `disable('A')` where `A` is initialized and not enabled. -/
theorem disable_not_enabled_witness :
    ∃ s1, disable initializedState (some "A") = .ok s1 ∧
      s1.enabled = initializedState.enabled ∧ s1.list = initializedState.list ∧
      (some "A" ∉ initializedState.init → s1 = initializedState) ∧
      (some "A" ∈ initializedState.init →
        s1.log = initializedState.log ++ [Event.destroy (mkExtension "A" none).destroy] ∧
        s1.init = initializedState.init.erase (some "A") ∧
        (initializedState.init.Nodup →
          s1.init = initializedState.init.filter (fun m => decide (m ≠ some "A")) ∧
          some "A" ∉ s1.init)) :=
  disable_not_enabled initializedState "A" (mkExtension "A" none) (by decide) (by decide)

/-- C16 (failing input): `X` is registered and enabled, its declared
dependency `Z` is neither registered nor enabled, and `checkDependencies('X')`
raises a `TypeError` instead of returning false: the call of `disable` that it
makes to force `X` off raises from the resolution of the registry. `X` is still
enabled when the call ends. -/
theorem checkDependencies_raises :
    Registered staleDepState.list "X" ∧ "X" ∈ staleDepState.enabled ∧
      dependenciesOf staleDepState.list "X" = ["Z"] ∧
      ¬ Registered staleDepState.list "Z" ∧ "Z" ∉ staleDepState.enabled ∧
      checkDependencies staleDepState (some "X") = .error (.typeError, staleDepState) := by
  decide

/-- C17 (counterexample): the enabled list holds `S`, for which no descriptor
is registered, and the registered `B`. `enable('A', false)` succeeds in enabling
the registered `A` and `S` is gone from the enabled list; `disable('B')` of the
enabled `B`, which is not `S`, returns and `S` is gone as well. -/
theorem stale_names_pruned_example :
    "S" ∈ staleState.enabled ∧ ¬ Registered staleState.list "S" ∧
      Registered staleState.list "A" ∧ "A" ∉ staleState.enabled ∧
      enable staleState (some "A") false = .ok { staleState with enabled := ["A", "B"] } ∧
      "B" ∈ staleState.enabled ∧ "B" ≠ "S" ∧
      disable staleState (some "B") = .ok { staleState with enabled := [] } := by
  decide

/-- C17 (amended): in a state whose enabled list holds a name `S` for which no
descriptor is registered, every call that rewrites the enabled list prunes `S`:
after an `enable(X, false)` that enables `X`, and after a returning `disable(Y)`
of an enabled `Y`, the name `S` is not in the enabled list. The calls that do
not rewrite the list leave `S` in it: an `enable(X, false)` that returns without
enabling `X` changes nothing, and a returning `disable(Y)` of a name that is not
enabled leaves the enabled list as it is. When the registry resolves,
`enable(X, false)` of a registered `X` that passes the gates returns;
`disable(Y)` of an enabled `Y` returns when `Y` is registered or not
initialized, and when `Y` is initialized and has no descriptor it raises a
`TypeError` after the enabled list has been rewritten; either way `S` is not in
the enabled list when `disable(Y)` ends. -/
theorem stale_names_pruned (s : State) (S : String) (hS : S ∈ s.enabled)
    (hnr : ¬ Registered s.list S) :
    (∀ X s1, enable s (some X) false = .ok s1 → X ∉ s.enabled → X ∈ s1.enabled →
      S ∉ s1.enabled) ∧
    (∀ Y s1, disable s (some Y) = .ok s1 → Y ∈ s.enabled → S ∉ s1.enabled) ∧
    (∀ X s1, enable s (some X) false = .ok s1 → X ∈ s.enabled ∨ X ∉ s1.enabled →
      s1 = s ∧ S ∈ s1.enabled) ∧
    (∀ Y s1, disable s (some Y) = .ok s1 → Y ∉ s.enabled →
      s1.enabled = s.enabled ∧ S ∈ s1.enabled) ∧
    (∀ order, resolveDependencyGraph s.list = .ok order →
      (∀ X, Registered s.list X → Enablable s X →
        ∃ s1, enable s (some X) false = .ok s1 ∧ X ∈ s1.enabled ∧ S ∉ s1.enabled) ∧
      (∀ Y, Y ∈ s.enabled → (some Y ∈ s.init → Registered s.list Y) →
        ∃ s1, disable s (some Y) = .ok s1 ∧ S ∉ s1.enabled) ∧
      (∀ Y, Y ∈ s.enabled → some Y ∈ s.init → ¬ Registered s.list Y →
        ∃ s2, disable s (some Y) = .error (.typeError, s2) ∧ S ∉ s2.enabled ∧
          s2.list = s.list) ∧
      (∀ Y, Y ∈ s.enabled → S ∉ (endState (disable s (some Y))).enabled)) := by
  have hord : ∀ order, resolveDependencyGraph s.list = .ok order → S ∉ order :=
    fun order hres h => hnr (((resolve_ok hres).2.1 S).1 h)
  have hdis : ∀ Y s1, disable s (some Y) = .ok s1 → Y ∈ s.enabled → S ∉ s1.enabled := by
    intro Y s1 h hY hS1
    have he : isEnabled s (some Y) = true := by simpa [isEnabled, getAllEnabled] using hY
    obtain ⟨order, hres, hsub⟩ := (disable_returns h).2.2.2.2 he
    exact hord order hres (hsub.subset hS1)
  refine ⟨?_, hdis, ?_, ?_, ?_⟩
  · intro X s1 h hX hX1 hS1
    rcases (enable_false_returns h).2 with ⟨_, rfl⟩ | ⟨_, order, hres, rfl⟩
    · exact hX hX1
    · exact hord order hres (List.mem_filter.1 hS1).1
  · intro X s1 h hX
    rcases enable_false_returns h with ⟨hreg, ⟨_, rfl⟩ | ⟨he, order, hres, rfl⟩⟩
    · exact ⟨rfl, hS⟩
    · rcases hX with hX | hX
      · exact absurd hX he.1
      · exact absurd (List.mem_filter.2 ⟨((resolve_ok hres).2.1 X).2 hreg, by simp⟩) hX
  · intro Y s1 h hY
    have he : isEnabled s (some Y) = false := by simpa [isEnabled, getAllEnabled] using hY
    have := (disable_returns h).2.2.2.1 he
    exact ⟨this, this ▸ hS⟩
  · intro order hres
    refine ⟨?_, ?_, ?_, ?_⟩
    · intro X hreg he
      refine ⟨_, (enable_registered hres hreg).trans (by rw [if_pos he]), ?_, ?_⟩
      · exact List.mem_filter.2 ⟨((resolve_ok hres).2.1 X).2 hreg, by simp⟩
      · exact fun h => hord order hres (List.mem_filter.1 h).1
    · intro Y hY hinit
      obtain ⟨s1, hs1, _⟩ := disable_ok (n := some Y) hres (fun hi =>
        getExtension_ne_none_iff.2 (hinit ((isInitialized_iff s _).1 hi)))
      exact ⟨s1, hs1, hdis Y s1 hs1 hY⟩
    · intro Y hY hi hnreg
      obtain ⟨s2, hs2, hsub, hl, hkeep⟩ := disable_enabled_shape hY hres
      refine ⟨s2, ?_, fun h => hord order hres (hsub.subset h), hl⟩
      rw [hs2]
      unfold disableEnd destroyExtension
      have hi2 : isInitialized s2 (some Y) = true :=
        (isInitialized_iff s2 _).2 (hkeep Y hnreg hi)
      have hg : getExtension s2.list (some Y) = none := by
        rw [hl]
        by_contra h
        exact hnreg (getExtension_ne_none_iff.1 h)
      rw [if_pos hi2, if_pos hi2, hg]
    · intro Y hY
      obtain ⟨s2, hs2, hsub, _, _⟩ := disable_enabled_shape hY hres
      rw [hs2, (endState_disableEnd s2 (some Y)).1]
      exact fun h => hord order hres (hsub.subset h)

/-- C17 (witness): the state in which `S` is enabled without a descriptor. -/
theorem stale_names_pruned_witness :
    "S" ∈ staleState.enabled ∧ ¬ Registered staleState.list "S" ∧
      ∀ Y s1, disable staleState (some Y) = .ok s1 → Y ∈ staleState.enabled →
        "S" ∉ s1.enabled :=
  ⟨by decide, by decide, (stale_names_pruned staleState "S" (by decide) (by decide)).2.1⟩

/-- C18: `initializeExtension(name)` of a name that is neither registered nor
initialized raises a `TypeError` and leaves the state, `_init` included, as it
is. -/
theorem initializeExtension_unregistered (s : State) (name : String)
    (hnr : ¬ Registered s.list name) (hni : some name ∉ s.init) :
    initializeExtension s (some name) = .error (.typeError, s) := by
  unfold initializeExtension
  have h1 : isInitialized s (some name) = false := by
    simpa [isInitialized, getAllInitialized] using hni
  have h2 : getExtension s.list (some name) = none := by
    by_contra h
    exact hnr (getExtension_ne_none_iff.1 h)
  simp [h1, h2]

/-- C18 (witness): `initializeExtension('B')` in the registry `[A]`. -/
theorem initializeExtension_unregistered_witness :
    initializeExtension singleState (some "B") = .error (.typeError, singleState) :=
  initializeExtension_unregistered singleState "B" (by decide) (by decide)

/-- C19 (counterexample): two sequences of returning calls from the initial
state that end with an initialized name that is not enabled. In the first,
`add(A, true, true)` registers `A`, whose dependency `B` is not enabled: the
gate of `enable` fails and `A` is initialized all the same. In the second no
call force-initializes: `add(Z, true, true)` enables and initializes `Z`,
`remove('nope')` of a name that is not registered deletes the descriptor of `Z`,
and after `add(Y)` the call `enable('Y')` drops `Z` from the enabled list, while
`Z` stays in `_init`. -/
theorem initialized_not_enabled :
    (add ⟨[], [], [], []⟩ (mkExtension "A" (some ["B"])) true true =
        .ok ⟨[mkExtension "A" (some ["B"])], [some "A"], [], []⟩ ∧
      isInitialized ⟨[mkExtension "A" (some ["B"])], [some "A"], [], []⟩ (some "A") = true ∧
      isEnabled ⟨[mkExtension "A" (some ["B"])], [some "A"], [], []⟩ (some "A") = false) ∧
    (add ⟨[], [], [], []⟩ (mkExtension "Z" none) true true =
        .ok ⟨[mkExtension "Z" none], [some "Z"], ["Z"], []⟩ ∧
      remove ⟨[mkExtension "Z" none], [some "Z"], ["Z"], []⟩ (some "nope") =
        .ok ⟨[], [some "Z"], ["Z"], []⟩ ∧
      add ⟨[], [some "Z"], ["Z"], []⟩ (mkExtension "Y" none) false false =
        .ok ⟨[mkExtension "Y" none], [some "Z"], ["Z"], []⟩ ∧
      enable ⟨[mkExtension "Y" none], [some "Z"], ["Z"], []⟩ (some "Y") false =
        .ok ⟨[mkExtension "Y" none], [some "Z"], ["Y"], []⟩ ∧
      isInitialized ⟨[mkExtension "Y" none], [some "Z"], ["Y"], []⟩ (some "Z") = true ∧
      isEnabled ⟨[mkExtension "Y" none], [some "Z"], ["Y"], []⟩ (some "Z") = false) := by
  decide

/-- C19 (amended): in every state reachable from the initial state by returning
calls of `add`, `remove`, `enable`, `disable` and `init`, where every call with
`initAfter` (an `enable(X, true)`, or an `add(d, true, true)` of a descriptor
whose name is not registered yet) ends with the extension enabled and `remove`
is called only on names for which a descriptor is registered, every name in
`_init` is in the enabled list. In these states every enabled name is registered
as well, and neither list repeats a name. -/
theorem initialized_subset_enabled (s : State) (h : CoupledReachable s) :
    (∀ m ∈ s.init, ∃ k, m = some k ∧ k ∈ s.enabled) ∧
    (∀ n, isInitialized s n = true → isEnabled s n = true) ∧
    (∀ k ∈ s.enabled, Registered s.list k) ∧ s.init.Nodup ∧ s.enabled.Nodup := by
  have hc := coupledReachable_consistent h
  refine ⟨hc.init_enabled, ?_, hc.enabled_registered, hc.init_nodup, hc.enabled_nodup⟩
  intro n hn
  obtain ⟨k, rfl, hk⟩ := hc.init_enabled n ((isInitialized_iff s n).1 hn)
  simpa [isEnabled, getAllEnabled] using hk

/-- C19 (witness): the state after `add(A, true, true)` from the initial state,
in which `A` is enabled and initialized. -/
theorem initialized_subset_enabled_witness :
    CoupledReachable ⟨[mkExtension "A" none], [some "A"], ["A"], []⟩ ∧
      ∀ n, isInitialized ⟨[mkExtension "A" none], [some "A"], ["A"], []⟩ n = true →
        isEnabled ⟨[mkExtension "A" none], [some "A"], ["A"], []⟩ n = true :=
  ⟨.byAdd (s := ⟨[], [], [], []⟩) (mkExtension "A" none) true true (.start _ rfl rfl rfl)
      (by decide) (by decide),
    (initialized_subset_enabled ⟨[mkExtension "A" none], [some "A"], ["A"], []⟩
      (.byAdd (s := ⟨[], [], [], []⟩) (mkExtension "A" none) true true (.start _ rfl rfl rfl)
        (by decide) (by decide))).2.1⟩

/-- C20 (counterexample): from the initial state, `add(A)` where `A` declares
a conflict with `B`, `add(B)`, `enable('A')`, `enable('B')` all return, and both
`A` and `B` are enabled at the end although `A` declares `B` in its conflicts:
`enable('B')` checks the conflicts that `B` declares, and `B` declares none. -/
theorem conflict_both_enabled :
    add ⟨[], [], [], []⟩ conflictingA false false = .ok ⟨[conflictingA], [], [], []⟩ ∧
      add ⟨[conflictingA], [], [], []⟩ (mkExtension "B" none) false false =
        .ok ⟨[conflictingA, mkExtension "B" none], [], [], []⟩ ∧
      enable ⟨[conflictingA, mkExtension "B" none], [], [], []⟩ (some "A") false =
        .ok ⟨[conflictingA, mkExtension "B" none], [], ["A"], []⟩ ∧
      enable ⟨[conflictingA, mkExtension "B" none], [], ["A"], []⟩ (some "B") false =
        .ok conflictState ∧
      GateReachable conflictState ∧
      "A" ∈ conflictState.enabled ∧ "B" ∈ conflictState.enabled ∧
      "B" ∈ conflictsOf conflictState.list "A" := by
  have h1 : add ⟨[], [], [], []⟩ conflictingA false false =
      .ok ⟨[conflictingA], [], [], []⟩ := by decide
  have h2 : add ⟨[conflictingA], [], [], []⟩ (mkExtension "B" none) false false =
      .ok ⟨[conflictingA, mkExtension "B" none], [], [], []⟩ := by decide
  have h3 : enable ⟨[conflictingA, mkExtension "B" none], [], [], []⟩ (some "A") false =
      .ok ⟨[conflictingA, mkExtension "B" none], [], ["A"], []⟩ := by decide
  have h4 : enable ⟨[conflictingA, mkExtension "B" none], [], ["A"], []⟩ (some "B") false =
      .ok conflictState := by decide
  exact ⟨h1, h2, h3, h4,
    .byEnable _ (.byEnable _ (.byAdd _ (.byAdd _ (.start _ rfl) h1) h2) h3) h4,
    by decide, by decide, by decide⟩

/-- C20 (amended): in every state reachable from an empty enabled list by
returning calls of `add(d, false, false)`, `enable(X, false)` and `disable(X)`,
no two distinct enabled extensions declare each other as a conflict: when an
enabled `A` declares a conflict with an enabled `B`, then `B` does not declare a
conflict with `A` (and `A` was enabled before `B`, whose own conflicts were the
only ones checked). Moreover an `enable(X, false)` that enables `X` ends with
no declared conflict of `X`, other than `X` itself, enabled. -/
theorem conflicts_exclusion (s : State) (h : GateReachable s) :
    (∀ A B, A ∈ s.enabled → B ∈ s.enabled → A ≠ B →
      B ∈ conflictsOf s.list A → A ∉ conflictsOf s.list B) ∧
    (∀ X s1, enable s (some X) false = .ok s1 → X ∉ s.enabled → X ∈ s1.enabled →
      ∀ c ∈ conflictsOf s1.list X, c ≠ X → c ∉ s1.enabled) := by
  refine ⟨(gateReachable_inv h).2, ?_⟩
  intro X s1 hen hX hX1 c hc hcX hc1
  rcases (enable_false_returns hen).2 with ⟨_, rfl⟩ | ⟨he, order, _, rfl⟩
  · exact hX hX1
  · have := (List.mem_filter.1 hc1).2
    simp only [decide_eq_true_eq, List.mem_append, List.mem_singleton] at this
    rcases this with h1 | h1
    · exact he.2.2 c hc h1
    · exact hcX h1

/-- C20 (witness): the state reached by enabling `A`, which declares a conflict
with `B`, and then `B`, which declares none. -/
theorem conflicts_exclusion_witness :
    GateReachable conflictState ∧
      ∀ A B, A ∈ conflictState.enabled → B ∈ conflictState.enabled → A ≠ B →
        B ∈ conflictsOf conflictState.list A → A ∉ conflictsOf conflictState.list B :=
  ⟨.byEnable (s := ⟨[conflictingA, mkExtension "B" none], [], ["A"], []⟩) (some "B")
      (.byEnable (s := ⟨[conflictingA, mkExtension "B" none], [], [], []⟩) (some "A")
        (.start _ rfl) (by decide)) (by decide),
    (conflicts_exclusion conflictState
      (.byEnable (s := ⟨[conflictingA, mkExtension "B" none], [], ["A"], []⟩) (some "B")
        (.byEnable (s := ⟨[conflictingA, mkExtension "B" none], [], [], []⟩) (some "A")
          (.start _ rfl) (by decide)) (by decide))).1⟩

/-- C21: when the registry resolves and the enabled list is duplicate-free,
holds registered names only, is dependency-closed and is stored in resolved
order, then for a registered `X` that passes the three gates `enable(X, false)`
returns with `X` enabled, the following `disable(X)` returns, and the enabled
list and the registry are as before the two calls. When `X` is not initialized
the whole state, `_init` included, is as before, and no callback was invoked. -/
theorem enable_disable_roundtrip (s : State) (X : String) (order : List String)
    (hres : resolveDependencyGraph s.list = .ok order) (_hnd : s.enabled.Nodup)
    (hreg : ∀ n ∈ s.enabled, Registered s.list n) (hclosed : DepClosed s.list s.enabled)
    (hord : s.enabled = order.filter (fun n => decide (n ∈ s.enabled)))
    (hX : Registered s.list X) (hne : X ∉ s.enabled)
    (hdeps : ∀ d ∈ dependenciesOf s.list X, d ∈ s.enabled)
    (hconf : ∀ c ∈ conflictsOf s.list X, c ∉ s.enabled) :
    ∃ s1 s2, enable s (some X) false = .ok s1 ∧ X ∈ s1.enabled ∧
      disable s1 (some X) = .ok s2 ∧ s2.enabled = s.enabled ∧ s2.list = s.list ∧
      (some X ∉ s.init → s2.init = s.init ∧ s2 = s) := by
  have hen : Enablable s X := ⟨hne, hdeps, hconf⟩
  obtain ⟨hond, hom, _⟩ := resolve_ok hres
  have hXo : X ∈ order := (hom X).2 hX
  have hs1 := enable_registered hres hX
  rw [if_pos hen] at hs1
  have hX1 : X ∈ order.filter (fun n => decide (n ∈ s.enabled ++ [X])) :=
    List.mem_filter.2 ⟨hXo, by simp⟩
  have hE2 : order.filter (fun e => decide (e ∈
      (order.filter (fun n => decide (n ∈ s.enabled ++ [X]))).erase X)) = s.enabled := by
    rw [hord]
    apply List.filter_congr
    intro n hn
    rw [← hord]
    have hnd1 : (order.filter (fun n => decide (n ∈ s.enabled ++ [X]))).Nodup := hond.filter _
    rw [decide_eq_decide, hnd1.mem_erase_iff, List.mem_filter]
    simp only [decide_eq_true_eq, List.mem_append, List.mem_singleton]
    constructor
    · rintro ⟨h1, _, h2 | h2⟩
      · exact h2
      · exact absurd h2 h1
    · intro h
      exact ⟨fun h1 => hne (h1 ▸ h), hn, Or.inl h⟩
  have hdis : disable { s with enabled := order.filter (fun n => decide (n ∈ s.enabled ++ [X])) }
      (some X) = disableEnd s (some X) := by
    unfold disable
    rw [disableFuel_enabled (s := { s with enabled := _ }) _ hX1 hres]
    simp only [hE2]
    rw [forEach_fixed (a := s) s.enabled
      (fun m hm => recheck_closed _ (hreg m hm) (fun d hd => hclosed m hm d hd))]
  by_cases hi : some X ∈ s.init
  · obtain ⟨e, hg, _, _⟩ := getExtension_of_registered hX
    refine ⟨_, State.mk s.list (s.init.erase (some X)) s.enabled
      (s.log ++ [Event.destroy e.destroy]), hs1, hX1, ?_, rfl, rfl, fun h => absurd hi h⟩
    rw [hdis]
    unfold disableEnd
    rw [if_pos ((isInitialized_iff s _).2 hi), destroyExtension_initialized hg hi]
  · refine ⟨_, s, hs1, hX1, ?_, rfl, rfl, fun _ => ⟨rfl, rfl⟩⟩
    rw [hdis]
    unfold disableEnd
    rw [if_neg (fun h => hi ((isInitialized_iff s _).1 h))]

/-- C21 (witness): `B`, which depends on the enabled `A`, is enabled and then
disabled; the enabled list is `['A']` again. -/
theorem enable_disable_roundtrip_witness :
    ∃ s1 s2, enable enableState (some "B") false = .ok s1 ∧ "B" ∈ s1.enabled ∧
      disable s1 (some "B") = .ok s2 ∧ s2.enabled = enableState.enabled ∧
      s2.list = enableState.list ∧
      (some "B" ∉ enableState.init → s2.init = enableState.init ∧ s2 = enableState) :=
  enable_disable_roundtrip enableState "B" ["A", "B"] (by decide) (by decide) (by decide)
    (by decide) (by decide) (by decide) (by decide) (by decide) (by decide)

/-- C22 (failing input): `X` depends on `constructor`, both are registered
(`add(X)`, then `add(constructor)`) and `constructor` is enabled; the invariant
holds. `enable('X', false)` returns and stores `['X', 'constructor']`: the
declared dependency `constructor` of the enabled `X` is stored after `X`, and
the invariant does not hold any more. The resolved order puts `X` first because
`visited['constructor']` reads the inherited `Object.prototype.constructor`. -/
theorem enable_breaks_stored_order :
    add (pushed ⟨[], [], [], []⟩ (mkExtension "X" (some ["constructor"])))
        (mkExtension "constructor" none) false false = .ok ⟨prototypeRegistry, [], [], []⟩ ∧
      enable ⟨prototypeRegistry, [], [], []⟩ (some "constructor") false =
        .ok ⟨prototypeRegistry, [], ["constructor"], []⟩ ∧
      EnabledInv ⟨prototypeRegistry, [], ["constructor"], []⟩ ∧
      UniqueNames prototypeRegistry ∧
      enable ⟨prototypeRegistry, [], ["constructor"], []⟩ (some "X") false =
        .ok ⟨prototypeRegistry, [], ["X", "constructor"], []⟩ ∧
      dependenciesOf prototypeRegistry "X" = ["constructor"] ∧
      ¬ EnabledInv ⟨prototypeRegistry, [], ["X", "constructor"], []⟩ := by
  decide

/-- C23: let `X` be registered in a registry on which `resolveDependencyGraph`
raises `err`. `enable(X, init)` resolves the registry exactly when the three
gates pass, and then the call raises `err` and ends in the state in which it
started: the enabled list, the registry, `_init` and the record of invoked
callbacks are unchanged. `disable(X)` resolves the registry exactly when `X` is
enabled, and then it raises `err` and ends in the state in which it started.
In the other cases no resolution is made: the calls return. -/
theorem resolution_failure_atomic (s : State) (X : String) (err : JsError)
    (hX : Registered s.list X) (hres : resolveDependencyGraph s.list = .error err) :
    (∀ init, Enablable s X →
      enable s (some X) init = .error (err, s) ∧
      (endState (enable s (some X) init)).enabled = s.enabled ∧
      (endState (enable s (some X) init)).list = s.list ∧
      (endState (enable s (some X) init)).init = s.init ∧
      (endState (enable s (some X) init)).log = s.log) ∧
    (X ∈ s.enabled →
      disable s (some X) = .error (err, s) ∧
      (endState (disable s (some X))).enabled = s.enabled ∧
      (endState (disable s (some X))).list = s.list ∧
      (endState (disable s (some X))).init = s.init ∧
      (endState (disable s (some X))).log = s.log) ∧
    (∀ init, ¬ Enablable s X →
      ∃ s1, enable s (some X) init = .ok s1 ∧ s1.enabled = s.enabled ∧ s1.list = s.list) ∧
    (X ∉ s.enabled →
      ∃ s1, disable s (some X) = .ok s1 ∧ s1.enabled = s.enabled ∧ s1.list = s.list) := by
  obtain ⟨e, hg, _, _⟩ := getExtension_of_registered hX
  refine ⟨?_, ?_, ?_, ?_⟩
  · intro init he
    have h : enable s (some X) init = .error (err, s) := by
      rw [enable_eq hg, enableGate_enablable hg he, hres]
    rw [h]
    exact ⟨rfl, rfl, rfl, rfl, rfl⟩
  · intro hx
    have h : disable s (some X) = .error (err, s) := by
      unfold disable
      exact disableFuel_enabled_error _ hx hres
    rw [h]
    exact ⟨rfl, rfl, rfl, rfl, rfl⟩
  · intro init hne
    rw [enable_eq hg, enableGate_not_enablable hg hne]
    cases init with
    | false => exact ⟨s, rfl, rfl, rfl⟩
    | true =>
      simp only [if_true]
      by_cases hi : some X ∈ s.init
      · exact ⟨s, initializeExtension_initialized hi, rfl, rfl⟩
      · exact ⟨_, initializeExtension_fresh hg hi, rfl, rfl⟩
  · intro hx
    have hen : isEnabled s (some X) = false := by simpa [isEnabled, getAllEnabled] using hx
    unfold disable
    rw [disableFuel_not_enabled _ hen]
    unfold disableEnd
    by_cases hi : some X ∈ s.init
    · rw [if_pos ((isInitialized_iff s _).2 hi), destroyExtension_initialized hg hi]
      exact ⟨_, rfl, rfl, rfl⟩
    · rw [if_neg (fun h => hi ((isInitialized_iff s _).1 h))]
      exact ⟨s, rfl, rfl, rfl⟩

/-- C23 (witness): `enable('A', true)` in a registry that does not resolve
(`C` depends on the unregistered `B`). -/
theorem resolution_failure_atomic_witness :
    Registered unresolvedState.list "A" ∧
      resolveDependencyGraph unresolvedState.list = .error .typeError ∧
      Enablable unresolvedState "A" ∧
      enable unresolvedState (some "A") true = .error (.typeError, unresolvedState) :=
  ⟨by decide, by decide, by decide,
    ((resolution_failure_atomic unresolvedState "A" .typeError (by decide) (by decide)).1
      true (by decide)).1⟩

/-- C24 (counterexample): the registry is `[A]`, nothing is enabled and the key
`'TD.extensions.enabled'` is absent from the storage, so that the enabled list
has length 0. `disable('A')` returns and has written the persisted array once:
its first statement calls `getAllEnabled()`, which writes `[]` back for the
absent key. -/
theorem disable_cold_store_writes :
    getAllEnabledCount ⟨singleState, false, 0⟩ = ([], ⟨singleState, true, 1⟩) ∧
      singleState.enabled.length = 0 ∧
      (∀ n ∈ singleState.enabled, Registered singleState.list n) ∧
      disableCount (singleState.enabled.length + 1) ⟨singleState, false, 0⟩ (some "A") =
        .ok ⟨singleState, true, 1⟩ ∧
      writes (disableCount (singleState.enabled.length + 1) ⟨singleState, false, 0⟩
        (some "A")) = 1 := by
  decide

/-- C24 (amended): `disable(X)` finishes: every fuel above the length of the
enabled list gives the same outcome, which is not an exhausted fuel, so the
nesting of calls is bounded by that length. `checkDependencies` calls `disable`
only on a name that is enabled (on any other name its result does not depend on
`disable`), and a returning `disable` of an enabled name makes the enabled list
strictly shorter. The writes of the persisted array are counted on
`disableCount`, whose outcome is that of `disable`: when the key is in the
storage at the start, the number of writes during `disable(X)` plus the length
of the enabled list at the end is at most the length at the start; when the key
is absent (the enabled list reads as `[]`), exactly one write is made, the write
of `[]` by `getAllEnabled`. -/
theorem disable_terminates (s : State) (X : Option String) :
    (∀ fuel, s.enabled.length < fuel → disableFuel fuel s X = disable s X) ∧
    (∀ st, disable s X ≠ .error (.fuel, st)) ∧
    (∀ d1 d2 n, isEnabled s n = false →
      checkDependenciesWith d1 s n = checkDependenciesWith d2 s n) ∧
    (∀ s1, isEnabled s X = true → disable s X = .ok s1 →
      s1.enabled.length < s.enabled.length) ∧
    (∀ c, erased (disableCount (s.enabled.length + 1) ⟨s, true, c⟩ X) = disable s X ∧
      writes (disableCount (s.enabled.length + 1) ⟨s, true, c⟩ X) +
        (endState (disable s X)).enabled.length ≤ c + s.enabled.length ∧
      writes (disableCount (s.enabled.length + 1) ⟨s, true, c⟩ X) ≤ c + s.enabled.length) ∧
    (∀ c, s.enabled = [] →
      erased (disableCount (s.enabled.length + 1) ⟨s, false, c⟩ X) = disable s X ∧
      writes (disableCount (s.enabled.length + 1) ⟨s, false, c⟩ X) = c + 1) := by
  refine ⟨disableFuel_stable s X, fun st => disable_ne_fuel s st X,
    fun d1 d2 n h => checkDependenciesWith_not_enabled d1 d2 h,
    fun s1 he h => disableFuel_shortens (Nat.lt_succ_self _) he h, ?_, ?_⟩
  · intro c
    obtain ⟨h1, _, h3⟩ := disableCount_sim (s.enabled.length + 1) ⟨s, true, c⟩ X rfl
    have hend : (endStore (disableCount (s.enabled.length + 1) ⟨s, true, c⟩ X)).state =
        endState (erased (disableCount (s.enabled.length + 1) ⟨s, true, c⟩ X)) := by
      cases disableCount (s.enabled.length + 1) ⟨s, true, c⟩ X with
      | error e => rfl
      | ok t1 => rfl
    rw [hend, h1] at h3
    simp only at h3
    refine ⟨h1, h3, ?_⟩
    omega
  · intro c he
    obtain ⟨h1, _, h3⟩ := disableCount_cold s.enabled.length (t := ⟨s, false, c⟩) X rfl he
    exact ⟨h1, h3⟩

/-- C24 (witness): `disable('B')` where `B`, `A` (which depends on `B`) and `C`
are enabled and the key is in the storage: two writes, and one name left. -/
theorem disable_terminates_witness :
    erased (disableCount (cascadeState.enabled.length + 1) ⟨cascadeState, true, 0⟩
        (some "B")) = disable cascadeState (some "B") ∧
      writes (disableCount (cascadeState.enabled.length + 1) ⟨cascadeState, true, 0⟩
        (some "B")) = 2 ∧
      writes (disableCount (cascadeState.enabled.length + 1) ⟨cascadeState, true, 0⟩
        (some "B")) ≤ 0 + cascadeState.enabled.length :=
  ⟨((disable_terminates cascadeState (some "B")).2.2.2.2.1 0).1, by decide,
    ((disable_terminates cascadeState (some "B")).2.2.2.2.1 0).2.2⟩

/-- C25: on a registry with pairwise distinct names on which
`resolveDependencyGraph()` returns `L`, `reorderExtensions()` returns with
`getAll()` equal to `L` and the registry in dependency order; on the new
registry the resolution returns `L` again and `reorderExtensions()` changes
nothing. More generally, `reorderExtensions()` changes nothing on any registry
that is in dependency order, and the resolution returns its names in the order
of the registry. -/
theorem reorderExtensions_fixed_point (s : State) (L : List String)
    (hu : UniqueNames s.list) (hres : resolveDependencyGraph s.list = .ok L) :
    (∃ s1, reorderExtensions s = .ok s1 ∧ getAll s1 = L.map some ∧
      s1.enabled = s.enabled ∧ s1.init = s.init ∧ s1.log = s.log ∧
      InOrder [] s1.list ∧ resolveDependencyGraph s1.list = .ok L ∧
      reorderExtensions s1 = .ok s1) ∧
    (InOrder [] s.list →
      L = s.list.filterMap (fun e => e.name) ∧ reorderExtensions s = .ok s) := by
  obtain ⟨hnd, hom, _⟩ := resolve_ok hres
  have hreg : ∀ n ∈ L, Registered s.list n := fun n hn => (hom n).1 hn
  have hin : InOrder [] (L.filterMap (fun n => getExtension s.list (some n))) :=
    inOrder_filterMap hnd hreg (resolve_before hu hres) L [] rfl
  refine ⟨⟨{ s with list := L.filterMap (fun n => getExtension s.list (some n)) }, ?_, ?_,
    rfl, rfl, rfl, hin, ?_, reorderExtensions_inOrder hin⟩, ?_⟩
  · unfold reorderExtensions
    rw [hres]
  · exact getAll_filterMap_getExtension s.list L hreg
  · rw [resolve_inOrder hin, filterMap_name_filterMap L hreg]
  · intro h
    have h1 := resolve_inOrder h
    rw [hres] at h1
    exact ⟨Except.ok.inj h1, reorderExtensions_inOrder h⟩

/-- C25 (witness): the registry `[B, A]` in which `B` depends on `A`. -/
theorem reorderExtensions_fixed_point_witness :
    ∃ s1, reorderExtensions ⟨[mkExtension "B" (some ["A"]), mkExtension "A" none], [], [], []⟩ =
        .ok s1 ∧ getAll s1 = ["A", "B"].map some ∧
      s1.enabled = [] ∧ s1.init = [] ∧ s1.log = [] ∧
      InOrder [] s1.list ∧ resolveDependencyGraph s1.list = .ok ["A", "B"] ∧
      reorderExtensions s1 = .ok s1 :=
  (reorderExtensions_fixed_point
    ⟨[mkExtension "B" (some ["A"]), mkExtension "A" none], [], [], []⟩ ["A", "B"]
    (by decide) (by decide)).1

end TDE
